import Mathlib

/-!
# MySQL editor widget: bracket matcher, indent inferencer and case normalizer

A shallow embedding of the text-analysis core of `MySQL_Editor.cpp`.

* A `QString` is modelled as a `List Char`; offsets are list indices. (A character
  outside the Basic Multilingual Plane takes two offsets in a `QString`; no pattern and
  no test of the code tells such characters apart.)
* The two `QRegularExpression` patterns built in the constructor
  (`MySQL_Bracket_RegEx`, `SQL_Token_Regular_Expression`) are written as values of a
  small regular-expression type `RE`, one constructor per construct the patterns use,
  and are run by a backtracking matcher with the priority rules of PCRE
  (ordered alternation, greedy repetition, an unlimited repeat stops looping after an
  iteration that matched the empty string).
* `int` offsets that may become `-1` are `Int`.
-/

namespace MySQLEditor

/-! ## Regular expressions -/

/-- The regular-expression constructs used by the patterns of the editor. -/
inductive RE where
  /-- One character satisfying a predicate (a literal, a class, or `.`). -/
  | cls (p : Char → Bool)
  /-- Concatenation. -/
  | seq (a b : RE)
  /-- Ordered alternation `a|b`. -/
  | alt (a b : RE)
  /-- Greedy `a*`. -/
  | star (a : RE)
  /-- Greedy `a?`. -/
  | opt (a : RE)
  /-- The capturing group (the patterns have at most one, group 1). -/
  | cap (a : RE)

/-- Matcher state: the current offset, the text from that offset on, and the span of
capture group 1 when it has been set. -/
structure MState where
  pos : Nat
  rest : List Char
  g1 : Option (Nat × Nat)

/-- The loop of a greedy unlimited repeat. `step` runs one iteration of the body.
After an iteration that consumed nothing the loop is left (PCRE does not repeat a group
that matched the empty string); when the body or everything after it fails the repeat
is ended at the current offset. The counter bounds the number of iterations; `RE.run`
starts it above the number of characters left, which is never used up
(`starLoop_counter_irrelevant`). -/
def starLoop {α : Type} (step : MState → (MState → Option α) → Option α) :
    Nat → MState → (MState → Option α) → Option α
  | 0, st, k => k st
  | f + 1, st, k =>
    match step st (fun st' => if st'.pos = st.pos then k st' else starLoop step f st' k) with
    | some r => some r
    | none => k st

/-- Backtracking matcher in continuation-passing style: `re.run st k` matches `re` at
state `st` and hands every way of matching it, in priority order, to the continuation
`k` until `k` succeeds. -/
def RE.run {α : Type} : RE → MState → (MState → Option α) → Option α
  | .cls p, st, k =>
    match st.rest with
    | [] => none
    | c :: r => if p c then k { st with pos := st.pos + 1, rest := r } else none
  | .seq a b, st, k => a.run st (fun st' => b.run st' k)
  | .alt a b, st, k =>
    match a.run st k with
    | some r => some r
    | none => b.run st k
  | .star a, st, k => starLoop a.run (st.rest.length + 1) st k
  | .opt a, st, k =>
    match a.run st k with
    | some r => some r
    | none => k st
  | .cap a, st, k => a.run st (fun st' => k { st' with g1 := some (st.pos, st'.pos) })

/-- Greedy `a+`. -/
def RE.plus (a : RE) : RE := .seq a (.star a)

/-- A successful match: `capturedStart()`, `capturedEnd()` and the span of group 1. -/
structure Match where
  capturedStart : Nat
  capturedEnd : Nat
  group1 : Option (Nat × Nat)
deriving DecidableEq, Repr

/-- Leftmost match at or after offset `pos`, where `rest` is the text from `pos` on. -/
def searchFrom (re : RE) : Nat → List Char → Option Match
  | pos, [] => re.run ⟨pos, [], none⟩ (fun st => some ⟨pos, st.pos, st.g1⟩)
  | pos, c :: r =>
    match re.run ⟨pos, c :: r, none⟩ (fun st => some ⟨pos, st.pos, st.g1⟩) with
    | some m => some m
    | none => searchFrom re (pos + 1) r

/-- Model of `QRegularExpression::match(text, offset)`. -/
def RE.matchFrom (re : RE) (text : List Char) (offset : Nat) : Option Match :=
  searchFrom re offset (text.drop offset)

/-! ## The patterns of the constructor -/

/-- A literal character. -/
def isChar (c : Char) : Char → Bool := fun x => x == c

/-- A negated class `[^ab]` of one or two characters. -/
def notChars (l : List Char) : Char → Bool := fun x => !(l.contains x)

/-- The class `[()]`, `[,;]`. -/
def oneOf (l : List Char) : Char → Bool := fun x => l.contains x

/-- The class `.`: any character except a newline. -/
def anyChar : Char → Bool := fun x => x != '\n'

/-- The class `\s` (without Unicode properties): space, tab, LF, VT, FF, CR. -/
def isSpace : Char → Bool := fun x =>
  x == ' ' || x == '\t' || x == '\n' || x == '\x0b' || x == '\x0c' || x == '\r'

/-- The class `[A-Za-z0-9_]` (`keyword_characters`). -/
def isKeywordChar : Char → Bool := fun x =>
  ('A' ≤ x && x ≤ 'Z') || ('a' ≤ x && x ≤ 'z') || ('0' ≤ x && x ≤ '9') || x == '_'

/-- The constant `MySQL_Bracket_List`. -/
def MySQL_Bracket_List : List Char := ['(', ')']

/-- The pattern `"(?:[^\\"]|\\.)*"`. -/
def doublequoted_string : RE :=
  .seq (.cls (isChar '"'))
    (.seq (.star (.alt (.cls (notChars ['\\', '"'])) (.seq (.cls (isChar '\\')) (.cls anyChar))))
      (.cls (isChar '"')))

/-- The pattern `'(?:[^\\']|\\.)*'`. -/
def singlequoted_string : RE :=
  .seq (.cls (isChar '\''))
    (.seq (.star (.alt (.cls (notChars ['\\', '\''])) (.seq (.cls (isChar '\\')) (.cls anyChar))))
      (.cls (isChar '\'')))

/-- The pattern `/\*(?:[^*]*|\*[^/])*\*/`. -/
def c_style_comment : RE :=
  .seq (.cls (isChar '/')) (.seq (.cls (isChar '*'))
    (.seq (.star (.alt (.star (.cls (notChars ['*'])))
                       (.seq (.cls (isChar '*')) (.cls (notChars ['/'])))))
      (.seq (.cls (isChar '*')) (.cls (isChar '/')))))

/-- The pattern `#[^\n]*\n`. -/
def hash_comment : RE :=
  .seq (.cls (isChar '#')) (.seq (.star (.cls (notChars ['\n']))) (.cls (isChar '\n')))

/-- The pattern `--\s+[^\n]*\n`. -/
def doubledash_comment : RE :=
  .seq (.cls (isChar '-')) (.seq (.cls (isChar '-'))
    (.seq (RE.plus (.cls isSpace)) (.seq (.star (.cls (notChars ['\n']))) (.cls (isChar '\n')))))

/-- The pattern `[()]`. -/
def bracket_characters : RE := .cls (oneOf MySQL_Bracket_List)

/-- The constant `MySQL_Bracket_RegEx`. -/
def MySQL_Bracket_RegEx : RE :=
  .alt doublequoted_string (.alt singlequoted_string (.alt c_style_comment
    (.alt hash_comment (.alt doubledash_comment bracket_characters))))

/-- The backticked identifier pattern: a backtick, `[^x]+` for x the backtick, a backtick. -/
def backticked_identifier : RE :=
  .seq (.cls (isChar '`')) (.seq (RE.plus (.cls (notChars ['`']))) (.cls (isChar '`')))

/-- The pattern `[,;]`. -/
def significant_punctuation : RE := .cls (oneOf [',', ';'])

/-- The class `[^A-Za-z0-9_]`. -/
def notKeywordChar : Char → Bool := fun x => !(isKeywordChar x)

/-- The pattern `[^A-Za-z0-9_]?`. -/
def optional_keyword_delimiters : RE := .opt (.cls notKeywordChar)

/-- The pattern `[^A-Za-z0-9_]?([A-Za-z0-9_]+)[^A-Za-z0-9_]?`. -/
def potential_keyword : RE :=
  .seq optional_keyword_delimiters
    (.seq (.cap (RE.plus (.cls isKeywordChar))) optional_keyword_delimiters)

/-- The constant `SQL_Token_Regular_Expression`. -/
def SQL_Token_Regular_Expression : RE :=
  .alt doublequoted_string (.alt singlequoted_string (.alt c_style_comment
    (.alt hash_comment (.alt doubledash_comment (.alt bracket_characters
      (.alt significant_punctuation (.alt backticked_identifier potential_keyword)))))))

/-! ## Keyword classification sets -/

/-- The constant `MySQL_Keywords`. -/
def MySQL_Keywords : List String :=
  ["ACCESS", "ADD", "ALL", "ALTER", "ANALYZE", "AND", "AS", "ASC", "AUTO_INCREMENT", "BDB",
   "BERKELEYDB", "BETWEEN", "BOTH", "BY", "CASCADE", "CASE", "CHANGE", "CHARSET", "COLUMN",
   "COLUMNS", "CONSTRAINT", "CREATE", "CROSS", "CURRENT_DATE", "CURRENT_TIME",
   "CURRENT_TIMESTAMP", "DATABASE", "DATABASES", "DAY_HOUR", "DAY_MINUTE", "DAY_SECOND", "DEC",
   "DEFAULT", "DELAYED", "DELETE", "DESC", "DESCRIBE", "DISTINCT", "DISTINCTROW", "DROP",
   "ELSE", "ENCLOSED", "ESCAPED", "EXISTS", "EXPLAIN", "FIELDS", "FOR", "FOREIGN", "FROM",
   "FULL", "FULLTEXT", "FUNCTION", "GRANT", "GROUP", "HAVING", "HIGH_PRIORITY", "IF", "IGNORE",
   "IN", "INDEX", "INFILE", "INNER", "INNODB", "INSERT", "INTERVAL", "INTO", "IS", "JOIN",
   "KEY", "KEYS", "KILL", "LEADING", "LEFT", "LIKE", "LIMIT", "LINES", "LOAD", "LOCK",
   "LOW_PRIORITY", "MASTER_SERVER_ID", "MATCH", "MRG_MYISAM", "NATIONAL", "NATURAL", "NOT",
   "NULL", "NUMERIC", "ON", "OPTIMIZE", "OPTION", "OPTIONALLY", "OR", "ORDER", "OUTER",
   "OUTFILE", "PARTIAL", "PRECISION", "PRIMARY", "PRIVILEGES", "PROCEDURE", "PURGE", "READ",
   "REFERENCES", "REGEXP", "RENAME", "REPLACE", "REQUIRE", "RESTRICT", "RETURNS", "REVOKE",
   "RIGHT", "RLIKE", "SELECT", "SET", "SHOW", "SONAME", "SQL_BIG_RESULT",
   "SQL_CALC_FOUND_ROWS", "SQL_SMALL_RESULT", "SSL", "STARTING", "STATUS", "STRAIGHT_JOIN",
   "STRIPED", "TABLE", "TABLES", "TERMINATED", "THEN", "TO", "TRAILING", "TRUNCATE", "TYPE",
   "UNION", "UNIQUE", "UNLOCK", "UNSIGNED", "UPDATE", "USAGE", "USE", "USER_RESOURCES",
   "USING", "VALUES", "VARYING", "WHEN", "WHERE", "WHILE", "WITH", "WRITE", "XOR",
   "YEAR_MONTH", "ZEROFILL"]

/-- String functions. -/
def functions : List String :=
  ["ASCII", "BIN", "BIT_LENGTH", "CHAR", "CHARACTER_LENGTH", "CHAR_LENGTH", "CONCAT",
   "CONCAT_WS", "CONV", "ELT", "EXPORT_SET", "FIELD", "FIND_IN_SET", "HEX", "INSERT", "INSTR",
   "LCASE", "LEFT", "LENGTH", "LOAD_FILE", "LOCATE", "LOWER", "LPAD", "LTRIM", "MAKE_SET",
   "MID", "OCT", "OCTET_LENGTH", "ORD", "POSITION", "QUOTE", "REPEAT", "REPLACE", "REVERSE",
   "RIGHT", "RPAD", "RTRIM", "SOUNDEX", "SPACE", "SUBSTRING", "SUBSTRING_INDEX", "TRIM",
   "UCASE", "UPPER"]

/-- Mathematical functions. -/
def math_functions : List String :=
  ["ABS", "ACOS", "ASIN", "ATAN", "ATAN2", "CEILING", "COS", "COT", "DEGREES", "EXP", "FLOOR",
   "GREATEST", "LEAST", "LN", "LOG", "LOG10", "LOG2", "MOD", "PI", "POW", "POWER", "RADIANS",
   "RAND", "ROUND", "SIGN", "SIN", "SQRT", "TAN"]

/-- Date and time functions. -/
def date_time_functions : List String :=
  ["ADDDATE", "CURDATE", "CURRENT_DATE", "CURRENT_TIME", "CURRENT_TIMESTAMP", "CURTIME",
   "DATE_ADD", "DATE_FORMAT", "DATE_SUB", "DAYNAME", "DAYOFMONTH", "DAYOFWEEK", "DAYOFYEAR",
   "EXTRACT", "FROM_DAYS", "FROM_UNIXTIME", "NOW", "PERIOD_ADD", "PERIOD_DIFF", "QUARTER",
   "SECOND", "SEC_TO_TIME", "SUBDATE", "SYSDATE", "TIME_FORMAT", "TIME_TO_SEC", "TO_DAYS",
   "UNIX_TIMESTAMP", "WEEK", "WEEKDAY", "YEAR", "YEARWEEK"]

/-- Cast functions. -/
def cast_functions : List String :=
  ["CAST", "CONVERT"]

/-- Miscellaneous functions. -/
def misc_functions : List String :=
  ["AES_DECRYPT", "AES_ENCRYPT", "BENCHMARK", "BIT_COUNT", "CONNECTION_ID", "DATABASE",
   "DECODE", "DES_DECRYPT", "DES_ENCRYPT", "ENCODE", "ENCRYPT", "FORMAT", "FOUND_ROWS",
   "GET_LOCK", "IFNULL", "INET_ATON", "INET_NTOA", "ISNULL", "IS_FREE_LOCK", "LAST_INSERT_ID",
   "MASTER_POS_WAIT", "MD5", "PASSWORD", "RELEASE_LOCK", "SESSION_USER", "SHA", "SHA1",
   "SYSTEM_USER", "USER", "VERSION"]

/-- Aggregate functions. -/
def aggregate_functions : List String :=
  ["AVG", "BIT_AND", "BIT_OR", "BIT_XOR", "COUNT", "GROUP_CONCAT", "MAX", "MIN", "SEPARATOR",
   "STD", "STDDEV", "STDDEV_POP", "STDDEV_SAMP", "SUM", "VAR_POP", "VAR_SAMP", "VARIANCE"]

/-- String types. -/
def strings_types : List String :=
  ["BINARY", "BLOB", "CHAR", "CHARACTER", "ENUM", "LONGBLOB", "LONGTEXT", "MEDIUMBLOB",
   "MEDIUMTEXT", "TEXT", "TINYBLOB", "TINYTEXT", "VARBINARY", "VARCHAR", "SET"]

/-- Numeric types. -/
def numeric_types : List String :=
  ["BIGINT", "BIT", "BOOL", "BOOLEAN", "DEC", "DECIMAL", "DOUBLE", "FIXED", "FLOAT", "INT",
   "INTEGER", "LONG", "MEDIUMINT", "MIDDLEINT", "NUMERIC", "TINYINT", "REAL", "SERIAL",
   "SMALLINT"]

/-- Date and time types. -/
def date_time_types : List String :=
  ["DATE", "DATETIME", "TIME", "TIMESTAMP", "YEAR"]

/-- Interval units. -/
def date_time_intervals : List String :=
  ["MICROSECOND", "MINUTE", "HOUR", "DAY", "MONTH", "SECOND_MICROSECOND", "MINUTE_MICROSECOND",
   "MINUTE_SECOND", "HOUR_MICROSECOND", "HOUR_SECOND", "HOUR_MINUTE", "DAY_MICROSECOND",
   "DAY_SECOND", "DAY_MINUTE", "DAY_HOUR", "YEAR_MONTH"]

/-- The constant `MySQL_Functions`. -/
def MySQL_Functions : List String :=
  functions ++ math_functions ++ date_time_functions ++
    cast_functions ++ misc_functions ++ aggregate_functions

/-- The constant `MySQL_Types`. -/
def MySQL_Types : List String := strings_types ++ numeric_types ++ date_time_types

/-- The constant `MySQL_Intervals`. -/
def MySQL_Intervals : List String := date_time_intervals

/-- The constant `All_MySQL_Keywords`. -/
def All_MySQL_Keywords : List String :=
  MySQL_Keywords ++ MySQL_Functions ++ MySQL_Types ++ MySQL_Intervals

/-! ## QString helpers -/

/-- Model of `QString::toUpper`, on the ASCII letters (the normalizer applies it only to words
matched by `[A-Za-z0-9_]+`). -/
def toUpper (s : List Char) : List Char := s.map Char.toUpper

/-- Model of `QString::mid(position, n)`. -/
def mid (s : List Char) (position n : Nat) : List Char := (s.drop position).take n

/-- Model of `QString::left(n)`. -/
def left (s : List Char) (n : Nat) : List Char := s.take n

/-- Model of `QString::right(n)`. -/
def right (s : List Char) (n : Nat) : List Char := s.drop (s.length - n)

/-- Model of `QString::replace(position, n, after)`. -/
def replace (s : List Char) (position n : Nat) (after : List Char) : List Char :=
  s.take position ++ after ++ s.drop (position + n)

/-- Model of `QString::contains(QString)`: `needle` occurs in `hay` as a substring. -/
def qContains (hay needle : List Char) : Bool := hay.tails.any (fun t => needle.isPrefixOf t)

/-- Model of `QStringList::contains` on `All_MySQL_Keywords`. -/
def isAllKeyword (w : List Char) : Bool := All_MySQL_Keywords.contains (String.mk w)

/-- Model of `captured(0)`. -/
def Match.captured (m : Match) (text : List Char) : List Char :=
  mid text m.capturedStart (m.capturedEnd - m.capturedStart)

/-- Model of `captured(1)`: the null string when group 1 did not take part in the match. -/
def Match.captured1 (m : Match) (text : List Char) : List Char :=
  match m.group1 with
  | none => []
  | some (a, b) => mid text a (b - a)

/-- Model of `capturedStart(1)`: -1 when group 1 did not take part in the match. -/
def Match.capturedStart1 (m : Match) : Int :=
  match m.group1 with
  | none => -1
  | some (a, _) => a

/-! ## Bracket matcher -/

/-- One turn of the `while (regex_iterator.hasNext())` loop of `Compute_Bracket_Text`
for every match of the global iterator from `offset` on. The counter bounds the number
of matches; `none` when it is used up. -/
def bracketLoop (Source_Text : List Char) : Nat → Nat → List Char → Option (List Char)
  | 0, _, _ => none
  | f + 1, offset, bracket_text =>
    match MySQL_Bracket_RegEx.matchFrom Source_Text offset with
    | none => some bracket_text
    | some m =>
      let bracket_text' :=
        if m.capturedEnd - m.capturedStart = 1 ∧
            qContains MySQL_Bracket_List (m.captured Source_Text) = true then
          bracket_text.set m.capturedStart ((m.captured Source_Text).getD 0 ' ')
        else bracket_text
      bracketLoop Source_Text f m.capturedEnd bracket_text'

/-- Model of `MySQL_Editor::Compute_Bracket_Text`. -/
def Compute_Bracket_Text (Source_Text : List Char) : Option (List Char) :=
  bracketLoop Source_Text (Source_Text.length + 1) 0 (List.replicate Source_Text.length ' ')

/-- One update of `paren_level`: `up` raises it, `down` lowers it. -/
def levelStep (up down x : Char) (paren_level : Int) : Int :=
  if x = up then paren_level + 1 else if x = down then paren_level - 1 else paren_level

/-- The forward `while (match_position < Bracket_Text.length())` loop, run on the part
of the bracket text from `match_position` on. -/
def scanForward (o c : Char) : List Char → Nat → Int → Nat
  | [], match_position, _ => match_position
  | x :: r, match_position, paren_level =>
    if levelStep o c x paren_level = 0 then match_position
    else scanForward o c r (match_position + 1) (levelStep o c x paren_level)

/-- The backward `while (match_position >= 0)` loop; the result is -1 when the scan
passes the start of the text, `none` when it reads outside the bracket text. -/
def scanBackward (o c : Char) (Bracket_Text : List Char) : Nat → Int → Option Int
  | 0, paren_level =>
    match Bracket_Text[0]? with
    | none => none
    | some x => if levelStep c o x paren_level = 0 then some 0 else some (-1)
  | n + 1, paren_level =>
    match Bracket_Text[n + 1]? with
    | none => none
    | some x =>
      if levelStep c o x paren_level = 0 then some ((n + 1 : Nat) : Int)
      else scanBackward o c Bracket_Text n (levelStep c o x paren_level)

/-- The cached pair `Bracket_Source_Text`, `Bracket_Text`. -/
structure BracketCache where
  Bracket_Source_Text : List Char
  Bracket_Text : List Char
deriving DecidableEq, Repr

/-- Model of `MySQL_Editor::onTextChanged`. -/
def onTextChanged (plainText : List Char) : Option BracketCache :=
  match Compute_Bracket_Text plainText with
  | none => none
  | some bt => some ⟨plainText, bt⟩

/-- The cache agrees with the text it was computed from. -/
def BracketCache.inSync (cache : BracketCache) : Prop :=
  Compute_Bracket_Text cache.Bracket_Source_Text = some cache.Bracket_Text

/-- Model of `MySQL_Editor::Bracket_Match_Position` after the two refresh lines. -/
def matchPosition (target_text Bracket_Text : List Char) (Current_Position : Int) : Option Int :=
  if Current_Position < 0 ∨ Current_Position ≥ target_text.length ∨
      Current_Position ≥ Bracket_Text.length then some (-1)
  else
    let p := Current_Position.toNat
    match target_text[p]?, Bracket_Text[p]? with
    | some t, some b =>
      if ¬ (qContains MySQL_Bracket_List [t] = true) then some (-1)
      else if ¬ (b = t) then some (-1)
      else
        let match_position : Option Int :=
          if b = '(' then some (scanForward '(' ')' (Bracket_Text.drop p) p 0)
          else if b = ')' then scanBackward '(' ')' Bracket_Text p 0
          else if b = '[' then some (scanForward '[' ']' (Bracket_Text.drop p) p 0)
          else if b = ']' then scanBackward '[' ']' Bracket_Text p 0
          else some p
        match match_position with
        | none => none
        | some q => if q ≥ 0 ∧ q < Bracket_Text.length then some q else some (-1)
    | _, _ => none

/-- Model of `MySQL_Editor::Bracket_Match_Position`: the result for the document text
`target_text` and the cached pair; `none` when a step does not complete. -/
def Bracket_Match_Position (target_text : List Char) (cache : BracketCache)
    (Current_Position : Int) : Option Int :=
  match (if target_text.length ≠ cache.Bracket_Text.length
          then onTextChanged target_text else some cache) with
  | none => none
  | some cache1 =>
    match (if target_text ≠ cache1.Bracket_Source_Text
            then onTextChanged target_text else some cache1) with
    | none => none
    | some cache2 => matchPosition target_text cache2.Bracket_Text Current_Position

/-! ## Indent inferencer -/

/-- The inner `while` of `Compute_Current_Paren_Indent`: the offset of the nearest
newline at or before `newline_position`, -1 when there is none; `none` when it reads
outside the text. -/
def newlineBefore (Current_Text : List Char) : Nat → Option Int
  | 0 =>
    match Current_Text[0]? with
    | none => none
    | some x => if x = '\n' then some 0 else some (-1)
  | n + 1 =>
    match Current_Text[n + 1]? with
    | none => none
    | some x => if x = '\n' then some ((n + 1 : Nat) : Int) else newlineBefore Current_Text n

/-- The branch taken at the closest unmatched "(": the distance from the preceding
newline (after the inner loop its exit test always holds, so the outer loop is left). -/
def indentAt (Current_Text : List Char) (paren_position : Nat) : Option Int :=
  match newlineBefore Current_Text paren_position with
  | none => none
  | some newline_position => some ((paren_position : Int) - newline_position)

/-- The outer `while (paren_position >= 0)` of `Compute_Current_Paren_Indent`; the result
is `paren_indent`, `none` when it reads outside a string. -/
def parenIndentLoop (Current_Text bracket_text : List Char) : Nat → Int → Option Int
  | 0, paren_level =>
    match bracket_text[0]? with
    | none => none
    | some x =>
      if x = ')' then some 0
      else if x = '(' then
        if paren_level + 1 = 1 then indentAt Current_Text 0 else some 0
      else some 0
  | n + 1, paren_level =>
    match bracket_text[n + 1]? with
    | none => none
    | some x =>
      if x = ')' then parenIndentLoop Current_Text bracket_text n (paren_level - 1)
      else if x = '(' then
        if paren_level + 1 = 1 then indentAt Current_Text (n + 1)
        else parenIndentLoop Current_Text bracket_text n (paren_level + 1)
      else parenIndentLoop Current_Text bracket_text n paren_level

/-- Model of `MySQL_Editor::Compute_Current_Paren_Indent`; `none` when the function would read
outside a string or a step does not complete. -/
def Compute_Current_Paren_Indent (Current_Text : List Char) (Current_Position : Int) :
    Option Int :=
  match Compute_Bracket_Text Current_Text with
  | none => none
  | some bracket_text =>
    if Current_Position < 0 then some 0
    else parenIndentLoop Current_Text bracket_text Current_Position.toNat 0

/-! ## Case normalizer -/

/-- The local variables of the scan loop of `Uppercase_SQL_Keywords`. -/
structure UState where
  sql_text : List Char
  sql_text_idx : Int
  first_modified_position : Int
  last_modified_position : Int
  modified : Bool

/-- The constant `INT_MAX`. -/
def INT_MAX : Int := 2147483647

/-- The string "`." of delimiters that turn a keyword into a plain name. -/
def delimiters : List Char := ['`', '.']

/-- The body of the scan loop of `Uppercase_SQL_Keywords`. -/
def uppercaseBody (s : UState) : UState :=
  match SQL_Token_Regular_Expression.matchFrom s.sql_text s.sql_text_idx.toNat with
  | none => { s with sql_text_idx := -1 }
  | some m =>
    let new_sql_text_idx : Int := m.capturedEnd
    let word := m.captured1 s.sql_text
    if word.length > 0 then
      let entire_word_capture := m.captured s.sql_text
      let leading_delimiter := qContains delimiters (left entire_word_capture 1)
      let trailing_delimiter := qContains delimiters (right entire_word_capture 1)
      let s1 : UState :=
        if isAllKeyword (toUpper word) = true ∧ ¬ (word = toUpper word) ∧
            ¬ (leading_delimiter = true) ∧ ¬ (trailing_delimiter = true) then
          let word_index := m.capturedStart1
          { s with
            sql_text := replace s.sql_text word_index.toNat word.length (toUpper word)
            first_modified_position :=
              if word_index < s.first_modified_position then word_index
              else s.first_modified_position
            last_modified_position :=
              if word_index + word.length > s.last_modified_position
              then word_index + word.length else s.last_modified_position
            modified := true }
        else s
      if left entire_word_capture 1 = ['`'] ∧ right entire_word_capture 1 = ['`'] then
        { s1 with sql_text_idx := new_sql_text_idx }
      else if right entire_word_capture 1 = ['.'] then
        { s1 with sql_text_idx := new_sql_text_idx - 1 }
      else { s1 with sql_text_idx := new_sql_text_idx }
    else { s with sql_text_idx := new_sql_text_idx }

/-- The scan loop `while ((sql_text_idx >= 0) and (sql_text_idx <= bound))`; the
counter bounds the number of turns, `none` when it is used up. -/
def uppercaseLoop (bound : Int) : Nat → UState → Option UState
  | 0, _ => none
  | f + 1, s =>
    if 0 ≤ s.sql_text_idx ∧ s.sql_text_idx ≤ bound then uppercaseLoop bound f (uppercaseBody s)
    else some s

/-- The test `lastIndexOf(QRegExp("/\\*|\\*/"), 0)` of the whole-text call: searching
backward from offset 0 only offset 0 is tried, and the delimiter found there is the
opening one. -/
def inside_c_style_comment (sql_text : List Char) : Bool :=
  match sql_text with
  | '/' :: '*' :: _ => true
  | _ => false

/-- Model of `MySQL_Editor::Uppercase_SQL_Keywords(0, 0)` with the re-entrancy flag clear, on
the whole document text: the document text after the call (`none` when the scan does
not complete within its bound). The modified portion
`[first_modified_position, last_modified_position)` of the document is replaced by the
same portion of the rewritten `sql_text`. -/
def Uppercase_SQL_Keywords (plainText : List Char) : Option (List Char) :=
  if inside_c_style_comment plainText = true then some plainText
  else
    match uppercaseLoop plainText.length (plainText.length + 2)
        ⟨plainText, 0, INT_MAX, -1, false⟩ with
    | none => none
    | some s =>
      if s.modified = true then
        some (replace plainText s.first_modified_position.toNat
          (s.last_modified_position - s.first_modified_position).toNat
          (mid s.sql_text s.first_modified_position.toNat
            (s.last_modified_position - s.first_modified_position).toNat))
      else some plainText

/-! ## Tokenizer (`MySQL_Editor_Highlighter::highlightBlock`) -/

/-- The classification of characters above U+007F by the Unicode tables of Qt, which are
not part of the repository, and the upper-case form of strings that hold such
characters: they are parameters of the tokenizer. -/
structure QCharTables where
  /-- The letter test `QChar::isLetter_helper` for characters above U+007F. -/
  isLetter_helper : Char → Bool
  /-- The decimal digit test (category `Number_DecimalDigit`) for characters above
  U+007F. -/
  isDigit_helper : Char → Bool
  /-- The result of `QString::toUpper` on a string that holds a character above
  U+007F. -/
  toUpper_helper : List Char → List Char

/-- Model of `QChar::isSpace`: the space, the characters U+0009 to U+000D, U+0085, U+00A0
and the characters of the Unicode categories Zs, Zl and Zp. -/
def qIsSpace (c : Char) : Bool :=
  c == ' ' || ('\t' ≤ c && c ≤ '\r') || c.toNat == 0x85 || c.toNat == 0xA0 ||
    c.toNat == 0x1680 || (0x2000 ≤ c.toNat && c.toNat ≤ 0x200A) || c.toNat == 0x2028 ||
    c.toNat == 0x2029 || c.toNat == 0x202F || c.toNat == 0x205F || c.toNat == 0x3000

/-- Model of `QChar::isLetter`. -/
def qIsLetter (u : QCharTables) (c : Char) : Bool :=
  (('A' ≤ c && c ≤ 'z') && ('a' ≤ c || c ≤ 'Z')) || (decide (c.toNat > 127) && u.isLetter_helper c)

/-- Model of `QChar::isDigit`. -/
def qIsDigit (u : QCharTables) (c : Char) : Bool :=
  ('0' ≤ c && c ≤ '9') || (decide (c.toNat > 127) && u.isDigit_helper c)

/-- Model of `QString::toUpper` on any string. -/
def qToUpper (u : QCharTables) (s : List Char) : List Char :=
  if s.all (fun c => decide (c.toNat ≤ 127)) then toUpper s else u.toUpper_helper s

/-- Model of `QString::trimmed`. -/
def trimmed (s : List Char) : List Char :=
  ((s.dropWhile qIsSpace).reverse.dropWhile qIsSpace).reverse

/-- The color components the tokenizer formats spans with. -/
inductive TokenKind where
  | Normal | Comment | Operator | Number | String | Keyword | Function | Type | Interval
  | Identifier
deriving DecidableEq, Repr

/-- A formatted span of the line: what a call of `setFormat` applies. -/
structure Token where
  kind : TokenKind
  start : Nat
  length : Nat
deriving DecidableEq, Repr

/-- Model of `QSyntaxHighlighter::setFormat(start, count, format)` on a line of
`textLength` characters: nothing is formatted when `start` is not an offset of the line,
and the span is cut at the end of the line. The spans formatted are kept in call
order. -/
def setFormat (textLength start count : Nat) (kind : TokenKind) (tokens : List Token) :
    List Token :=
  if start ≥ textLength ∨ count = 0 then tokens
  else tokens ++ [⟨kind, start, min (start + count) textLength - start⟩]

/-- The local variables of `highlightBlock`. -/
structure HState where
  i : Nat
  start : Nat
  state : Nat
  bracketLevel : Int
  bracketPositions : List Nat
  tokens : List Token
deriving DecidableEq, Repr

/-- Model of `isKeyword`. -/
def isKeyword (w : List Char) : Bool := MySQL_Keywords.contains (String.mk w)

/-- Model of `isFunction`. -/
def isFunction (w : List Char) : Bool := MySQL_Functions.contains (String.mk w)

/-- Model of `isType`. -/
def isType (w : List Char) : Bool := MySQL_Types.contains (String.mk w)

/-- Model of `isInterval`. -/
def isInterval (w : List Char) : Bool := MySQL_Intervals.contains (String.mk w)

/-- The kind given to a word-like span on leaving the `Identifier` state: `token` is the
trimmed span and `ch` the character that ends it. -/
def identifierKind (u : QCharTables) (token : List Char) (ch : Char) : TokenKind :=
  if token.head? = some '.' ∨ ch = '.' then TokenKind.Identifier
  else if isKeyword (qToUpper u token) then TokenKind.Keyword
  else if isFunction (qToUpper u token) then TokenKind.Function
  else if isType (qToUpper u token) then TokenKind.Type
  else if isInterval (qToUpper u token) then TokenKind.Interval
  else TokenKind.Identifier

/-- One turn of the `while (i <= text.length())` loop of `highlightBlock`; `none` when
the turn reads `text.at(start)` outside the line. The states are `Start = 0`,
`Number = 1`, `Identifier = 2`, `Backticked_Identifier = 3`, `String = 4`, `Comment = 5`
and `To_EOL_Comment = 6`. -/
def highlightStep (u : QCharTables) (text : List Char) (s : HState) : Option HState :=
  let ch : Char := text.getD s.i '\x00'
  let next_ch : Char := text.getD (s.i + 1) '\x00'
  match s.state with
  | 0 =>
    let s := { s with start := s.i }
    if qIsSpace ch then some { s with i := s.i + 1 }
    else if qIsDigit u ch then some { s with i := s.i + 1, state := 1 }
    else if (ch = '+' ∨ ch = '-') ∧ qIsDigit u next_ch = true then
      some { s with i := s.i + 2, state := 1 }
    else if qIsLetter u ch = true ∨ ch = '_' ∨ ch = '$' then
      some { s with i := s.i + 1, state := 2 }
    else if (ch = '.' ∨ ch = '@') ∧ (qIsLetter u next_ch = true ∨ next_ch = '_' ∨ next_ch = '$') then
      some { s with i := s.i + 2, state := 2 }
    else if ch = '`' then some { s with i := s.i + 1, state := 3 }
    else if ch = '\'' ∨ ch = '"' then some { s with i := s.i + 1, state := 4 }
    else if ch = '/' ∧ next_ch = '*' then some { s with i := s.i + 2, state := 5 }
    else if ch = '#' then some { s with i := s.i + 1, state := 6 }
    else if ch = '-' ∧ next_ch = '-' then some { s with i := s.i + 2, state := 6 }
    else if ch = '/' ∧ next_ch = '/' then
      some { s with i := text.length
                    tokens := setFormat text.length s.start text.length TokenKind.Comment s.tokens }
    else
      let tokens :=
        if ¬ (['(', ')', '{', '}', '[', ']'].contains ch = true) then
          setFormat text.length s.start 1 TokenKind.Operator s.tokens
        else s.tokens
      let s := { s with tokens := tokens }
      let s :=
        if ch = '(' ∨ ch = ')' then
          { s with bracketPositions := s.bracketPositions ++ [s.i]
                   bracketLevel := if ch = '(' then s.bracketLevel + 1 else s.bracketLevel - 1 }
        else s
      some { s with i := s.i + 1, state := 0 }
  | 1 =>
    if qIsSpace ch = true ∨
        ¬ (qIsDigit u ch = true ∨ ch = '.' ∨ ch = '+' ∨ ch = '-' ∨ ch = 'E' ∨ ch = 'e') then
      some { s with tokens := setFormat text.length s.start (s.i - s.start) TokenKind.Number s.tokens
                    state := 0 }
    else some { s with i := s.i + 1 }
  | 2 =>
    if qIsSpace ch = true ∨ ¬ (qIsLetter u ch = true ∨ qIsDigit u ch = true ∨ ch = '_' ∨ ch = '$') then
      let token := trimmed (mid text s.start (s.i - s.start))
      some { s with tokens := setFormat text.length s.start (s.i - s.start)
                      (identifierKind u token ch) s.tokens
                    state := 0 }
    else some { s with i := s.i + 1 }
  | 3 =>
    if ch = '`' then
      some { s with i := s.i + 1
                    tokens := setFormat text.length s.start (s.i + 1 - s.start)
                      TokenKind.Identifier s.tokens
                    state := 0 }
    else some { s with i := s.i + 1 }
  | 4 =>
    if ch = '\\' ∧ (next_ch = '\\' ∨ next_ch = '\'' ∨ next_ch = '"' ∨ next_ch = 'b' ∨
        next_ch = 'r' ∨ next_ch = 'f' ∨ next_ch = 't' ∨ next_ch = 'v') then
      some { s with i := s.i + 2 }
    else
      match text[s.start]? with
      | none => none
      | some quote =>
        if ch = quote then
          let prev_prev : Char := if s.i > 1 then text.getD (s.i - 2) '\x00' else '\x00'
          let prev : Char := if s.i > 0 then text.getD (s.i - 1) '\x00' else '\x00'
          if ¬ (prev = '\\') ∨ (prev_prev = '\\' ∧ prev = '\\') then
            some { s with i := s.i + 1
                          tokens := setFormat text.length s.start (s.i + 1 - s.start)
                            TokenKind.String s.tokens
                          state := 0 }
          else some { s with i := s.i + 1 }
        else some { s with i := s.i + 1 }
  | 5 =>
    if ch = '*' ∧ next_ch = '/' then
      some { s with i := s.i + 2
                    tokens := setFormat text.length s.start (s.i + 2 - s.start)
                      TokenKind.Comment s.tokens
                    state := 0 }
    else some { s with i := s.i + 1 }
  | 6 =>
    if ch = '\n' ∨ ch = '\x00' then
      some { s with tokens := setFormat text.length s.start (s.i - s.start)
                      TokenKind.Comment s.tokens
                    state := 0 }
    else some { s with i := s.i + 1 }
  | _ => some { s with state := 0 }

/-- The loop `while (i <= text.length())` of `highlightBlock`; the counter bounds the
number of turns, `none` when it is used up or when a turn reads outside the line. -/
def highlightLoop (u : QCharTables) (text : List Char) : Nat → HState → Option HState
  | 0, _ => none
  | f + 1, s =>
    if s.i ≤ text.length then
      match highlightStep u text s with
      | none => none
      | some s' => highlightLoop u text f s'
    else some s

/-- What `highlightBlock` leaves behind for a line: the spans formatted by the scan, the
bracket positions recorded and the value passed to `setCurrentBlockState`. -/
structure Highlighted where
  tokens : List Token
  bracketPositions : List Nat
  blockState : Int
deriving DecidableEq, Repr

/-- The value a 32-bit `int` holds for the integer `x`, with wrap-around. -/
def toInt32 (x : Int) : Int := (x + 2147483648) % 4294967296 - 2147483648

/-- Model of `MySQL_Editor_Highlighter::highlightBlock` without the marking of the search
string: `previousBlockState` is the state value of the previous line (-1 for the first
line); `none` when the scan does not complete. The bracket level is counted as an
integer during the scan; the state value `(state & 15) | (bracketLevel << 4)` is a 32-bit
`int`, the 32-bit value of `state + 16 * bracketLevel`. -/
def highlightBlock (u : QCharTables) (text : List Char) (previousBlockState : Int) :
    Option Highlighted :=
  let blockState := previousBlockState
  let bracketLevel : Int := if blockState < 0 then 0 else blockState / 16
  let state : Nat := if blockState < 0 then 0 else (blockState % 16).toNat
  match highlightLoop u text (2 * text.length + 4) ⟨0, 0, state, bracketLevel, [], []⟩ with
  | none => none
  | some s =>
    let tokens :=
      if s.state = 5 then setFormat text.length s.start text.length TokenKind.Comment s.tokens
      else s.tokens
    let state : Nat := if s.state = 5 then 5 else 0
    some ⟨tokens, s.bracketPositions, toInt32 ((state % 16 : Nat) + s.bracketLevel * 16)⟩

/-! ## Simple reformatter (`MySQL_Editor::Simple_Format_SQL`) -/

/-- The constant `Newline_Word_List`. -/
def Newline_Word_List : List String :=
  ["SELECT", "UPDATE", "SET", "DELETE", "INSERT", "VALUES", "FROM", "LEFT", "RIGHT", "INNER",
   "OUTER", "JOIN", "ON", "UNION", "WHERE", "ORDER", "GROUP", "HAVING", "LIMIT"]

/-- The constant `JOIN_Modifiers`. -/
def JOIN_Modifiers : List String := ["LEFT", "RIGHT", "INNER", "OUTER"]

/-- The string `significant_punctuation` of `Simple_Format_SQL`: `MySQL_Bracket_List`
followed by the comma and the semicolon. -/
def significant_punctuation_string : List Char := MySQL_Bracket_List ++ [',', ';']

/-- The list `newline_after_tokens`. -/
def newline_after_tokens : List String := [",", "VALUES"]

/-- The list `comma_newline_words`. -/
def comma_newline_words : List String := ["SELECT", "VALUES"]

/-- Model of `QMap::operator[]` used as an assignment: the entries are kept in
increasing key order and an entry with the same key is replaced. -/
def mapInsert (k : Nat) (v : List Char) : List (Nat × List Char) → List (Nat × List Char)
  | [] => [(k, v)]
  | (k', v') :: r =>
    if k < k' then (k, v) :: (k', v') :: r
    else if k = k' then (k, v) :: r
    else (k', v') :: mapInsert k v r

/-- The local variables of the scan loop of `Simple_Format_SQL`. -/
structure FState where
  sql_text : List Char
  sql_text_idx : Int
  modified : Bool
  paren_level : Int
  current_newline_word : List Char
  insert_newline_tokens : List (Nat × List Char)
deriving DecidableEq, Repr

/-- The body of the scan loop of `Simple_Format_SQL`. -/
def formatBody (s : FState) : FState :=
  match SQL_Token_Regular_Expression.matchFrom s.sql_text s.sql_text_idx.toNat with
  | none => { s with sql_text_idx := -1 }
  | some m =>
    let word_idx := m.capturedStart
    let new_sql_text_idx : Int := m.capturedEnd
    let token_capture := m.captured s.sql_text
    let word := m.captured1 s.sql_text
    if qContains significant_punctuation_string token_capture = true then
      let s1 : FState :=
        if token_capture = ['('] then { s with paren_level := s.paren_level + 1 }
        else if token_capture = [')'] then { s with paren_level := s.paren_level - 1 }
        else if token_capture = [','] then
          if s.paren_level = 0 ∧
              comma_newline_words.contains (String.mk s.current_newline_word) = true then
            { s with insert_newline_tokens :=
                mapInsert word_idx token_capture s.insert_newline_tokens }
          else s
        else s
      { s1 with sql_text_idx := new_sql_text_idx }
    else if word.length > 0 then
      let leading_delimiter := qContains delimiters (left token_capture 1)
      let trailing_delimiter := qContains delimiters (right token_capture 1)
      let s1 : FState :=
        if isAllKeyword (toUpper word) = true ∧ ¬ (leading_delimiter = true) ∧
            ¬ (trailing_delimiter = true) then
          let word_index := m.capturedStart1
          let s2 : FState :=
            if ¬ (word = toUpper word) then
              { s with sql_text := replace s.sql_text word_index.toNat word.length (toUpper word)
                       modified := true }
            else s
          if Newline_Word_List.contains (String.mk (toUpper word)) = true then
            { s2 with current_newline_word := toUpper word
                      insert_newline_tokens :=
                        mapInsert word_index.toNat (toUpper word) s2.insert_newline_tokens }
          else s2
        else s
      if left token_capture 1 = ['`'] ∧ right token_capture 1 = ['`'] then
        { s1 with sql_text_idx := new_sql_text_idx }
      else if right token_capture 1 = ['.'] then
        { s1 with sql_text_idx := new_sql_text_idx - 1 }
      else { s1 with sql_text_idx := new_sql_text_idx }
    else { s with sql_text_idx := new_sql_text_idx }

/-- The scan loop `while ((sql_text_idx >= 0) and (sql_text_idx <= sql_text_length))` of
`Simple_Format_SQL`; the counter bounds the number of turns, `none` when it is used
up. -/
def formatLoop (sql_text_length : Int) : Nat → FState → Option FState
  | 0, _ => none
  | f + 1, s =>
    if 0 ≤ s.sql_text_idx ∧ s.sql_text_idx ≤ sql_text_length then
      formatLoop sql_text_length f (formatBody s)
    else some s

/-- The two loops that look for a newline next to a token: the characters are read in
scan order; a newline is found when only space characters come before it. -/
def scanNewline : List Char → Bool
  | [] => false
  | c :: r => if c = '\n' then true else if ¬ (qIsSpace c = true) then false else scanNewline r

/-- Model of `QString::insert(position, str)` for a position inside the string. -/
def insertAt (s : List Char) (position : Nat) (str : List Char) : List Char :=
  s.take position ++ str ++ s.drop position

/-- The value `from_index`: when the first recorded token is `SELECT`, the index of the
first recorded `FROM`, otherwise -1. -/
def fromIndex (tokens : List (Nat × List Char)) : Int :=
  match tokens with
  | [] => -1
  | (_, v) :: _ =>
    if v = "SELECT".toList then
      match tokens.findIdx? (fun e => e.2 == "FROM".toList) with
      | some i => i
      | none => -1
    else -1

/-- One turn of the backward loop over the recorded tokens, for the token of index
`token_idx`: the newline after it, then the newline before it. The length
`sql_text_length` is the one of the text before the call. -/
def insertNewlines (sql_text_length : Nat) (from_index : Int)
    (tokens : List (Nat × List Char)) (token_idx : Nat) (st : List Char × Bool) :
    List Char × Bool :=
  let key := (tokens.getD token_idx (0, [])).1
  let current_token := (tokens.getD token_idx (0, [])).2
  let st1 : List Char × Bool :=
    if newline_after_tokens.contains (String.mk current_token) = true then
      let found_newline :=
        scanNewline ((st.1.take sql_text_length).drop (key + current_token.length))
      if ¬ (found_newline = true) then
        let ch_idx := key + current_token.length +
          (((st.1.take sql_text_length).drop (key + current_token.length)).takeWhile
            qIsSpace).length
        let insert_newline :=
          if current_token = [','] ∧ from_index ≥ 0 ∧ (token_idx : Int) < from_index then
            "\n       ".toList
          else "\n".toList
        (insertAt st.1 ch_idx insert_newline, true)
      else st
    else st
  if key > 0 then
    if ¬ (current_token = [',']) then
      let previous_word :=
        if token_idx > 0 then (tokens.getD (token_idx - 1) (0, [])).2 else []
      if ¬ (current_token = "JOIN".toList ∧
          JOIN_Modifiers.contains (String.mk previous_word) = true) then
        let found_newline := scanNewline (st1.1.take key).reverse
        if ¬ (found_newline = true) then (insertAt st1.1 key "\n".toList, true)
        else st1
      else st1
    else st1
  else st1

/-- The backward loop `for (token_idx = count - 1; token_idx >= 0; token_idx -= 1)`:
`n` is the number of tokens still to be handled. -/
def insertLoop (sql_text_length : Nat) (from_index : Int) (tokens : List (Nat × List Char)) :
    Nat → List Char × Bool → List Char × Bool
  | 0, st => st
  | n + 1, st =>
    insertLoop sql_text_length from_index tokens n
      (insertNewlines sql_text_length from_index tokens n st)

/-- Model of `MySQL_Editor::Simple_Format_SQL`: the document text after the call on the
document text `plainText`; `none` when the scan loop does not complete within its
bound. -/
def Simple_Format_SQL (plainText : List Char) : Option (List Char) :=
  match formatLoop plainText.length (plainText.length + 2)
      ⟨plainText, 0, false, 0, [], []⟩ with
  | none => none
  | some s =>
    let r := insertLoop plainText.length (fromIndex s.insert_newline_tokens)
      s.insert_newline_tokens s.insert_newline_tokens.length (s.sql_text, s.modified)
    if r.2 = true then some r.1 else some plainText

/-! ## Properties of expressions and the declarative reading of the matcher -/

/-- Every character test of the expression gives the same answer for a character and
its upper-case form. -/
def RE.CaseFree : RE → Prop
  | .cls p => ∀ c : Char, p c.toUpper = p c
  | .seq a b => a.CaseFree ∧ b.CaseFree
  | .alt a b => a.CaseFree ∧ b.CaseFree
  | .star a => a.CaseFree
  | .opt a => a.CaseFree
  | .cap a => a.CaseFree

/-- The state over the upper-cased text. -/
def MState.up (st : MState) : MState := ⟨st.pos, st.rest.map Char.toUpper, st.g1⟩

/-- The expression cannot match the empty string. -/
def RE.nonNull : RE → Bool
  | .cls _ => true
  | .seq a b => a.nonNull || b.nonNull
  | .alt a b => a.nonNull && b.nonNull
  | .star _ => false
  | .opt _ => false
  | .cap a => a.nonNull

/-- The expression has no capturing group. -/
def RE.noCap : RE → Bool
  | .cls _ => true
  | .seq a b => a.noCap && b.noCap
  | .alt a b => a.noCap && b.noCap
  | .star a => a.noCap
  | .opt a => a.noCap
  | .cap _ => false

/-- Declarative reading of the matcher: `Reach re st st'` when `re` can match from
state `st` and leave the matcher in state `st'`. -/
inductive Reach : RE → MState → MState → Prop
  | cls {p : Char → Bool} {st : MState} {c : Char} {r : List Char} :
      st.rest = c :: r → p c = true →
      Reach (.cls p) st { st with pos := st.pos + 1, rest := r }
  | seq {a b : RE} {st st1 st2 : MState} :
      Reach a st st1 → Reach b st1 st2 → Reach (.seq a b) st st2
  | altL {a b : RE} {st st' : MState} : Reach a st st' → Reach (.alt a b) st st'
  | altR {a b : RE} {st st' : MState} : Reach b st st' → Reach (.alt a b) st st'
  | starNil {a : RE} {st : MState} : Reach (.star a) st st
  | starCons {a : RE} {st st1 st2 : MState} :
      Reach a st st1 → Reach (.star a) st1 st2 → Reach (.star a) st st2
  | optSome {a : RE} {st st' : MState} : Reach a st st' → Reach (.opt a) st st'
  | optNone {a : RE} {st : MState} : Reach (.opt a) st st
  | cap {a : RE} {st st' : MState} :
      Reach a st st' → Reach (.cap a) st { st' with g1 := some (st.pos, st'.pos) }

/-! ## Auxiliary notions for the case normalizer -/

/-- What one turn of the scan loop decides from the text and the scan offset: the span
`[a, b)` of the word, whether the word is to be kept upper case (it is in
`All_MySQL_Keywords` once upper-cased and has no backtick or dot delimiter), and the next
scan offset. -/
def stepData (text : List Char) (idx : Int) : Nat × Nat × Bool × Int :=
  match SQL_Token_Regular_Expression.matchFrom text idx.toNat with
  | none => (0, 0, false, -1)
  | some m =>
    match m.group1 with
    | none => (0, 0, false, m.capturedEnd)
    | some (a, b) =>
      if b - a > 0 then
        (a, b,
          isAllKeyword (toUpper (mid text a (b - a))) &&
            !(qContains delimiters (left (m.captured text) 1)) &&
            !(qContains delimiters (right (m.captured text) 1)),
          if left (m.captured text) 1 = ['`'] ∧ right (m.captured text) 1 = ['`'] then
            (m.capturedEnd : Int)
          else if right (m.captured text) 1 = ['.'] then (m.capturedEnd : Int) - 1
          else (m.capturedEnd : Int))
      else (0, 0, false, m.capturedEnd)

/-- The state after one turn of the scan loop, from what the turn decided. -/
def applyStep (s : UState) (d : Nat × Nat × Bool × Int) : UState :=
  if d.2.2.1 = true ∧ ¬ (mid s.sql_text d.1 (d.2.1 - d.1) = toUpper (mid s.sql_text d.1 (d.2.1 - d.1)))
  then
    { sql_text := replace s.sql_text d.1 (d.2.1 - d.1) (toUpper (mid s.sql_text d.1 (d.2.1 - d.1)))
      sql_text_idx := d.2.2.2
      first_modified_position :=
        if (d.1 : Int) < s.first_modified_position then d.1 else s.first_modified_position
      last_modified_position :=
        if (d.2.1 : Int) > s.last_modified_position then d.2.1 else s.last_modified_position
      modified := true }
  else { s with sql_text_idx := d.2.2.2 }

/-- The text `T` is `t` with some characters replaced by their upper-case form. -/
def UpTo (t T : List Char) : Prop :=
  T.length = t.length ∧
    ∀ (i : Nat) (c : Char), t[i]? = some c → T[i]? = some c ∨ T[i]? = some c.toUpper

/-- The scan offset is -1 or inside the text, and the text has length `L`. -/
def ScanOk (L : Nat) (s : UState) : Prop :=
  s.sql_text.length = L ∧ (s.sql_text_idx = -1 ∨ (0 ≤ s.sql_text_idx ∧ s.sql_text_idx ≤ L))

/-- The bookkeeping of the modified portion: before the first rewrite the text is the
original one; afterwards `[first_modified_position, last_modified_position)` is a
range inside the text outside which the text is the original one. -/
def Track (orig : List Char) (s : UState) : Prop :=
  (s.modified = false →
    s.sql_text = orig ∧ s.first_modified_position = INT_MAX ∧ s.last_modified_position = -1) ∧
  (s.modified = true →
    0 ≤ s.first_modified_position ∧ s.first_modified_position ≤ s.last_modified_position ∧
    s.last_modified_position ≤ orig.length ∧
    ∀ i : Nat, ((i : Int) < s.first_modified_position ∨ s.last_modified_position ≤ (i : Int)) →
      s.sql_text[i]? = orig[i]?)

/-- Every offset where `T` differs from `t` holds a lower-case letter in `t` and its
upper-case form in `T`, and lies in a word of `t` that is in `All_MySQL_Keywords` once
upper-cased. -/
def KeywordRewrite (t T : List Char) : Prop :=
  ∀ (i : Nat) (c : Char), t[i]? = some c → T[i]? ≠ some c →
    c.isLower = true ∧ T[i]? = some c.toUpper ∧
    ∃ a b : Nat, a ≤ i ∧ i < b ∧ b ≤ t.length ∧ isAllKeyword (toUpper (mid t a (b - a))) = true

/-! ## Auxiliary notions for the bracket matcher -/

/-- Every cell of the bracket text is blank or holds the parenthesis the text has at the
same offset. -/
def BracketCells (text bt : List Char) : Prop :=
  bt.length = text.length ∧
    ∀ (i : Nat) (c : Char), bt[i]? = some c →
      c = ' ' ∨ ((c = '(' ∨ c = ')') ∧ text[i]? = some c)

/-- The nesting depth before offset `i`: the number of "(" minus the number of ")" among
the first `i` cells. -/
def height (bt : List Char) (i : Nat) : Int :=
  ((bt.take i).count '(' : Int) - ((bt.take i).count ')' : Int)

/-! ## Reference definition of the bracket match -/

/-- The least `q` with `P q` among `start, start + 1, ...` (`n` candidates). -/
def findLeast (P : Nat → Bool) : Nat → Nat → Option Nat
  | 0, _ => none
  | n + 1, start => if P start then some start else findLeast P n (start + 1)

/-- The greatest `q < n` with `P q`. -/
def findGreatestBelow (P : Nat → Bool) : Nat → Option Nat
  | 0 => none
  | n + 1 => if P n then some n else findGreatestBelow P n

/-- The segment `[p..q]` of the bracket map holds equally many "(" and ")". -/
def segmentBalanced (bt : List Char) (p q : Nat) : Bool :=
  ((bt.drop p).take (q + 1 - p)).count '(' == ((bt.drop p).take (q + 1 - p)).count ')'

/-- Reference definition of the bracket match, following the specification: no match (-1)
when the offset is out of range, when the text does not hold a bracket character there,
or when the bracket map is blank there; for "(" the least later offset `q` such that the
segment `[p..q]` of the map is balanced; for ")" the greatest earlier offset `q` such that
the segment `[q..p]` is balanced; no match when there is no such offset. -/
def Bracket_Match_Reference (text bt : List Char) (p : Int) : Int :=
  if p < 0 ∨ p ≥ text.length then -1
  else
    match text[p.toNat]?, bt[p.toNat]? with
    | some t, some b =>
      if t ≠ '(' ∧ t ≠ ')' then -1
      else if b = ' ' then -1
      else if t = '(' then
        match findLeast (fun q => segmentBalanced bt p.toNat q)
            (bt.length - (p.toNat + 1)) (p.toNat + 1) with
        | some q => q
        | none => -1
      else
        match findGreatestBelow (fun q => segmentBalanced bt q p.toNat) p.toNat with
        | some q => q
        | none => -1
    | _, _ => -1

/-- The parentheses of `l` are in balanced nesting, starting from depth `d`: the depth
never falls below zero and ends at zero. -/
def balancedFrom : List Char → Int → Bool
  | [], d => d == 0
  | x :: r, d => decide (0 ≤ levelStep '(' ')' x d) && balancedFrom r (levelStep '(' ')' x d)

/-! ## Reference definition of the paren indent -/

/-- The offset of the last newline before offset `b`, -1 when there is none. -/
def lastNewlineBefore (t : List Char) (b : Nat) : Int :=
  match findGreatestBelow (fun i => t[i]? == some '\n') b with
  | some i => i
  | none => -1

/-- Reference definition of the paren indent, following the specification: `b - n` for
`b` the offset of the nearest "(" of the bracket map that has no match, and `n` the offset
of the last newline before `b` (-1 when there is none); 0 when there is no such "(". -/
def Paren_Indent_Reference (t bt : List Char) : Int :=
  match findGreatestBelow
      (fun b => bt[b]? == some '(' && Bracket_Match_Reference t bt b == -1) bt.length with
  | some b => (b : Int) - lastNewlineBefore t b
  | none => 0

/-! ## Tables for lines of ASCII characters -/

/-- The tables for the characters above U+007F that hold no letter and no digit and
leave every string as it is: the tokenizer is evaluated with them on lines of ASCII
characters, where the tables are not consulted. -/
def asciiTables : QCharTables := ⟨fun _ => false, fun _ => false, fun s => s⟩

/-- The classes a word is looked up in, in the order of the tests of the `Identifier`
state, each with the kind it gives. -/
def wordClasses : List ((List Char → Bool) × TokenKind) :=
  [(isKeyword, TokenKind.Keyword), (isFunction, TokenKind.Function),
   (isType, TokenKind.Type), (isInterval, TokenKind.Interval)]

/-! ## Auxiliary notions for the tokenizer -/

/-- The number of turns the loop of `highlightBlock` can still take: every turn moves
`i` forward or goes back to the `Start` state. -/
def hMeasure (text : List Char) (s : HState) : Nat :=
  2 * (text.length + 1 - s.i) + (if s.state = 0 then 0 else 1)

/-- The offset under which all spans formatted so far end: the scan position in the
`Start` state, the start of the open span in the other states. -/
def hBound (s : HState) : Nat := if s.state = 0 then s.i else s.start

/-- The spans are in call order one after the other without overlap, none is empty, and
each ends at or before `bound` and inside a line of `textLength` characters. -/
def SpansOrdered (textLength bound : Nat) (tokens : List Token) : Prop :=
  tokens.Pairwise (fun a b => a.start + a.length ≤ b.start) ∧
  ∀ t ∈ tokens, 0 < t.length ∧ t.start + t.length ≤ bound ∧ t.start + t.length ≤ textLength

/-- What holds of the local variables of `highlightBlock` before every turn of its
loop. -/
structure HInv (text : List Char) (s : HState) : Prop where
  start_le : s.start ≤ s.i
  quote_in_line : s.state = 4 → s.start < text.length
  spans : SpansOrdered text.length (hBound s) s.tokens

/-- What a turn of the loop of `highlightBlock` taken from `s` gives: the turn completes,
keeps `HInv` and lowers `hMeasure`. -/
def StepOK (text : List Char) (s : HState) (r : Option HState) : Prop :=
  ∃ s', r = some s' ∧ HInv text s' ∧ hMeasure text s' < hMeasure text s

/-! ## The re-entrancy flag -/

/-- The part of the editor that `Uppercase_SQL_Keywords` and `Simple_Format_SQL` read and
write: the document text and the member `Uppercasing_In_Process`. -/
structure Editor where
  plainText : List Char
  Uppercasing_In_Process : Bool
deriving DecidableEq, Repr

/-- Model of a call `Uppercase_SQL_Keywords(0, 0)` on the editor: the call returns at once
when `Uppercasing_In_Process` is set; otherwise it sets the flag, rewrites the document
(a call re-entered from a signal of the rewrite meets the flag and returns) and clears
the flag. -/
def Uppercase_SQL_Keywords_call (e : Editor) : Option Editor :=
  if e.Uppercasing_In_Process = true then some e
  else
    let e1 : Editor := { e with Uppercasing_In_Process := true }
    match Uppercase_SQL_Keywords e1.plainText with
    | none => none
    | some t => some { e1 with plainText := t, Uppercasing_In_Process := false }

/-- Model of a call `Simple_Format_SQL()` on the editor: the function neither reads nor
writes `Uppercasing_In_Process`. -/
def Simple_Format_SQL_call (e : Editor) : Option Editor :=
  match Simple_Format_SQL e.plainText with
  | none => none
  | some t => some { e with plainText := t }

/-! ## Auxiliary notions for the reformatter -/

/-- The text `y` is the text `x` with strings inserted, each a newline or a newline
followed by seven spaces: what the backward loop of `Simple_Format_SQL` inserts. -/
inductive NewlinesInserted : List Char → List Char → Prop
  | same (x : List Char) : NewlinesInserted x x
  | insert (x y : List Char) (position : Nat) (str : List Char) :
    NewlinesInserted x y → (str = "\n".toList ∨ str = "\n       ".toList) →
    NewlinesInserted x (insertAt y position str)

/-! ## The state value of a line and the block data -/

/-- The scanner state and the bracket level `highlightBlock` starts a line with, decoded
from the state value of the previous line: `bracketLevel = blockState >> 4`,
`state = blockState & 15`, and `Start` at level 0 when the value is negative. -/
def startOfLine (previousBlockState : Int) : Nat × Int :=
  (if previousBlockState < 0 then 0 else (previousBlockState % 16).toNat,
   if previousBlockState < 0 then 0 else previousBlockState / 16)

/-- The scanner state and the bracket level `highlightBlock` ends a line with, after
`if (state == Comment) ... else state = Start`, the level as the 32-bit variable
`bracketLevel` holds it: the two values packed into the state value of the line. -/
def endOfLine (u : QCharTables) (text : List Char) (previousBlockState : Int) :
    Option (Nat × Int) :=
  match highlightLoop u text (2 * text.length + 4)
      ⟨0, 0, (startOfLine previousBlockState).1, (startOfLine previousBlockState).2, [], []⟩ with
  | none => none
  | some s => some (if s.state = 5 then 5 else 0, toInt32 s.bracketLevel)

/-- The end of `highlightBlock`: the bracket positions of the scan are stored in the block
data of the line only when there are some; `userData` is the list stored for the line
before (`none` when the line has no block data). -/
def storeBracketPositions (userData : Option (List Nat)) (bracketPositions : List Nat) :
    Option (List Nat) :=
  if ¬ (bracketPositions = []) then some bracketPositions else userData

/-- The block data of a line after `highlightBlock` ran on it. -/
def blockDataAfter (u : QCharTables) (text : List Char) (previousBlockState : Int)
    (userData : Option (List Nat)) : Option (Option (List Nat)) :=
  match highlightBlock u text previousBlockState with
  | none => none
  | some r => some (storeBracketPositions userData r.bracketPositions)

/-! ## Initial keyword (`MySQL_Editor::Initial_SQL_Keyword`) -/

/-- The loop `while ((sql_statement_idx >= 0) and (sql_statement_idx <= sql_statement_length))`
of `Initial_SQL_Keyword` with its `return` statements: the value returned; the counter
bounds the number of turns, `none` when it is used up. -/
def initialLoop (SQL_Statement : List Char) (sql_statement_length : Int) :
    Nat → Int → Option (List Char)
  | 0, _ => none
  | f + 1, sql_statement_idx =>
    if 0 ≤ sql_statement_idx ∧ sql_statement_idx ≤ sql_statement_length then
      match SQL_Token_Regular_Expression.matchFrom SQL_Statement sql_statement_idx.toNat with
      | none => initialLoop SQL_Statement sql_statement_length f (-1)
      | some m =>
        let new_sql_statement_idx : Int := m.capturedEnd
        let word := m.captured1 SQL_Statement
        if word.length > 0 then
          let entire_word_capture := m.captured SQL_Statement
          let leading_delimiter := qContains delimiters (left entire_word_capture 1)
          let trailing_delimiter := qContains delimiters (right entire_word_capture 1)
          if isAllKeyword (toUpper word) = true ∧ ¬ (leading_delimiter = true) ∧
              ¬ (trailing_delimiter = true) then some (toUpper word)
          else if left entire_word_capture 1 = ['`'] ∧ right entire_word_capture 1 = ['`'] then
            initialLoop SQL_Statement sql_statement_length f new_sql_statement_idx
          else if right entire_word_capture 1 = ['.'] then
            initialLoop SQL_Statement sql_statement_length f (new_sql_statement_idx - 1)
          else initialLoop SQL_Statement sql_statement_length f new_sql_statement_idx
        else initialLoop SQL_Statement sql_statement_length f new_sql_statement_idx
    else some []

/-- Model of `MySQL_Editor::Initial_SQL_Keyword`: the string returned, the empty one when
no keyword is found; `none` when the loop does not complete within its bound. -/
def Initial_SQL_Keyword (SQL_Statement : List Char) : Option (List Char) :=
  initialLoop SQL_Statement SQL_Statement.length (SQL_Statement.length + 2) 0

/-! ## The cached bracket map across calls -/

/-- Model of `MySQL_Editor::Bracket_Match_Position` with the members it writes: the result
and the cached pair after the call. -/
def Bracket_Match_Position_state (target_text : List Char) (cache : BracketCache)
    (Current_Position : Int) : Option (Int × BracketCache) :=
  match (if target_text.length ≠ cache.Bracket_Text.length
          then onTextChanged target_text else some cache) with
  | none => none
  | some cache1 =>
    match (if target_text ≠ cache1.Bracket_Source_Text
            then onTextChanged target_text else some cache1) with
    | none => none
    | some cache2 =>
      match matchPosition target_text cache2.Bracket_Text Current_Position with
      | none => none
      | some r => some (r, cache2)

/-- The cached pair of a new editor: both members are empty strings. -/
def initialCache : BracketCache := ⟨[], []⟩
/-! ## Code folding (`isFoldable`, `fold`, `findClosingConstruct`) -/

/-- A block of the document (a line): its text, the `bracketPositions` of its block data
(`none` when the block has no block data) and its visibility. -/
structure Block where
  text : List Char
  userData : Option (List Nat)
  visible : Bool
deriving DecidableEq, Repr

/-- The characters of the document: the text of every block followed by the paragraph
separator U+2029. -/
def documentText (blocks : List Block) : List Char :=
  blocks.flatMap (fun b => b.text ++ [Char.ofNat 0x2029])

/-- Model of `QTextDocument::characterAt`: the null character outside the document. -/
def characterAt (blocks : List Block) (pos : Nat) : Char :=
  (documentText blocks).getD pos '\x00'

/-- The replacement of characters by `QTextDocument::toPlainText`. -/
def plainChar (c : Char) : Char :=
  if c.toNat = 0xfdd0 ∨ c.toNat = 0xfdd1 ∨ c.toNat = 0x2029 ∨ c.toNat = 0x2028 then '\n'
  else if c.toNat = 0xa0 then ' ' else c

/-- Model of `toPlainText`: the characters of the document without the separator of the
last block, the separators replaced by newlines. -/
def toPlainText (blocks : List Block) : List Char :=
  (documentText blocks).dropLast.map plainChar

/-- Model of `QTextBlock::position`: the offset of the block of number `number`. -/
def blockPosition (blocks : List Block) (number : Nat) : Nat :=
  ((blocks.take number).map (fun b => b.text.length + 1)).sum

/-- Model of `QTextDocument::findBlockByNumber`: `none` is the invalid block. -/
def findBlockByNumber (blocks : List Block) (number : Int) : Option Nat :=
  if 0 ≤ number ∧ number < blocks.length then some number.toNat else none

/-- The search of `findBlock` from the block of number `number` on, for the offset `pos`
counted from the start of that block. -/
def findBlockFrom : List Block → Nat → Nat → Option Nat
  | [], _, _ => none
  | b :: r, number, pos =>
    if pos < b.text.length + 1 then some number
    else findBlockFrom r (number + 1) (pos - (b.text.length + 1))

/-- Model of `QTextDocument::findBlock`: the number of the block that holds the offset
`pos`, `none` (the invalid block) when the offset is outside the document. -/
def findBlock (blocks : List Block) (pos : Int) : Option Nat :=
  if pos < 0 then none else findBlockFrom blocks 0 pos.toNat

/-- The loop `foreach (int pos, blockData->bracketPositions)` of `findClosingConstruct`
with its `return`: the value returned and the cached pair after the calls of
`Bracket_Match_Position`. -/
def closingLoop (blocks : List Block) (offset : Nat) :
    List Nat → BracketCache → Option (Int × BracketCache)
  | [], cache => some (-1, cache)
  | pos :: r, cache =>
    if characterAt blocks (offset + pos) = '(' then
      match Bracket_Match_Position_state (toPlainText blocks) cache ((offset + pos : Nat) : Int) with
      | none => none
      | some (matchPos, cache1) =>
        if matchPos ≥ 0 then some (matchPos, cache1) else closingLoop blocks offset r cache1
    else closingLoop blocks offset r cache

/-- Model of `MySQL_Editor::findClosingConstruct` for the block of number `block` (`none`
for the invalid block). -/
def findClosingConstruct (blocks : List Block) (cache : BracketCache) (block : Option Nat) :
    Option (Int × BracketCache) :=
  match block with
  | none => some (-1, cache)
  | some number =>
    match blocks[number]? with
    | none => some (-1, cache)
    | some b =>
      match b.userData with
      | none => some (-1, cache)
      | some bracketPositions =>
        if bracketPositions = [] then some (-1, cache)
        else closingLoop blocks (blockPosition blocks number) bracketPositions cache

/-- Model of `MySQL_Editor::isFoldable`. -/
def isFoldable (blocks : List Block) (cache : BracketCache) (line : Int) :
    Option (Bool × BracketCache) :=
  match findClosingConstruct blocks cache (findBlockByNumber blocks (line - 1)) with
  | none => none
  | some (matchPos, cache1) =>
    if matchPos ≥ 0 then
      match findBlock blocks matchPos with
      | some matchBlock => if (matchBlock : Int) > line then some (true, cache1) else some (false, cache1)
      | none => some (false, cache1)
    else some (false, cache1)

/-- The loop `while (block.isValid() && block != endBlock)` of `fold` on the blocks from
the number `number` on: every block before `endBlock` is hidden. -/
def hideBlocks (endBlock : Option Nat) : Nat → List Block → List Block
  | _, [] => []
  | number, b :: r =>
    if some number = endBlock then b :: r
    else { b with visible := false } :: hideBlocks endBlock (number + 1) r

/-- Model of `MySQL_Editor::fold`: the blocks of the document after the call, with the
cached pair. -/
def fold (blocks : List Block) (cache : BracketCache) (line : Int) :
    Option (List Block × BracketCache) :=
  match findClosingConstruct blocks cache (findBlockByNumber blocks (line - 1)) with
  | none => none
  | some (endPos, cache1) =>
    if endPos < 0 then some (blocks, cache1)
    else
      match findBlockByNumber blocks (line - 1) with
      | none => some (blocks, cache1)
      | some startBlock =>
        some (blocks.take (startBlock + 1) ++
          hideBlocks (findBlock blocks endPos) (startBlock + 1) (blocks.drop (startBlock + 1)),
          cache1)

/-- The document whose lines are `lines`, every block visible, with the block data the
tokenizer leaves on a new document: each line is scanned from the state value of the line
before it. -/
def tokenizedFrom (u : QCharTables) : Int → List (List Char) → Option (List Block)
  | _, [] => some []
  | previousBlockState, text :: r =>
    match highlightBlock u text previousBlockState with
    | none => none
    | some h =>
      match tokenizedFrom u h.blockState r with
      | none => none
      | some bs => some (⟨text, storeBracketPositions none h.bracketPositions, true⟩ :: bs)

/-- What a turn of the loop of `highlightBlock` taken from `s` does to the scan index,
when it completes: it moves `i` forward, or leaves `i` and goes from another state back
to `Start`; from `Start` it always moves `i` forward. -/
def StepProgress (s : HState) (r : Option HState) : Prop :=
  ∀ s', r = some s' →
    (s.i < s'.i ∨ (s'.i = s.i ∧ s.state ≠ 0 ∧ s'.state = 0)) ∧ (s.state = 0 → s.i < s'.i)

/-! ## Reference definitions for code folding -/

/-- The closing construct of the block of number `number`, in words: among the offsets
stored in the block data of the block, in their order, the first one where the document
holds an opening parenthesis that has a match; the result is that match, and -1 when
there is no such offset. The match is `Bracket_Match_Reference` on the document text and
its bracket text `bt`. -/
def Closing_Construct_Reference (blocks : List Block) (bt : List Char) (number : Nat) : Int :=
  match blocks[number]? with
  | none => -1
  | some b =>
    match (b.userData.getD []).find? (fun pos =>
        decide (characterAt blocks (blockPosition blocks number + pos) = '(') &&
        decide (Bracket_Match_Reference (toPlainText blocks) bt
          ((blockPosition blocks number + pos : Nat) : Int) ≥ 0)) with
    | none => -1
    | some pos =>
      Bracket_Match_Reference (toPlainText blocks) bt
        ((blockPosition blocks number + pos : Nat) : Int)

/-- The line `line` (counted from 1) is foldable, in words: the line exists, it has a
closing construct, and the block that holds the closing construct has a number (counted
from 0) greater than `line`, that is, it lies at least two lines below the line. -/
def isFoldable_Reference (blocks : List Block) (bt : List Char) (line : Int) : Bool :=
  match findBlockByNumber blocks (line - 1) with
  | none => false
  | some number =>
    decide (Closing_Construct_Reference blocks bt number ≥ 0) &&
      (match findBlock blocks (Closing_Construct_Reference blocks bt number) with
       | some matchBlock => decide ((matchBlock : Int) ≥ line + 1)
       | none => false)

/-- The block of number `k` is hidden by `fold(line)`, in words: the line exists and has
a closing construct, the block comes after the line, and it comes before the block that
holds the closing construct when that block comes after the line; when the closing
construct lies on the line itself, every block after the line is hidden. -/
def Fold_Hidden_Reference (blocks : List Block) (bt : List Char) (line : Int) (k : Nat) : Bool :=
  match findBlockByNumber blocks (line - 1) with
  | none => false
  | some startBlock =>
    decide (Closing_Construct_Reference blocks bt startBlock ≥ 0) && decide (startBlock < k) &&
      (match findBlock blocks (Closing_Construct_Reference blocks bt startBlock) with
       | some endBlock => decide (endBlock ≤ startBlock ∨ k < endBlock)
       | none => true)

/-! ## Reference definition of the end of a string -/

/-- The number of consecutive backslashes immediately before the offset, counted back
to the character after the opening quote at offset `s`. -/
def backslashRun (text : List Char) (s : Nat) : Nat → Nat
  | 0 => 0
  | j + 1 => if s < j ∧ text[j]? = some '\\' then backslashRun text s j + 1 else 0

/-- The character at offset `j` closes the string opened by the quote `c` at offset `s`,
in words: it lies after `s`, it is `c`, and an even number of consecutive backslashes
comes before it. -/
def closesString (text : List Char) (s : Nat) (c : Char) (j : Nat) : Bool :=
  decide (s < j) && (text[j]? == some c) && (backslashRun text s j % 2 == 0)

/-- The offset of the quote that closes the string opened by the quote `c` at offset
`s`: the first offset of the line with `closesString`, `none` when the line has none. -/
def String_End_Reference (text : List Char) (s : Nat) (c : Char) : Option Nat :=
  findLeast (closesString text s c) (text.length - (s + 1)) (s + 1)

/-- A number of turns of the loop `while (i <= text.length())` of `highlightBlock`, one
after the other: the local variables after `n` turns, `none` when a turn does not
complete or the loop ends before. -/
def highlightTurns (u : QCharTables) (text : List Char) : Nat → HState → Option HState
  | 0, s => some s
  | n + 1, s =>
    if s.i ≤ text.length then
      match highlightStep u text s with
      | none => none
      | some s' => highlightTurns u text n s'
    else none

/-- The characters that the `String` state takes for an escape after a backslash. -/
def IsEscape (x : Char) : Prop :=
  x = '\\' ∨ x = '\'' ∨ x = '"' ∨ x = 'b' ∨ x = 'r' ∨ x = 'f' ∨ x = 't' ∨ x = 'v'

/-- What holds of the scan index `i` in the `String` state, for the string opened by the
quote `c` at offset `s`: no character before `i` closes the string, and an even number
of backslashes comes before `i` unless the character at `i` is none that an escape or a
quote is made of. -/
def StringScan (text : List Char) (s : Nat) (c : Char) (i : Nat) : Prop :=
  s < i ∧ (∀ j, j < i → closesString text s c j = false) ∧
    (backslashRun text s i % 2 = 0 ∨ ¬ IsEscape (text.getD i '\x00'))

/-! # Theorems -/

/-! ## The matcher does not look at the case of ASCII letters -/

theorem starLoop_up {α : Type} (step : MState → (MState → Option α) → Option α)
    (hstep : ∀ st k k', (∀ s : MState, k s = k' s.up) → step st k = step st.up k')
    (f : Nat) : ∀ st k k', (∀ s : MState, k s = k' s.up) →
      starLoop step f st k = starLoop step f st.up k' := by
  induction f with
  | zero => intro st k k' h; simpa [starLoop] using h st
  | succ f ih =>
    intro st k k' h
    simp only [starLoop]
    rw [hstep st _ (fun st' => if st'.pos = st.up.pos then k' st' else starLoop step f st' k')
      (by
        intro s
        show (if s.pos = st.pos then k s else starLoop step f s k) =
          (if s.pos = st.pos then k' s.up else starLoop step f s.up k')
        split
        · exact h s
        · exact ih s k k' h), h st]

theorem RE.run_up {α : Type} (re : RE) (hre : re.CaseFree) :
    ∀ (st : MState) (k k' : MState → Option α), (∀ s : MState, k s = k' s.up) →
      re.run st k = re.run st.up k' := by
  induction re with
  | cls p =>
    intro st k k' h
    obtain ⟨pos, rest, g⟩ := st
    cases rest with
    | nil => simp [RE.run, MState.up]
    | cons c r =>
      have hp : p c.toUpper = p c := hre c
      simp only [RE.run, MState.up, List.map_cons, hp]
      split
      · exact h _
      · rfl
  | seq a b iha ihb =>
    intro st k k' h
    simp only [RE.run]
    exact iha hre.1 st _ _ (fun s => ihb hre.2 s k k' h)
  | alt a b iha ihb =>
    intro st k k' h
    simp only [RE.run]
    rw [iha hre.1 st k k' h, ihb hre.2 st k k' h]
  | star a iha =>
    intro st k k' h
    simp only [RE.run]
    have hl : st.up.rest.length = st.rest.length := by simp [MState.up]
    rw [hl]
    exact starLoop_up a.run (fun st k k' h => iha hre st k k' h) _ st k k' h
  | opt a iha =>
    intro st k k' h
    simp only [RE.run]
    rw [iha hre st k k' h, h st]
  | cap a iha =>
    intro st k k' h
    simp only [RE.run]
    exact iha hre st _ _ (fun s => h _)

theorem searchFrom_up (re : RE) (hre : re.CaseFree) :
    ∀ (rest : List Char) (pos : Nat),
      searchFrom re pos rest = searchFrom re pos (rest.map Char.toUpper) := by
  intro rest
  induction rest with
  | nil =>
    intro pos
    simp only [searchFrom, List.map_nil]
  | cons c r ih =>
    intro pos
    simp only [searchFrom, List.map_cons]
    have := re.run_up hre ⟨pos, c :: r, none⟩ (fun st => some (Match.mk pos st.pos st.g1))
      (fun st => some (Match.mk pos st.pos st.g1)) (fun s => rfl)
    simp only [MState.up, List.map_cons] at this
    rw [this, ih]

/-- Two texts with the same upper-case form have the same matches. -/
theorem RE.matchFrom_congr (re : RE) (hre : re.CaseFree) (s t : List Char)
    (h : toUpper s = toUpper t) (offset : Nat) :
    re.matchFrom s offset = re.matchFrom t offset := by
  unfold RE.matchFrom
  rw [searchFrom_up re hre (s.drop offset), searchFrom_up re hre (t.drop offset)]
  have : (s.drop offset).map Char.toUpper = (t.drop offset).map Char.toUpper := by
    rw [List.map_drop, List.map_drop]
    exact congrArg _ h
  rw [this]

/-- A character is an ASCII lower-case letter or it is its own upper-case form. -/
theorem toUpper_eq_or (c : Char) :
    c.toUpper = c ∨ ∃ n, 97 ≤ n ∧ n ≤ 122 ∧ c = Char.ofNat n := by
  by_cases h : c.toNat ≥ 97 ∧ c.toNat ≤ 122
  · exact Or.inr ⟨c.toNat, h.1, h.2, (Char.ofNat_toNat c).symm⟩
  · left
    unfold Char.toUpper
    simp only [h, if_false]

/-- A test that agrees on the 26 lower-case letters and their upper-case forms agrees
on every character. -/
theorem caseFree_of (p : Char → Bool)
    (h : ∀ n, 97 ≤ n → n ≤ 122 → p (Char.ofNat n).toUpper = p (Char.ofNat n)) :
    ∀ c : Char, p c.toUpper = p c := by
  intro c
  rcases toUpper_eq_or c with h1 | ⟨n, h1, h2, rfl⟩
  · rw [h1]
  · exact h n h1 h2

theorem toUpper_toUpper (c : Char) : c.toUpper.toUpper = c.toUpper := by
  rcases toUpper_eq_or c with h1 | ⟨n, h1, h2, rfl⟩
  · rw [h1, h1]
  · interval_cases n <;> rfl

theorem SQL_Token_Regular_Expression_caseFree : SQL_Token_Regular_Expression.CaseFree := by
  simp only [SQL_Token_Regular_Expression, doublequoted_string, singlequoted_string,
    c_style_comment, hash_comment, doubledash_comment, bracket_characters,
    significant_punctuation, backticked_identifier, potential_keyword,
    optional_keyword_delimiters, RE.plus, RE.CaseFree]
  refine ⟨?_, ?_, ?_, ?_, ?_, ?_, ?_, ?_, ?_⟩ <;>
    (repeat' constructor) <;>
    (apply caseFree_of; intro n h1 h2; interval_cases n <;> rfl)

/-! ## What a successful run of the matcher consumed -/

theorem starLoop_sound {α : Type} (a : RE)
    (step : MState → (MState → Option α) → Option α)
    (hstep : ∀ st k r, step st k = some r → ∃ st', Reach a st st' ∧ k st' = some r)
    (f : Nat) : ∀ st k r, starLoop step f st k = some r →
      ∃ st', Reach (.star a) st st' ∧ k st' = some r := by
  induction f with
  | zero =>
    intro st k r h
    exact ⟨st, Reach.starNil, by simpa [starLoop] using h⟩
  | succ f ih =>
    intro st k r h
    simp only [starLoop] at h
    cases hs : step st (fun st' => if st'.pos = st.pos then k st' else starLoop step f st' k) with
    | none =>
      rw [hs] at h
      exact ⟨st, Reach.starNil, h⟩
    | some r' =>
      rw [hs] at h
      obtain ⟨st1, h1, h2⟩ := hstep _ _ _ hs
      have hr : r' = r := by simpa using h
      subst hr
      by_cases hp : st1.pos = st.pos
      · simp only [hp, if_true] at h2
        exact ⟨st1, Reach.starCons h1 Reach.starNil, h2⟩
      · simp only [hp, if_false] at h2
        obtain ⟨st2, h3, h4⟩ := ih st1 k r' h2
        exact ⟨st2, Reach.starCons h1 h3, h4⟩

/-- Soundness of the matcher: a successful run passed a reachable state to its
continuation. -/
theorem RE.run_sound {α : Type} (re : RE) :
    ∀ (st : MState) (k : MState → Option α) (r : α), re.run st k = some r →
      ∃ st', Reach re st st' ∧ k st' = some r := by
  induction re with
  | cls p =>
    intro st k r h
    simp only [RE.run] at h
    cases hr : st.rest with
    | nil => simp [hr] at h
    | cons c rest =>
      simp only [hr] at h
      by_cases hp : p c = true
      · simp only [hp, if_true] at h
        exact ⟨_, Reach.cls hr hp, h⟩
      · simp [hp] at h
  | seq a b iha ihb =>
    intro st k r h
    simp only [RE.run] at h
    obtain ⟨st1, h1, h2⟩ := iha st _ r h
    obtain ⟨st2, h3, h4⟩ := ihb st1 k r h2
    exact ⟨st2, Reach.seq h1 h3, h4⟩
  | alt a b iha ihb =>
    intro st k r h
    simp only [RE.run] at h
    cases ha : a.run st k with
    | none =>
      rw [ha] at h
      obtain ⟨st1, h1, h2⟩ := ihb st k r h
      exact ⟨st1, Reach.altR h1, h2⟩
    | some r' =>
      rw [ha] at h
      have hr : r' = r := by simpa using h
      subst hr
      obtain ⟨st1, h1, h2⟩ := iha st k r' ha
      exact ⟨st1, Reach.altL h1, h2⟩
  | star a iha =>
    intro st k r h
    simp only [RE.run] at h
    exact starLoop_sound a a.run iha _ st k r h
  | opt a iha =>
    intro st k r h
    simp only [RE.run] at h
    cases ha : a.run st k with
    | none =>
      rw [ha] at h
      exact ⟨st, Reach.optNone, h⟩
    | some r' =>
      rw [ha] at h
      have hr : r' = r := by simpa using h
      subst hr
      obtain ⟨st1, h1, h2⟩ := iha st k r' ha
      exact ⟨st1, Reach.optSome h1, h2⟩
  | cap a iha =>
    intro st k r h
    simp only [RE.run] at h
    obtain ⟨st1, h1, h2⟩ := iha st _ r h
    exact ⟨_, Reach.cap h1, h2⟩

/-- A reachable state lies further right in the same text. -/
theorem Reach.consumed {re : RE} {st st' : MState} (h : Reach re st st') :
    ∃ l : List Char, st.rest = l ++ st'.rest ∧ st'.pos = st.pos + l.length := by
  induction h with
  | cls hr _ => exact ⟨[_], by simpa using hr, rfl⟩
  | seq _ _ ih1 ih2 =>
    obtain ⟨l1, e1, p1⟩ := ih1
    obtain ⟨l2, e2, p2⟩ := ih2
    exact ⟨l1 ++ l2, by rw [e1, e2, List.append_assoc], by rw [p2, p1, List.length_append]; omega⟩
  | altL _ ih => exact ih
  | altR _ ih => exact ih
  | starNil => exact ⟨[], rfl, rfl⟩
  | starCons _ _ ih1 ih2 =>
    obtain ⟨l1, e1, p1⟩ := ih1
    obtain ⟨l2, e2, p2⟩ := ih2
    exact ⟨l1 ++ l2, by rw [e1, e2, List.append_assoc], by rw [p2, p1, List.length_append]; omega⟩
  | optSome _ ih => exact ih
  | optNone => exact ⟨[], rfl, rfl⟩
  | cap _ ih => exact ih

theorem Reach.pos_le {re : RE} {st st' : MState} (h : Reach re st st') : st.pos ≤ st'.pos := by
  obtain ⟨l, _, hp⟩ := h.consumed
  omega

theorem Reach.pos_lt {re : RE} {st st' : MState} (h : Reach re st st')
    (hn : re.nonNull = true) : st.pos < st'.pos := by
  induction h with
  | cls _ _ => exact Nat.lt_succ_self _
  | seq h1 h2 ih1 ih2 =>
    simp only [RE.nonNull, Bool.or_eq_true] at hn
    rcases hn with hn | hn
    · exact Nat.lt_of_lt_of_le (ih1 hn) h2.pos_le
    · exact Nat.lt_of_le_of_lt h1.pos_le (ih2 hn)
  | altL _ ih =>
    simp only [RE.nonNull, Bool.and_eq_true] at hn
    exact ih hn.1
  | altR _ ih =>
    simp only [RE.nonNull, Bool.and_eq_true] at hn
    exact ih hn.2
  | starNil => simp [RE.nonNull] at hn
  | starCons _ _ _ _ => simp [RE.nonNull] at hn
  | optSome _ _ => simp [RE.nonNull] at hn
  | optNone => simp [RE.nonNull] at hn
  | cap _ ih => exact ih (by simpa [RE.nonNull] using hn)

theorem Reach.g1_eq {re : RE} {st st' : MState} (h : Reach re st st')
    (hn : re.noCap = true) : st'.g1 = st.g1 := by
  induction h with
  | cls _ _ => rfl
  | seq _ _ ih1 ih2 =>
    simp only [RE.noCap, Bool.and_eq_true] at hn
    rw [ih2 hn.2, ih1 hn.1]
  | altL _ ih =>
    simp only [RE.noCap, Bool.and_eq_true] at hn
    exact ih hn.1
  | altR _ ih =>
    simp only [RE.noCap, Bool.and_eq_true] at hn
    exact ih hn.2
  | starNil => rfl
  | starCons _ _ ih1 ih2 =>
    simp only [RE.noCap] at hn
    rw [ih2 hn, ih1 hn]
  | optSome _ ih => exact ih (by simpa [RE.noCap] using hn)
  | optNone => rfl
  | cap _ _ => simp [RE.noCap] at hn

/-- What `searchFrom` returns is a match of the expression at some offset at or after
the starting one. -/
theorem searchFrom_sound (re : RE) : ∀ (rest : List Char) (pos : Nat) (m : Match),
    searchFrom re pos rest = some m →
    ∃ (l : List Char) (st' : MState), pos + l.length = m.capturedStart ∧
      Reach re ⟨m.capturedStart, rest.drop l.length, none⟩ st' ∧ l.length ≤ rest.length ∧
      m.capturedEnd = st'.pos ∧ m.group1 = st'.g1 := by
  intro rest
  induction rest with
  | nil =>
    intro pos m h
    simp only [searchFrom] at h
    obtain ⟨st', h1, h2⟩ := re.run_sound _ _ _ h
    simp only [Option.some.injEq] at h2
    subst h2
    exact ⟨[], st', rfl, by simpa using h1, by simp, rfl, rfl⟩
  | cons c r ih =>
    intro pos m h
    simp only [searchFrom] at h
    cases hr : re.run ⟨pos, c :: r, none⟩ (fun st => some (Match.mk pos st.pos st.g1)) with
    | some m' =>
      rw [hr] at h
      have hm : m' = m := by simpa using h
      subst hm
      obtain ⟨st', h1, h2⟩ := re.run_sound _ _ _ hr
      simp only [Option.some.injEq] at h2
      subst h2
      exact ⟨[], st', rfl, by simpa using h1, by simp, rfl, rfl⟩
    | none =>
      rw [hr] at h
      obtain ⟨l, st', h1, h2, h3, h4, h5⟩ := ih (pos + 1) m h
      refine ⟨c :: l, st', by simp only [List.length_cons]; omega, ?_, ?_, h4, h5⟩
      · simpa using h2
      · simpa using h3

/-- Bounds of a match returned by `matchFrom` for an expression that cannot match the
empty string, with the state reached. -/
theorem RE.matchFrom_sound (re : RE) (text : List Char) (offset : Nat) (m : Match)
    (h : re.matchFrom text offset = some m) :
    ∃ st' : MState, offset ≤ m.capturedStart ∧
      Reach re ⟨m.capturedStart, text.drop m.capturedStart, none⟩ st' ∧
      m.capturedEnd = st'.pos ∧ m.group1 = st'.g1 ∧
      (offset ≤ text.length → m.capturedEnd ≤ text.length) := by
  unfold RE.matchFrom at h
  obtain ⟨l, st', h1, h2, h3, h4, h5⟩ := searchFrom_sound re _ _ _ h
  rw [List.drop_drop] at h2
  rw [h1] at h2
  refine ⟨st', by omega, h2, h4, h5, ?_⟩
  intro ho
  obtain ⟨l', hl, hp⟩ := h2.consumed
  simp only at hl hp
  have := congrArg List.length hl
  simp only [List.length_drop, List.length_append] at this h3
  omega

theorem Reach.rest_eq {re : RE} {st st' : MState} (h : Reach re st st') (text : List Char)
    (hw : st.rest = text.drop st.pos) : st'.rest = text.drop st'.pos := by
  obtain ⟨l, hl, hp⟩ := h.consumed
  have : st'.rest = st.rest.drop l.length := by rw [hl]; simp
  rw [this, hw, hp, List.drop_drop, Nat.add_comm]

theorem reach_alt {a b : RE} {st st' : MState} (h : Reach (.alt a b) st st') :
    Reach a st st' ∨ Reach b st st' := by
  cases h with
  | altL h => exact Or.inl h
  | altR h => exact Or.inr h

theorem reach_seq {a b : RE} {st st' : MState} (h : Reach (.seq a b) st st') :
    ∃ s1, Reach a st s1 ∧ Reach b s1 st' := by
  cases h with
  | seq h1 h2 => exact ⟨_, h1, h2⟩

theorem reach_cap {a : RE} {st st' : MState} (h : Reach (.cap a) st st') :
    ∃ s, Reach a st s ∧ st' = { s with g1 := some (st.pos, s.pos) } := by
  cases h with
  | cap h => exact ⟨_, h, rfl⟩

theorem reach_cls {p : Char → Bool} {st st' : MState} (h : Reach (.cls p) st st') :
    ∃ c r, st.rest = c :: r ∧ p c = true ∧ st' = { st with pos := st.pos + 1, rest := r } := by
  cases h with
  | cls hr hp => exact ⟨_, _, hr, hp, rfl⟩

theorem reach_star_cls {p : Char → Bool} {st st' : MState}
    (h : Reach (.star (.cls p)) st st') :
    ∃ l : List Char, st.rest = l ++ st'.rest ∧ st'.pos = st.pos + l.length ∧
      ∀ c ∈ l, p c = true := by
  generalize hre : RE.star (.cls p) = re at h
  induction h with
  | starNil => exact ⟨[], rfl, rfl, by simp⟩
  | starCons h1 _ _ ih2 =>
    injection hre with hre
    subst hre
    obtain ⟨c, r, e1, hc, e2⟩ := reach_cls h1
    obtain ⟨l, e3, e4, hl⟩ := ih2 rfl
    subst e2
    refine ⟨c :: l, ?_, ?_, ?_⟩
    · rw [e1]; simpa using e3
    · rw [e4]; simp only [List.length_cons]; omega
    · intro x hx
      rcases List.mem_cons.mp hx with rfl | hx
      · exact hc
      · exact hl x hx
  | cls _ _ => cases hre
  | seq _ _ _ _ => cases hre
  | altL _ _ => cases hre
  | altR _ _ => cases hre
  | optSome _ _ => cases hre
  | optNone => cases hre
  | cap _ _ => cases hre

/-- What a match of `potential_keyword` looks like: group 1 is a non-empty run of keyword
characters inside the match. -/
theorem reach_potential_keyword {st st' : MState} (text : List Char)
    (hw : st.rest = text.drop st.pos) (h : Reach potential_keyword st st') :
    ∃ a b, st'.g1 = some (a, b) ∧ st.pos ≤ a ∧ a < b ∧ b ≤ st'.pos ∧
      ∀ i, a ≤ i → i < b → ∃ c, text[i]? = some c ∧ isKeywordChar c = true := by
  unfold potential_keyword at h
  obtain ⟨s1, h1, h⟩ := reach_seq h
  obtain ⟨s2, h2, h3⟩ := reach_seq h
  obtain ⟨s, hc2, rfl⟩ := reach_cap h2
  unfold RE.plus at hc2
  obtain ⟨sm, h4, h5⟩ := reach_seq hc2
  obtain ⟨c, r, e1, hc, rfl⟩ := reach_cls h4
  obtain ⟨l, e2, e3, hl⟩ := reach_star_cls h5
  have hw1 : s1.rest = text.drop s1.pos := h1.rest_eq text hw
  have hg : st'.g1 = some (s1.pos, s.pos) := h3.g1_eq rfl
  have hle := h3.pos_le
  simp only at e2 e3 hle
  refine ⟨s1.pos, s.pos, hg, h1.pos_le, by omega, hle, ?_⟩
  intro i hi1 hi2
  have hd : text.drop s1.pos = (c :: l) ++ s.rest := by
    rw [← hw1, e1, e2]; rfl
  have hi : text[i]? = (text.drop s1.pos)[i - s1.pos]? := by
    rw [List.getElem?_drop]; congr 1; omega
  rw [hi, hd]
  have hlen : i - s1.pos < (c :: l).length := by simp only [List.length_cons]; omega
  rw [List.getElem?_append_left hlen]
  refine ⟨(c :: l)[i - s1.pos], List.getElem?_eq_getElem hlen, ?_⟩
  have hm : (c :: l)[i - s1.pos] ∈ c :: l := List.getElem_mem _
  rcases List.mem_cons.mp hm with e | hm
  · rw [e]; exact hc
  · exact hl _ hm

/-- Every match of `SQL_Token_Regular_Expression` is non-empty and inside the text, and
when group 1 took part it is a non-empty run of keyword characters inside the match. -/
theorem token_match_spec (text : List Char) (offset : Nat) (m : Match)
    (ho : offset ≤ text.length)
    (h : SQL_Token_Regular_Expression.matchFrom text offset = some m) :
    offset ≤ m.capturedStart ∧ m.capturedStart < m.capturedEnd ∧
    m.capturedEnd ≤ text.length ∧
    ∀ a b, m.group1 = some (a, b) → m.capturedStart ≤ a ∧ a < b ∧ b ≤ m.capturedEnd ∧
      ∀ i, a ≤ i → i < b → ∃ c, text[i]? = some c ∧ isKeywordChar c = true := by
  obtain ⟨st', h1, h2, h3, h4, h5⟩ := RE.matchFrom_sound _ text offset m h
  have hlt := h2.pos_lt rfl
  simp only at hlt
  refine ⟨h1, by omega, h5 ho, ?_⟩
  intro a b hg
  rw [h4] at hg
  have key : Reach potential_keyword ⟨m.capturedStart, text.drop m.capturedStart, none⟩ st' := by
    unfold SQL_Token_Regular_Expression at h2
    rcases reach_alt h2 with h | h2
    · have := h.g1_eq rfl; simp [hg] at this
    rcases reach_alt h2 with h | h2
    · have := h.g1_eq rfl; simp [hg] at this
    rcases reach_alt h2 with h | h2
    · have := h.g1_eq rfl; simp [hg] at this
    rcases reach_alt h2 with h | h2
    · have := h.g1_eq rfl; simp [hg] at this
    rcases reach_alt h2 with h | h2
    · have := h.g1_eq rfl; simp [hg] at this
    rcases reach_alt h2 with h | h2
    · have := h.g1_eq rfl; simp [hg] at this
    rcases reach_alt h2 with h | h2
    · have := h.g1_eq rfl; simp [hg] at this
    rcases reach_alt h2 with h | h2
    · have := h.g1_eq rfl; simp [hg] at this
    exact h2
  obtain ⟨a', b', e, p1, p2, p3, p4⟩ := reach_potential_keyword text rfl key
  rw [hg] at e
  simp only [Option.some.injEq, Prod.mk.injEq] at e
  obtain ⟨rfl, rfl⟩ := e
  exact ⟨p1, p2, by omega, p4⟩

/-- Every match of `MySQL_Bracket_RegEx` is non-empty and inside the text. -/
theorem bracket_match_spec (text : List Char) (offset : Nat) (m : Match)
    (ho : offset ≤ text.length)
    (h : MySQL_Bracket_RegEx.matchFrom text offset = some m) :
    offset ≤ m.capturedStart ∧ m.capturedStart < m.capturedEnd ∧
    m.capturedEnd ≤ text.length := by
  obtain ⟨st', h1, h2, h3, _, h5⟩ := RE.matchFrom_sound _ text offset m h
  have hlt := h2.pos_lt rfl
  simp only at hlt
  exact ⟨h1, by omega, h5 ho⟩

/-! ## The iteration counter of a repeat never limits the match -/

theorem starLoop_congr_reach {α : Type} (a : RE)
    (ha : ∀ (st : MState) (k k' : MState → Option α),
      (∀ st', Reach a st st' → k st' = k' st') → a.run st k = a.run st k')
    (f : Nat) : ∀ (st : MState) (k k' : MState → Option α),
      (∀ st', Reach (.star a) st st' → k st' = k' st') →
      starLoop a.run f st k = starLoop a.run f st k' := by
  induction f with
  | zero =>
    intro st k k' h
    simpa [starLoop] using h st Reach.starNil
  | succ f ih =>
    intro st k k' h
    simp only [starLoop]
    rw [ha st _ (fun st' => if st'.pos = st.pos then k' st' else starLoop a.run f st' k')
      (by
        intro s1 h1
        by_cases hp : s1.pos = st.pos
        · simp only [hp, if_true]
          exact h s1 (Reach.starCons h1 Reach.starNil)
        · simp only [hp, if_false]
          exact ih s1 k k' (fun s2 h2 => h s2 (Reach.starCons h1 h2))),
      h st Reach.starNil]

/-- The matcher hands to its continuation only states the expression can reach. -/
theorem RE.run_congr_reach {α : Type} (re : RE) :
    ∀ (st : MState) (k k' : MState → Option α),
      (∀ st', Reach re st st' → k st' = k' st') → re.run st k = re.run st k' := by
  induction re with
  | cls p =>
    intro st k k' h
    simp only [RE.run]
    cases hr : st.rest with
    | nil => rfl
    | cons c r =>
      dsimp only
      by_cases hp : p c = true
      · simp only [hp, if_true]
        exact h _ (Reach.cls hr hp)
      · simp only [hp, if_false]
        rfl
  | seq a b iha ihb =>
    intro st k k' h
    simp only [RE.run]
    exact iha st _ _ (fun s1 h1 => ihb s1 k k' (fun s2 h2 => h s2 (Reach.seq h1 h2)))
  | alt a b iha ihb =>
    intro st k k' h
    simp only [RE.run]
    rw [iha st k k' (fun s h1 => h s (Reach.altL h1)),
      ihb st k k' (fun s h1 => h s (Reach.altR h1))]
  | star a iha =>
    intro st k k' h
    simp only [RE.run]
    exact starLoop_congr_reach a iha _ st k k' h
  | opt a iha =>
    intro st k k' h
    simp only [RE.run]
    rw [iha st k k' (fun s h1 => h s (Reach.optSome h1)), h st Reach.optNone]
  | cap a iha =>
    intro st k k' h
    simp only [RE.run]
    exact iha st _ _ (fun s h1 => h _ (Reach.cap h1))

/-- Any two iteration counters above the number of characters left give the same result:
the counter of `RE.run` for a repeat is never used up. -/
theorem starLoop_counter_irrelevant {α : Type} (a : RE) : ∀ (f1 f2 : Nat) (st : MState)
    (k : MState → Option α), st.rest.length < f1 → st.rest.length < f2 →
    starLoop a.run f1 st k = starLoop a.run f2 st k := by
  intro f1
  induction f1 with
  | zero => intro f2 st k h; omega
  | succ f1 ih =>
    intro f2 st k h1 h2
    cases f2 with
    | zero => omega
    | succ f2 =>
      simp only [starLoop]
      rw [a.run_congr_reach st _
        (fun st' => if st'.pos = st.pos then k st' else starLoop a.run f2 st' k)
        (by
          intro s1 hr
          by_cases hp : s1.pos = st.pos
          · simp only [hp, if_true]
          · simp only [hp, if_false]
            obtain ⟨l, hl, hpos⟩ := hr.consumed
            have hlen := congrArg List.length hl
            rw [List.length_append] at hlen
            have : l.length ≠ 0 := by
              intro e; rw [e] at hpos; exact hp hpos
            exact ih f2 s1 k (by omega) (by omega))]

/-! ## The scan loop of the case normalizer -/

theorem uppercaseBody_eq (s : UState) (hi : s.sql_text_idx.toNat ≤ s.sql_text.length) :
    uppercaseBody s = applyStep s (stepData s.sql_text s.sql_text_idx) := by
  unfold uppercaseBody stepData
  cases hm : SQL_Token_Regular_Expression.matchFrom s.sql_text s.sql_text_idx.toNat with
  | none => simp [applyStep]
  | some m =>
    obtain ⟨h1, h2, h3, h4⟩ := token_match_spec _ _ _ hi hm
    cases hg : m.group1 with
    | none => simp [applyStep, Match.captured1, hg]
    | some ab =>
      obtain ⟨a, b⟩ := ab
      obtain ⟨g1, g2, g3, g4⟩ := h4 a b hg
      have hlen : (mid s.sql_text a (b - a)).length = b - a := by
        simp only [mid, List.length_take, List.length_drop]; omega
      have hpos : b - a > 0 := by omega
      simp only [Match.captured1, hg, Match.capturedStart1, hlen, hpos, if_true, applyStep,
        Int.toNat_ofNat, Bool.and_eq_true, Bool.not_eq_true', Bool.not_eq_true]
      have hcast : ((a : Int) + ((b - a : Nat) : Int)) = (b : Int) := by omega
      rw [hcast]
      by_cases c1 : left (m.captured s.sql_text) 1 = ['`'] ∧ right (m.captured s.sql_text) 1 = ['`']
      · simp only [c1, and_self, if_true]
        split <;> split <;> simp_all
      · simp only [c1, if_false]
        by_cases c2 : right (m.captured s.sql_text) 1 = ['.']
        · simp only [c2, if_true]
          split <;> split <;> simp_all
        · simp only [c2, if_false]
          split <;> split <;> simp_all

theorem toUpper_length (s : List Char) : (toUpper s).length = s.length := by
  simp [toUpper]

theorem toUpper_mid (s : List Char) (a n : Nat) : toUpper (mid s a n) = mid (toUpper s) a n := by
  simp [toUpper, mid, List.map_take, List.map_drop]

theorem toUpper_left (s : List Char) (n : Nat) : toUpper (left s n) = left (toUpper s) n := by
  simp [toUpper, left, List.map_take]

theorem toUpper_right (s : List Char) (n : Nat) :
    toUpper (right s n) = right (toUpper s) n := by
  simp [toUpper, right, List.map_drop]

theorem toUpper_getElem? (s : List Char) (i : Nat) :
    (toUpper s)[i]? = s[i]?.map Char.toUpper := by
  simp [toUpper]

/-- Pointwise description of the in-place rewrite of a word. -/
theorem replace_upper_getElem? (text : List Char) (a b : Nat) (hab : a ≤ b)
    (hb : b ≤ text.length) (i : Nat) :
    (replace text a (b - a) (toUpper (mid text a (b - a))))[i]? =
      if a ≤ i ∧ i < b then text[i]?.map Char.toUpper else text[i]? := by
  have hml : (toUpper (mid text a (b - a))).length = b - a := by
    simp only [toUpper_length, mid, List.length_take, List.length_drop]; omega
  have htl : (text.take a).length = a := by simp only [List.length_take]; omega
  unfold replace
  by_cases h1 : i < a
  · have : ¬ (a ≤ i ∧ i < b) := by omega
    simp only [this, if_false]
    rw [List.append_assoc, List.getElem?_append_left (by omega), List.getElem?_take_of_lt h1]
  · by_cases h2 : i < b
    · have : a ≤ i ∧ i < b := by omega
      simp only [this, and_self, if_true]
      rw [List.getElem?_append_left (by simp only [List.length_append]; omega),
        List.getElem?_append_right (by omega), htl, toUpper_getElem?]
      simp only [mid]
      rw [List.getElem?_take_of_lt (by omega), List.getElem?_drop]
      congr 2; omega
    · have : ¬ (a ≤ i ∧ i < b) := by omega
      simp only [this, if_false]
      rw [List.getElem?_append_right (by simp only [List.length_append]; omega),
        List.getElem?_drop]
      congr 1
      simp only [List.length_append]
      omega

theorem replace_upper_length (text : List Char) (a b : Nat) (hab : a ≤ b)
    (hb : b ≤ text.length) :
    (replace text a (b - a) (toUpper (mid text a (b - a)))).length = text.length := by
  simp only [replace, List.length_append, List.length_take, List.length_drop, toUpper_length,
    mid]
  omega

theorem UpTo.refl (t : List Char) : UpTo t t := ⟨rfl, fun _ _ h => Or.inl h⟩

theorem UpTo.trans {t u v : List Char} (h1 : UpTo t u) (h2 : UpTo u v) : UpTo t v := by
  refine ⟨h2.1.trans h1.1, ?_⟩
  intro i c hc
  rcases h1.2 i c hc with h | h
  · exact h2.2 i c h
  · rcases h2.2 i _ h with h' | h'
    · exact Or.inr h'
    · rw [toUpper_toUpper] at h'; exact Or.inr h'

theorem UpTo.toUpper_eq {t T : List Char} (h : UpTo t T) : toUpper T = toUpper t := by
  apply List.ext_getElem?
  intro i
  rw [toUpper_getElem?, toUpper_getElem?]
  cases hc : t[i]? with
  | none =>
    have : T[i]? = none := by
      rw [List.getElem?_eq_none_iff] at hc ⊢
      rw [h.1]; exact hc
    rw [this]
  | some c =>
    rcases h.2 i c hc with h1 | h1
    · rw [h1]
    · rw [h1]; simp [toUpper_toUpper]

theorem UpTo.replace_upper (text : List Char) (a b : Nat) (hab : a ≤ b)
    (hb : b ≤ text.length) :
    UpTo text (replace text a (b - a) (toUpper (mid text a (b - a)))) := by
  refine ⟨replace_upper_length text a b hab hb, ?_⟩
  intro i c hc
  rw [replace_upper_getElem? text a b hab hb]
  split
  · right; rw [hc]; rfl
  · left; exact hc

theorem isChar_toUpper_congr (x : Char)
    (hx : ∀ n, 97 ≤ n → n ≤ 122 → isChar x (Char.ofNat n).toUpper = isChar x (Char.ofNat n))
    (c d : Char) (h : c.toUpper = d.toUpper) : (c = x ↔ d = x) := by
  have hc := caseFree_of (isChar x) hx c
  have hd := caseFree_of (isChar x) hx d
  rw [h, hd] at hc
  simp only [isChar, beq_iff_eq] at hc
  constructor
  · intro e
    have := hc.symm
    simpa [e] using this
  · intro e
    simpa [e] using hc

theorem backtick_congr (c d : Char) (h : c.toUpper = d.toUpper) : (c = '`' ↔ d = '`') :=
  isChar_toUpper_congr '`' (by intro n h1 h2; interval_cases n <;> rfl) c d h

theorem dot_congr (c d : Char) (h : c.toUpper = d.toUpper) : (c = '.' ↔ d = '.') :=
  isChar_toUpper_congr '.' (by intro n h1 h2; interval_cases n <;> rfl) c d h

theorem slash_congr (c d : Char) (h : c.toUpper = d.toUpper) : (c = '/' ↔ d = '/') :=
  isChar_toUpper_congr '/' (by intro n h1 h2; interval_cases n <;> rfl) c d h

theorem asterisk_congr (c d : Char) (h : c.toUpper = d.toUpper) : (c = '*' ↔ d = '*') :=
  isChar_toUpper_congr '*' (by intro n h1 h2; interval_cases n <;> rfl) c d h

theorem qContains_delimiters_singleton (c : Char) :
    qContains delimiters [c] = (c == '`' || c == '.') := by
  simp [qContains, delimiters, List.tails, List.isPrefixOf]

/-- The delimiter tests of the loop body do not depend on the case of letters. -/
theorem delimiter_congr (u v : List Char) (h : toUpper u = toUpper v) (hl : u.length ≤ 1) :
    qContains delimiters u = qContains delimiters v ∧ (u = ['`'] ↔ v = ['`']) ∧
      (u = ['.'] ↔ v = ['.']) := by
  have hlen : u.length = v.length := by
    have := congrArg List.length h
    simpa [toUpper] using this
  match u, v, hl, hlen, h with
  | [], [], _, _, _ => simp
  | [c], [d], _, _, h =>
    have hcd : c.toUpper = d.toUpper := by simpa [toUpper] using h
    have hb := backtick_congr c d hcd
    have hd := dot_congr c d hcd
    refine ⟨?_, by simpa using hb, by simpa using hd⟩
    rw [qContains_delimiters_singleton, qContains_delimiters_singleton]
    rw [Bool.eq_iff_iff]
    simp only [Bool.or_eq_true, beq_iff_eq, hb, hd]

theorem left_one_length (s : List Char) : (left s 1).length ≤ 1 := by
  simp only [left, List.length_take]; omega

theorem right_one_length (s : List Char) : (right s 1).length ≤ 1 := by
  simp only [right, List.length_drop]; omega

/-- What a turn of the scan loop decides depends only on the upper-case form of the
text. -/
theorem stepData_congr (X text : List Char) (h : toUpper X = toUpper text) (idx : Int) :
    stepData X idx = stepData text idx := by
  unfold stepData
  rw [RE.matchFrom_congr _ SQL_Token_Regular_Expression_caseFree X text h]
  cases SQL_Token_Regular_Expression.matchFrom text idx.toNat with
  | none => rfl
  | some m =>
    dsimp only
    cases hg : m.group1 with
    | none => rfl
    | some ab =>
      obtain ⟨a, b⟩ := ab
      dsimp only
      have hw : toUpper (mid X a (b - a)) = toUpper (mid text a (b - a)) := by
        rw [toUpper_mid, toUpper_mid, h]
      have hc : toUpper (m.captured X) = toUpper (m.captured text) := by
        simp only [Match.captured]; rw [toUpper_mid, toUpper_mid, h]
      have hL := delimiter_congr (left (m.captured X) 1) (left (m.captured text) 1)
        (by rw [toUpper_left, toUpper_left, hc]) (left_one_length _)
      have hR := delimiter_congr (right (m.captured X) 1) (right (m.captured text) 1)
        (by
          rw [toUpper_right, toUpper_right, hc]) (right_one_length _)
      simp only [hw, hL.1, hR.1, hL.2.1, hR.2.1, hR.2.2]

theorem right_one_eq (s : List Char) (c : Char) (h : right s 1 = [c]) :
    s[s.length - 1]? = some c ∧ 0 < s.length := by
  unfold right at h
  have h0 : (s.drop (s.length - 1))[0]? = some c := by rw [h]; rfl
  rw [List.getElem?_drop] at h0
  have hlen : 0 < s.length := by
    by_contra hc
    have : s = [] := List.length_eq_zero.mp (by omega)
    subst this
    simp at h
  exact ⟨by simpa using h0, hlen⟩

theorem mid_getElem? (s : List Char) (a n i : Nat) (hi : i < n) :
    (mid s a n)[i]? = s[a + i]? := by
  unfold mid
  rw [List.getElem?_take_of_lt hi, List.getElem?_drop]

theorem mid_length (s : List Char) (a n : Nat) (h : a + n ≤ s.length) :
    (mid s a n).length = n := by
  simp only [mid, List.length_take, List.length_drop]; omega

/-- Bounds on what a turn of the scan loop decides: the word lies inside the text, the
scan offset moves right (or the scan ends), and a word to be kept upper case is in
`All_MySQL_Keywords` once upper-cased. -/
theorem stepData_spec (text : List Char) (idx : Int) (h0 : 0 ≤ idx)
    (hi : idx ≤ text.length) :
    (stepData text idx).1 ≤ (stepData text idx).2.1 ∧
    (stepData text idx).2.1 ≤ text.length ∧
    ((stepData text idx).2.2.2 = -1 ∨
      (idx < (stepData text idx).2.2.2 ∧ (stepData text idx).2.2.2 ≤ text.length)) ∧
    ((stepData text idx).2.2.1 = true →
      isAllKeyword (toUpper (mid text (stepData text idx).1
        ((stepData text idx).2.1 - (stepData text idx).1))) = true) := by
  have hi' : idx.toNat ≤ text.length := by omega
  unfold stepData
  cases hm : SQL_Token_Regular_Expression.matchFrom text idx.toNat with
  | none => simp
  | some m =>
    obtain ⟨h1, h2, h3, h4⟩ := token_match_spec _ _ _ hi' hm
    dsimp only
    cases hg : m.group1 with
    | none =>
      dsimp only
      refine ⟨le_refl _, Nat.zero_le _, Or.inr ⟨by omega, by omega⟩, by simp⟩
    | some ab =>
      obtain ⟨a, b⟩ := ab
      obtain ⟨g1, g2, g3, g4⟩ := h4 a b hg
      have hpos : b - a > 0 := by omega
      simp only [hpos, if_true]
      refine ⟨by omega, by omega, ?_, ?_⟩
      · right
        by_cases c1 : left (m.captured text) 1 = ['`'] ∧ right (m.captured text) 1 = ['`']
        · simp only [c1, and_self, if_true]
          constructor <;> omega
        · simp only [c1, if_false]
          by_cases c2 : right (m.captured text) 1 = ['.']
          · simp only [c2, if_true]
            obtain ⟨e1, e2⟩ := right_one_eq _ _ c2
            have hcl : (m.captured text).length = m.capturedEnd - m.capturedStart := by
              simp only [Match.captured]
              exact mid_length _ _ _ (by omega)
            simp only [Match.captured] at e1
            rw [mid_getElem? _ _ _ _ (by
              have := hcl; simp only [Match.captured] at this; omega)] at e1
            have hcl' : (mid text m.capturedStart (m.capturedEnd - m.capturedStart)).length =
                m.capturedEnd - m.capturedStart := mid_length _ _ _ (by omega)
            rw [hcl'] at e1
            have hidx : m.capturedStart + (m.capturedEnd - m.capturedStart - 1) =
                m.capturedEnd - 1 := by omega
            rw [hidx] at e1
            have hb : b < m.capturedEnd := by
              by_contra hc
              have hbe : b = m.capturedEnd := by omega
              obtain ⟨c, hc1, hc2⟩ := g4 (b - 1) (by omega) (by omega)
              rw [hbe, e1] at hc1
              simp only [Option.some.injEq] at hc1
              subst hc1
              simp [isKeywordChar] at hc2
            constructor <;> omega
          · simp only [c2, if_false]
            constructor <;> omega
      · intro he
        simp only [Bool.and_eq_true] at he
        exact he.1.1

theorem toUpper_ne_isLower (c : Char) (h : c.toUpper ≠ c) : c.isLower = true := by
  rcases toUpper_eq_or c with h1 | ⟨n, h1, h2, rfl⟩
  · exact absurd h1 h
  · interval_cases n <;> rfl

/-- A word whose characters are their own upper-case forms is its own upper-case form. -/
theorem mid_eq_toUpper (X : List Char) (a b : Nat)
    (h : ∀ i, a ≤ i → i < b → ∀ x, X[i]? = some x → x.toUpper = x) :
    mid X a (b - a) = toUpper (mid X a (b - a)) := by
  apply List.ext_getElem?
  intro i
  rw [toUpper_getElem?]
  by_cases hi : i < b - a
  · rw [mid_getElem? _ _ _ _ hi]
    cases hx : X[a + i]? with
    | none => rfl
    | some x =>
      have := h (a + i) (by omega) (by omega) x hx
      simp [this]
  · have : (mid X a (b - a))[i]? = none := by
      rw [List.getElem?_eq_none_iff]
      simp only [mid, List.length_take]
      omega
    rw [this]; rfl

theorem toUpper_mid_fixed (X : List Char) (a b : Nat)
    (h : mid X a (b - a) = toUpper (mid X a (b - a))) :
    ∀ i, a ≤ i → i < b → ∀ x, X[i]? = some x → x.toUpper = x := by
  intro i h1 h2 x hx
  have e := congrArg (fun l => l[i - a]?) h
  simp only [toUpper_getElem?] at e
  rw [mid_getElem? _ _ _ _ (by omega)] at e
  have : a + (i - a) = i := by omega
  rw [this, hx] at e
  simp only [Option.map_some', Option.some.injEq] at e
  exact e.symm

/-- One turn of the scan loop: the text keeps its length, only gains upper-case letters,
the scan offset moves right or the scan ends, and the word of the turn is upper case
afterwards when it is to be kept upper case. -/
theorem uppercaseBody_spec (L : Nat) (s : UState) (hl : s.sql_text.length = L)
    (h0 : 0 ≤ s.sql_text_idx) (hi : s.sql_text_idx ≤ L) :
    UpTo s.sql_text (uppercaseBody s).sql_text ∧ ScanOk L (uppercaseBody s) ∧
    s.sql_text_idx ≠ (uppercaseBody s).sql_text_idx ∧
    ((uppercaseBody s).sql_text_idx = -1 ∨ s.sql_text_idx < (uppercaseBody s).sql_text_idx) ∧
    (uppercaseBody s).sql_text_idx = (stepData s.sql_text s.sql_text_idx).2.2.2 ∧
    ((stepData s.sql_text s.sql_text_idx).2.2.1 = true →
      ∀ i, (stepData s.sql_text s.sql_text_idx).1 ≤ i →
        i < (stepData s.sql_text s.sql_text_idx).2.1 →
        ∀ x, (uppercaseBody s).sql_text[i]? = some x → x.toUpper = x) := by
  subst hl
  obtain ⟨d1, d2, d3, d4⟩ := stepData_spec s.sql_text s.sql_text_idx h0 hi
  rw [uppercaseBody_eq s (by omega)]
  generalize stepData s.sql_text s.sql_text_idx = d at *
  obtain ⟨a, b, e, idx'⟩ := d
  simp only at d1 d2 d3 d4 ⊢
  unfold applyStep
  simp only
  by_cases hc : e = true ∧ ¬ (mid s.sql_text a (b - a) = toUpper (mid s.sql_text a (b - a)))
  · simp only [hc, not_false_eq_true, and_self, if_true]
    have hu := UpTo.replace_upper s.sql_text a b d1 d2
    refine ⟨hu, ⟨hu.1, ?_⟩, ?_, ?_, ?_⟩
    · dsimp only
      rcases d3 with h | h
      · exact Or.inl h
      · exact Or.inr ⟨by omega, h.2⟩
    · dsimp only
      rcases d3 with h | h <;> omega
    · rcases d3 with h | h
      · exact Or.inl h
      · exact Or.inr h.1
    · refine ⟨trivial, ?_⟩
      intro _ i h1 h2 x hx
      rw [replace_upper_getElem? _ _ _ d1 d2] at hx
      simp only [h1, h2, and_self, if_true] at hx
      cases hy : s.sql_text[i]? with
      | none => rw [hy] at hx; simp at hx
      | some y =>
        rw [hy] at hx
        simp only [Option.map_some', Option.some.injEq] at hx
        rw [← hx, toUpper_toUpper]
  · simp only [hc, if_false]
    refine ⟨UpTo.refl _, ⟨rfl, ?_⟩, ?_, ?_, ?_⟩
    · dsimp only
      rcases d3 with h | h
      · exact Or.inl h
      · exact Or.inr ⟨by omega, h.2⟩
    · dsimp only
      rcases d3 with h | h <;> omega
    · rcases d3 with h | h
      · exact Or.inl h
      · exact Or.inr h.1
    · refine ⟨trivial, ?_⟩
      intro he
      have : mid s.sql_text a (b - a) = toUpper (mid s.sql_text a (b - a)) := by
        by_contra hne
        exact hc ⟨he, hne⟩
      exact toUpper_mid_fixed _ _ _ this

/-- The two outcomes of a turn of the scan loop. -/
theorem uppercaseBody_cases (s : UState) (hi : s.sql_text_idx.toNat ≤ s.sql_text.length) :
    uppercaseBody s = { s with sql_text_idx := (stepData s.sql_text s.sql_text_idx).2.2.2 } ∨
    ((stepData s.sql_text s.sql_text_idx).2.2.1 = true ∧
      uppercaseBody s =
        { sql_text := replace s.sql_text (stepData s.sql_text s.sql_text_idx).1
            ((stepData s.sql_text s.sql_text_idx).2.1 - (stepData s.sql_text s.sql_text_idx).1)
            (toUpper (mid s.sql_text (stepData s.sql_text s.sql_text_idx).1
              ((stepData s.sql_text s.sql_text_idx).2.1 -
                (stepData s.sql_text s.sql_text_idx).1)))
          sql_text_idx := (stepData s.sql_text s.sql_text_idx).2.2.2
          first_modified_position :=
            if ((stepData s.sql_text s.sql_text_idx).1 : Int) < s.first_modified_position
            then (stepData s.sql_text s.sql_text_idx).1 else s.first_modified_position
          last_modified_position :=
            if ((stepData s.sql_text s.sql_text_idx).2.1 : Int) > s.last_modified_position
            then (stepData s.sql_text s.sql_text_idx).2.1 else s.last_modified_position
          modified := true } ∧
      (stepData s.sql_text s.sql_text_idx).1 < (stepData s.sql_text s.sql_text_idx).2.1) := by
  rw [uppercaseBody_eq s hi]
  unfold applyStep
  split
  · rename_i h
    right
    refine ⟨h.1, rfl, ?_⟩
    by_contra hc
    apply h.2
    have : (stepData s.sql_text s.sql_text_idx).2.1 - (stepData s.sql_text s.sql_text_idx).1 = 0 := by
      omega
    rw [this]
    simp [mid, toUpper]
  · left; rfl

theorem uppercaseBody_track (orig : List Char) (s : UState) (hL : (orig.length : Int) ≤ INT_MAX)
    (hl : s.sql_text.length = orig.length) (h0 : 0 ≤ s.sql_text_idx)
    (hi : s.sql_text_idx ≤ orig.length) (ht : Track orig s) :
    Track orig (uppercaseBody s) := by
  obtain ⟨d1, d2, -, -⟩ := stepData_spec s.sql_text s.sql_text_idx h0 (by omega)
  rcases uppercaseBody_cases s (by omega) with h | ⟨-, h, hab⟩
  · rw [h]; exact ht
  · rw [h]
    generalize (stepData s.sql_text s.sql_text_idx).1 = a at *
    generalize (stepData s.sql_text s.sql_text_idx).2.1 = b at *
    refine ⟨by intro hm; simp at hm, ?_⟩
    intro _
    dsimp only
    cases hm : s.modified with
    | false =>
      obtain ⟨e1, e2, e3⟩ := ht.1 hm
      rw [e2, e3]
      have ha : (a : Int) < INT_MAX := by omega
      have hb : (b : Int) > -1 := by omega
      simp only [ha, hb, if_true]
      refine ⟨by omega, by omega, by omega, ?_⟩
      intro i hi'
      rw [replace_upper_getElem? _ _ _ d1 d2, e1]
      have : ¬ (a ≤ i ∧ i < b) := by omega
      simp only [this, if_false]
    | true =>
      obtain ⟨e1, e2, e3, e4⟩ := ht.2 hm
      refine ⟨by split <;> omega, by split <;> split <;> omega, by split <;> omega, ?_⟩
      intro i hi'
      rw [replace_upper_getElem? _ _ _ d1 d2]
      have : ¬ (a ≤ i ∧ i < b) := by
        split at hi' <;> split at hi' <;> omega
      simp only [this, if_false]
      apply e4
      split at hi' <;> split at hi' <;> omega

theorem uppercaseBody_keyword (orig : List Char) (s : UState)
    (hl : s.sql_text.length = orig.length) (h0 : 0 ≤ s.sql_text_idx)
    (hi : s.sql_text_idx ≤ orig.length) (hu : UpTo orig s.sql_text)
    (hk : KeywordRewrite orig s.sql_text) :
    KeywordRewrite orig (uppercaseBody s).sql_text := by
  obtain ⟨d1, d2, -, d4⟩ := stepData_spec s.sql_text s.sql_text_idx h0 (by omega)
  rcases uppercaseBody_cases s (by omega) with h | ⟨he, h, hab⟩
  · rw [h]; exact hk
  · rw [h]
    generalize (stepData s.sql_text s.sql_text_idx).1 = a at *
    generalize (stepData s.sql_text s.sql_text_idx).2.1 = b at *
    dsimp only
    intro i c hc hne
    rw [replace_upper_getElem? _ _ _ d1 d2] at hne ⊢
    by_cases hin : a ≤ i ∧ i < b
    · simp only [hin, and_self, if_true] at hne ⊢
      have hT : (s.sql_text[i]?).map Char.toUpper = some c.toUpper := by
        rcases hu.2 i c hc with h' | h' <;> rw [h'] <;> simp [toUpper_toUpper]
      rw [hT] at hne ⊢
      refine ⟨toUpper_ne_isLower c (fun e => hne (by rw [e])), rfl, a, b, hin.1, hin.2,
        by omega, ?_⟩
      have := d4 he
      rw [toUpper_mid, hu.toUpper_eq, ← toUpper_mid] at this
      exact this
    · simp only [hin, if_false] at hne ⊢
      exact hk i c hc hne

/-- The scan loop ends within `L - sql_text_idx + 2` turns. -/
theorem uppercaseLoop_terminates (L : Nat) : ∀ (fuel : Nat) (s : UState), ScanOk L s →
    (s.sql_text_idx = -1 → 1 ≤ fuel) →
    (0 ≤ s.sql_text_idx → (L : Int) - s.sql_text_idx + 2 ≤ fuel) →
    ∃ sT, uppercaseLoop L fuel s = some sT := by
  intro fuel
  induction fuel with
  | zero =>
    intro s hs h1 h2
    rcases hs.2 with h | h
    · have := h1 h; omega
    · have := h2 h.1; omega
  | succ f ih =>
    intro s hs h1 h2
    unfold uppercaseLoop
    by_cases hc : 0 ≤ s.sql_text_idx ∧ s.sql_text_idx ≤ (L : Int)
    · simp only [hc, and_self, if_true]
      obtain ⟨-, b2, -, b4, -⟩ := uppercaseBody_spec L s hs.1 hc.1 hc.2
      have := h2 hc.1
      apply ih _ b2
      · intro _; omega
      · intro h0
        rcases b4 with h | h <;> omega
    · simp only [hc, if_false]
      exact ⟨s, rfl⟩

/-- Invariant rule for the scan loop. -/
theorem uppercaseLoop_inv (L : Nat) (P : UState → Prop)
    (hP : ∀ s, 0 ≤ s.sql_text_idx → s.sql_text_idx ≤ (L : Int) → P s → P (uppercaseBody s)) :
    ∀ (fuel : Nat) (s sT : UState), P s → uppercaseLoop L fuel s = some sT → P sT := by
  intro fuel
  induction fuel with
  | zero => intro s sT _ h; simp [uppercaseLoop] at h
  | succ f ih =>
    intro s sT hs h
    unfold uppercaseLoop at h
    by_cases hc : 0 ≤ s.sql_text_idx ∧ s.sql_text_idx ≤ (L : Int)
    · simp only [hc, and_self, if_true] at h
      exact ih _ sT (hP s hc.1 hc.2 hs) h
    · simp only [hc, if_false, Option.some.injEq] at h
      rw [← h]; exact hs

/-- The invariant of the scan loop on a text `orig` of length at most `INT_MAX`. -/
theorem uppercaseLoop_spec (orig : List Char) (hL : (orig.length : Int) ≤ INT_MAX)
    (fuel : Nat) (s sT : UState) (hs : ScanOk orig.length s) (hu : UpTo orig s.sql_text)
    (ht : Track orig s) (hk : KeywordRewrite orig s.sql_text)
    (h : uppercaseLoop orig.length fuel s = some sT) :
    ScanOk orig.length sT ∧ UpTo orig sT.sql_text ∧ Track orig sT ∧
      KeywordRewrite orig sT.sql_text := by
  refine uppercaseLoop_inv orig.length
    (fun s => ScanOk orig.length s ∧ UpTo orig s.sql_text ∧ Track orig s ∧
      KeywordRewrite orig s.sql_text) ?_ fuel s sT ⟨hs, hu, ht, hk⟩ h
  intro s h0 hi ⟨p1, p2, p3, p4⟩
  obtain ⟨b1, b2, -⟩ := uppercaseBody_spec orig.length s p1.1 h0 hi
  exact ⟨b2, p2.trans b1, uppercaseBody_track orig s hL p1.1 h0 hi p3,
    uppercaseBody_keyword orig s p1.1 h0 hi p2 p4⟩

/-- The scan loop only adds upper-case letters. -/
theorem uppercaseLoop_upTo (L : Nat) : ∀ (fuel : Nat) (s sT : UState), ScanOk L s →
    uppercaseLoop L fuel s = some sT → UpTo s.sql_text sT.sql_text := by
  intro fuel
  induction fuel with
  | zero => intro s sT _ h; simp [uppercaseLoop] at h
  | succ f ih =>
    intro s sT hs h
    unfold uppercaseLoop at h
    by_cases hc : 0 ≤ s.sql_text_idx ∧ s.sql_text_idx ≤ (L : Int)
    · simp only [hc, and_self, if_true] at h
      obtain ⟨b1, b2, -⟩ := uppercaseBody_spec L s hs.1 hc.1 hc.2
      exact b1.trans (ih _ sT b2 h)
    · simp only [hc, if_false, Option.some.injEq] at h
      rw [← h]; exact UpTo.refl _

/-- A second scan over a text that is upper case wherever the result of the first scan
is upper case rewrites nothing. -/
theorem uppercaseLoop_idem (L : Nat) : ∀ (fuel : Nat) (s sT : UState), ScanOk L s →
    uppercaseLoop L fuel s = some sT →
    ∀ sB : UState, sB.sql_text_idx = s.sql_text_idx →
      toUpper sB.sql_text = toUpper s.sql_text →
      (∀ (i : Nat) (c : Char), sT.sql_text[i]? = some c → c.toUpper = c →
        ∀ x : Char, sB.sql_text[i]? = some x → x.toUpper = x) →
      uppercaseLoop L fuel sB = some { sB with sql_text_idx := sT.sql_text_idx } := by
  intro fuel
  induction fuel with
  | zero => intro s sT _ h; simp [uppercaseLoop] at h
  | succ f ih =>
    intro s sT hs h sB hidx hup hfix
    unfold uppercaseLoop at h ⊢
    rw [hidx]
    by_cases hc : 0 ≤ s.sql_text_idx ∧ s.sql_text_idx ≤ (L : Int)
    · simp only [hc, and_self, if_true] at h ⊢
      obtain ⟨b1, b2, -, -, b5, b6⟩ := uppercaseBody_spec L s hs.1 hc.1 hc.2
      have hlB : sB.sql_text.length = L := by
        have := congrArg List.length hup
        rw [toUpper_length, toUpper_length] at this
        rw [this, hs.1]
      have hd : stepData sB.sql_text sB.sql_text_idx = stepData s.sql_text s.sql_text_idx := by
        rw [hidx]; exact stepData_congr _ _ hup _
      have hB : uppercaseBody sB = { sB with sql_text_idx := (uppercaseBody s).sql_text_idx } := by
        rw [uppercaseBody_eq sB (by rw [hidx, hlB]; omega), hd, b5]
        unfold applyStep
        have hno : ¬ ((stepData s.sql_text s.sql_text_idx).2.2.1 = true ∧
            ¬ (mid sB.sql_text (stepData s.sql_text s.sql_text_idx).1
                ((stepData s.sql_text s.sql_text_idx).2.1 - (stepData s.sql_text s.sql_text_idx).1) =
              toUpper (mid sB.sql_text (stepData s.sql_text s.sql_text_idx).1
                ((stepData s.sql_text s.sql_text_idx).2.1 -
                  (stepData s.sql_text s.sql_text_idx).1)))) := by
          rintro ⟨he, hne⟩
          apply hne
          apply mid_eq_toUpper
          intro i h1 h2 x hx
          have hT := uppercaseLoop_upTo L f _ sT b2 h
          cases hy : (uppercaseBody s).sql_text[i]? with
          | none =>
            have hlen : (uppercaseBody s).sql_text.length = sB.sql_text.length := by
              rw [b2.1, hlB]
            rw [List.getElem?_eq_none_iff] at hy
            have : sB.sql_text[i]? = none := by
              rw [List.getElem?_eq_none_iff]; omega
            rw [this] at hx; cases hx
          | some y =>
            have hyfix : y.toUpper = y := b6 he i h1 h2 y hy
            have hTy : sT.sql_text[i]? = some y := by
              rcases hT.2 i y hy with h' | h'
              · exact h'
              · rw [hyfix] at h'; exact h'
            exact hfix i y hTy hyfix x hx
        simp only [hno, if_false]
      rw [hB]
      exact ih (uppercaseBody s) sT b2 h _ rfl (by rw [hup, b1.toUpper_eq]) hfix
    · simp only [hc, if_false, Option.some.injEq] at h ⊢
      rw [← h, ← hidx]

theorem inside_c_style_comment_congr (X Y : List Char) (h : toUpper X = toUpper Y) :
    inside_c_style_comment X = inside_c_style_comment Y := by
  have key : ∀ U V : List Char, toUpper U = toUpper V →
      inside_c_style_comment U = true → inside_c_style_comment V = true := by
    intro U V h hU
    match U, V, h, hU with
    | c1 :: c2 :: _, [], h, _ => simp [toUpper] at h
    | c1 :: c2 :: _, [_], h, _ => simp [toUpper] at h
    | c1 :: c2 :: _, d1 :: d2 :: _, h, hU =>
      simp only [toUpper, List.map_cons, List.cons.injEq] at h
      have e1 : c1 = '/' := by
        by_contra hc
        simp [inside_c_style_comment, hc] at hU
      have e2 : c2 = '*' := by
        by_contra hc
        simp [inside_c_style_comment, e1, hc] at hU
      have f1 : d1 = '/' := (slash_congr c1 d1 h.1).mp e1
      have f2 : d2 = '*' := (asterisk_congr c2 d2 h.2.1).mp e2
      rw [f1, f2]; rfl
    | [], _, _, hU => simp [inside_c_style_comment] at hU
    | [_], _, _, hU => simp [inside_c_style_comment] at hU
  cases hX : inside_c_style_comment X with
  | true => exact (key X Y h hX).symm
  | false =>
    cases hY : inside_c_style_comment Y with
    | false => rfl
    | true => rw [key Y X h.symm hY] at hX; cases hX

/-- Writing back the modified portion of the rewritten text gives the rewritten text. -/
theorem replace_mid_eq (t T : List Char) (a b : Nat) (hab : a ≤ b) (hb : b ≤ t.length)
    (hlen : T.length = t.length) (hout : ∀ i : Nat, i < a ∨ b ≤ i → T[i]? = t[i]?) :
    replace t a (b - a) (mid T a (b - a)) = T := by
  apply List.ext_getElem?
  intro i
  have hml : (mid T a (b - a)).length = b - a := mid_length _ _ _ (by omega)
  have htl : (t.take a).length = a := by simp only [List.length_take]; omega
  unfold replace
  by_cases h1 : i < a
  · rw [List.append_assoc, List.getElem?_append_left (by omega), List.getElem?_take_of_lt h1]
    exact (hout i (Or.inl h1)).symm
  · by_cases h2 : i < b
    · rw [List.getElem?_append_left (by simp only [List.length_append]; omega),
        List.getElem?_append_right (by omega), htl, mid_getElem? _ _ _ _ (by omega)]
      congr 1; omega
    · rw [List.getElem?_append_right (by simp only [List.length_append]; omega),
        List.getElem?_drop, hout i (Or.inr (by omega))]
      congr 1
      simp only [List.length_append]
      omega

/-- The whole-text call on a text that does not start with the opening comment
delimiter: the scan loop ends, the document afterwards is the rewritten `sql_text`,
which is the text with some letters of keyword occurrences upper-cased. -/
theorem Uppercase_SQL_Keywords_run (t : List Char) (hL : (t.length : Int) ≤ INT_MAX)
    (hin : inside_c_style_comment t = false) :
    ∃ sT, uppercaseLoop t.length (t.length + 2) ⟨t, 0, INT_MAX, -1, false⟩ = some sT ∧
      Uppercase_SQL_Keywords t = some sT.sql_text ∧ UpTo t sT.sql_text ∧
      KeywordRewrite t sT.sql_text := by
  have hs0 : ScanOk t.length ⟨t, 0, INT_MAX, -1, false⟩ := ⟨rfl, Or.inr ⟨le_refl _, by simp⟩⟩
  obtain ⟨sT, hrun⟩ := uppercaseLoop_terminates t.length (t.length + 2) _ hs0
    (by intro _; omega) (by intro _; simp only; push_cast; omega)
  have ht0 : Track t ⟨t, 0, INT_MAX, -1, false⟩ :=
    ⟨fun _ => ⟨rfl, rfl, rfl⟩, fun h => by simp at h⟩
  have hk0 : KeywordRewrite t t := fun i c hc hne => absurd hc hne
  obtain ⟨p1, p2, p3, p4⟩ := uppercaseLoop_spec t hL _ _ sT hs0 (UpTo.refl t) ht0 hk0 hrun
  refine ⟨sT, hrun, ?_, p2, p4⟩
  unfold Uppercase_SQL_Keywords
  simp only [hin, Bool.false_eq_true, if_false, hrun]
  cases hm : sT.modified with
  | false =>
    simp only [Bool.false_eq_true, if_false]
    rw [(p3.1 hm).1]
  | true =>
    simp only [if_true]
    obtain ⟨e1, e2, e3, e4⟩ := p3.2 hm
    have hsub : (sT.last_modified_position - sT.first_modified_position).toNat =
        sT.last_modified_position.toNat - sT.first_modified_position.toNat := by omega
    rw [hsub]
    congr 1
    apply replace_mid_eq _ _ _ _ (by omega) (by omega) p2.1
    intro i hi
    apply e4
    omega

/-! ## Case normalizer: the claims -/

/-- C1. The whole-text call of `Uppercase_SQL_Keywords` is idempotent: on every text (of a
length a `QString` can have) the call completes and leaves a document `t1`, and a second
call on `t1` completes and leaves `t1` unchanged. -/
theorem C1_normalize_idempotent (t : List Char) (hL : (t.length : Int) ≤ INT_MAX) :
    ∃ t1, Uppercase_SQL_Keywords t = some t1 ∧ Uppercase_SQL_Keywords t1 = some t1 := by
  cases hin : inside_c_style_comment t with
  | true =>
    have : Uppercase_SQL_Keywords t = some t := by
      unfold Uppercase_SQL_Keywords; simp [hin]
    exact ⟨t, this, this⟩
  | false =>
    obtain ⟨sT, hrun, hU, hup, -⟩ := Uppercase_SQL_Keywords_run t hL hin
    refine ⟨sT.sql_text, hU, ?_⟩
    have hin1 : inside_c_style_comment sT.sql_text = false := by
      rw [inside_c_style_comment_congr _ t hup.toUpper_eq]; exact hin
    have hs0 : ScanOk t.length ⟨t, 0, INT_MAX, -1, false⟩ := ⟨rfl, Or.inr ⟨le_refl _, by simp⟩⟩
    have h2 := uppercaseLoop_idem t.length (t.length + 2) _ sT hs0 hrun
      ⟨sT.sql_text, 0, INT_MAX, -1, false⟩ rfl hup.toUpper_eq
      (fun i c hc hfix x hx => by
        simp only at hx
        rw [hc] at hx
        simp only [Option.some.injEq] at hx
        rw [← hx]; exact hfix)
    unfold Uppercase_SQL_Keywords
    simp only [hin1, Bool.false_eq_true, if_false, hup.1, h2]

/-- Witness of C1 on a text with one keyword to rewrite. -/
theorem C1_normalize_idempotent_witness :
    (("select 1".toList.length : Nat) : Int) ≤ INT_MAX ∧
    ∃ t1, Uppercase_SQL_Keywords "select 1".toList = some t1 ∧
      Uppercase_SQL_Keywords t1 = some t1 :=
  ⟨by decide, C1_normalize_idempotent "select 1".toList (by decide)⟩

/-- C3 (the code at the failing inputs). A word directly followed by an opening quote
takes the quote as its trailing delimiter, so the scan resumes inside the string and
rewrites `select` there; the same happens for the words of a block comment directly
after a word; and a text that starts with a block comment is not scanned at all, so the
keyword after the comment stays in lower case. -/
theorem C3_quoted_and_commented_text_at_failing_inputs :
    Uppercase_SQL_Keywords "x\"select\"".toList = some "x\"SELECT\"".toList ∧
    Uppercase_SQL_Keywords "a/* from */".toList = some "a/* FROM */".toList ∧
    Uppercase_SQL_Keywords "/* c */ select 1".toList = some "/* c */ select 1".toList := by
  decide

/-- C4. The whole-text call is non-destructive: on every text `t` (of a length a
`QString` can have) it completes with a document `t'` of the same length; `t'` differs
from `t` only at offsets that hold a lower-case ASCII letter in `t` and the
corresponding upper-case letter in `t'`, each inside a word of `t` that is in
`All_MySQL_Keywords` once upper-cased; so `t` and `t'` have the same upper-case form. -/
theorem C4_normalize_non_destructive (t : List Char) (hL : (t.length : Int) ≤ INT_MAX) :
    ∃ t', Uppercase_SQL_Keywords t = some t' ∧ t'.length = t.length ∧
      (∀ (i : Nat) (c : Char), t[i]? = some c → t'[i]? ≠ some c →
        c.isLower = true ∧ t'[i]? = some c.toUpper ∧
        ∃ a b : Nat, a ≤ i ∧ i < b ∧ b ≤ t.length ∧
          isAllKeyword (toUpper (mid t a (b - a))) = true) ∧
      toUpper t' = toUpper t := by
  cases hin : inside_c_style_comment t with
  | true =>
    have : Uppercase_SQL_Keywords t = some t := by
      unfold Uppercase_SQL_Keywords; simp [hin]
    exact ⟨t, this, rfl, fun i c hc hne => absurd hc hne, rfl⟩
  | false =>
    obtain ⟨sT, -, hU, hup, hk⟩ := Uppercase_SQL_Keywords_run t hL hin
    exact ⟨sT.sql_text, hU, hup.1, hk, hup.toUpper_eq⟩

/-- Witness of C4 on a text with one keyword to rewrite. -/
theorem C4_normalize_non_destructive_witness :
    (("a from".toList.length : Nat) : Int) ≤ INT_MAX ∧
    ∃ t', Uppercase_SQL_Keywords "a from".toList = some t' ∧
      t'.length = "a from".toList.length ∧
      (∀ (i : Nat) (c : Char), "a from".toList[i]? = some c → t'[i]? ≠ some c →
        c.isLower = true ∧ t'[i]? = some c.toUpper ∧
        ∃ a b : Nat, a ≤ i ∧ i < b ∧ b ≤ "a from".toList.length ∧
          isAllKeyword (toUpper (mid "a from".toList a (b - a))) = true) ∧
      toUpper t' = toUpper "a from".toList :=
  ⟨by decide, C4_normalize_non_destructive "a from".toList (by decide)⟩

/-! ## The bracket text -/

theorem qContains_bracket_singleton (c : Char) :
    qContains MySQL_Bracket_List [c] = (c == '(' || c == ')') := by
  simp [qContains, MySQL_Bracket_List, List.tails, List.isPrefixOf]

theorem bracketLoop_spec (text : List Char) : ∀ (fuel offset : Nat) (bt : List Char),
    offset ≤ text.length → text.length + 1 ≤ fuel + offset → BracketCells text bt →
    ∃ bt', bracketLoop text fuel offset bt = some bt' ∧ BracketCells text bt' := by
  intro fuel
  induction fuel with
  | zero => intro offset bt h1 h2 _; omega
  | succ f ih =>
    intro offset bt h1 h2 hb
    unfold bracketLoop
    cases hm : MySQL_Bracket_RegEx.matchFrom text offset with
    | none => exact ⟨bt, rfl, hb⟩
    | some m =>
      obtain ⟨m1, m2, m3⟩ := bracket_match_spec text offset m h1 hm
      dsimp only
      apply ih _ _ m3 (by omega)
      split
      · rename_i hc
        obtain ⟨hc1, hc2⟩ := hc
        have hlt' : m.capturedStart < text.length := by omega
        have hcap : m.captured text = [text[m.capturedStart]] := by
          simp only [Match.captured, mid, hc1]
          rw [List.drop_eq_getElem_cons hlt']
          rfl
        rw [hcap] at hc2 ⊢
        rw [qContains_bracket_singleton] at hc2
        simp only [List.getD_cons_zero]
        refine ⟨by rw [List.length_set]; exact hb.1, ?_⟩
        intro i c hi
        rw [List.getElem?_set] at hi
        split at hi
        · rename_i heq
          have hlt : m.capturedStart < bt.length := by rw [hb.1]; omega
          simp only [hlt, if_true, Option.some.injEq] at hi
          right
          subst heq
          refine ⟨?_, ?_⟩
          · rw [← hi]
            simpa using hc2
          · rw [← hi]
            exact List.getElem?_eq_getElem _
        · exact hb.2 i c hi
      · exact hb

/-- The function `Compute_Bracket_Text` completes on every text, and every cell of its result is blank
or holds the parenthesis of the text at the same offset. -/
theorem Compute_Bracket_Text_spec (text : List Char) :
    ∃ bt, Compute_Bracket_Text text = some bt ∧ BracketCells text bt := by
  unfold Compute_Bracket_Text
  apply bracketLoop_spec text _ 0 _ (Nat.zero_le _) (by omega)
  refine ⟨by simp, ?_⟩
  intro i c hi
  left
  rw [List.getElem?_replicate] at hi
  split at hi
  · simpa using hi.symm
  · cases hi

/-! ## The two scans of the bracket matcher in terms of the nesting depth -/

theorem height_zero (bt : List Char) : height bt 0 = 0 := by simp [height]

theorem height_succ (bt : List Char) (i : Nat) (x : Char) (h : bt[i]? = some x) :
    height bt (i + 1) = levelStep '(' ')' x (height bt i) := by
  have hlt : i < bt.length := by
    by_contra hc
    rw [List.getElem?_eq_none (by omega)] at h
    cases h
  have hx : bt[i] = x := by
    rw [List.getElem?_eq_getElem hlt] at h
    exact Option.some.inj h
  unfold height levelStep
  rw [List.take_succ, h]
  simp only [Option.toList_some, List.count_append, List.count_singleton]
  by_cases h1 : x = '('
  · subst h1; simp; omega
  · by_cases h2 : x = ')'
    · subst h2; simp
      omega
    · have e1 : (x == '(') = false := by simpa using h1
      have e2 : (x == ')') = false := by simpa using h2
      simp only [e1, e2, h1, h2, if_false]
      simp

theorem levelStep_close_open (x : Char) (lvl : Int) :
    levelStep ')' '(' x lvl = lvl - (levelStep '(' ')' x 0) := by
  unfold levelStep
  by_cases h1 : x = '('
  · subst h1; simp
  · by_cases h2 : x = ')'
    · subst h2; simp
    · simp [h1, h2]

theorem levelStep_open_close (x : Char) (lvl : Int) :
    levelStep '(' ')' x lvl = lvl + (levelStep '(' ')' x 0) := by
  unfold levelStep
  by_cases h1 : x = '('
  · subst h1; simp
  · by_cases h2 : x = ')'
    · subst h2; simp; omega
    · simp [h1, h2]

/-- The forward scan stops at the first offset after which the depth is back at `base`,
or at the end of the bracket text. -/
theorem scanForward_spec (bt : List Char) (base : Int) : ∀ (l : List Char) (pos : Nat)
    (lvl : Int), bt.drop pos = l → pos ≤ bt.length → lvl = height bt pos - base →
    pos ≤ scanForward '(' ')' l pos lvl ∧ scanForward '(' ')' l pos lvl ≤ bt.length ∧
    (∀ j, pos ≤ j → j < scanForward '(' ')' l pos lvl → height bt (j + 1) ≠ base) ∧
    (scanForward '(' ')' l pos lvl < bt.length →
      height bt (scanForward '(' ')' l pos lvl + 1) = base) := by
  intro l
  induction l with
  | nil =>
    intro pos lvl hd hp hl
    simp only [scanForward]
    have : bt.length ≤ pos := by
      have := congrArg List.length hd
      simp only [List.length_drop, List.length_nil] at this
      omega
    exact ⟨le_refl _, hp, fun j h1 h2 => by omega, fun h => by omega⟩
  | cons x r ih =>
    intro pos lvl hd hp hl
    have hlt : pos < bt.length := by
      by_contra hc
      rw [List.drop_eq_nil_of_le (by omega)] at hd
      cases hd
    have hx : bt[pos]? = some x := by
      have := congrArg (fun l => l[0]?) hd
      simp only [List.getElem?_drop, List.getElem?_cons_zero] at this
      simpa using this
    have hr : bt.drop (pos + 1) = r := by
      have := congrArg List.tail hd
      simpa [List.tail_drop] using this
    have hh := height_succ bt pos x hx
    have hlvl : levelStep '(' ')' x lvl = height bt (pos + 1) - base := by
      rw [levelStep_open_close, hh, levelStep_open_close x (height bt pos), hl]
      omega
    simp only [scanForward]
    by_cases h0 : levelStep '(' ')' x lvl = 0
    · simp only [h0, if_true]
      exact ⟨le_refl _, hp, fun j h1 h2 => by omega, fun _ => by omega⟩
    · simp only [h0, if_false]
      obtain ⟨i1, i2, i3, i4⟩ := ih (pos + 1) _ hr (by omega) hlvl
      refine ⟨by omega, i2, ?_, i4⟩
      intro j h1 h2
      by_cases hj : j = pos
      · subst hj
        intro hc
        apply h0
        rw [hlvl, hc]; omega
      · exact i3 j (by omega) h2

/-- The backward scan stops at the first offset, going down, at which the depth is at
`base`, or passes the start of the bracket text. -/
theorem scanBackward_spec (bt : List Char) (base : Int) : ∀ (n : Nat) (lvl : Int),
    n < bt.length → lvl = height bt (n + 1) - base →
    ∃ r : Int, scanBackward '(' ')' bt n lvl = some r ∧ -1 ≤ r ∧ r ≤ n ∧
      (∀ j : Nat, r < j → j ≤ n → height bt j ≠ base) ∧
      (0 ≤ r → height bt r.toNat = base) := by
  intro n
  induction n with
  | zero =>
    intro lvl hn hl
    obtain ⟨x, hx⟩ : ∃ x, bt[0]? = some x := ⟨bt[0], List.getElem?_eq_getElem hn⟩
    have hh := height_succ bt 0 x hx
    have hlvl : levelStep ')' '(' x lvl = height bt 0 - base := by
      rw [levelStep_close_open, hl, hh, levelStep_open_close x (height bt 0)]
      omega
    simp only [scanBackward, hx]
    by_cases h0 : levelStep ')' '(' x lvl = 0
    · simp only [h0, if_true]
      refine ⟨0, rfl, by omega, by simp, fun j h1 h2 => ?_, fun _ => ?_⟩
      · have : (j : Int) ≤ 0 := by exact_mod_cast h2
        omega
      · simp only [Int.toNat_zero]; omega
    · simp only [h0, if_false]
      refine ⟨-1, rfl, le_refl _, by omega, fun j h1 h2 => ?_, fun h => by omega⟩
      have hj : j = 0 := by omega
      subst hj
      intro hc
      apply h0
      rw [hlvl, hc]; omega
  | succ n ih =>
    intro lvl hn hl
    obtain ⟨x, hx⟩ : ∃ x, bt[n + 1]? = some x := ⟨bt[n + 1], List.getElem?_eq_getElem hn⟩
    have hh := height_succ bt (n + 1) x hx
    have hlvl : levelStep ')' '(' x lvl = height bt (n + 1) - base := by
      rw [levelStep_close_open, hl, hh, levelStep_open_close x (height bt (n + 1))]
      omega
    simp only [scanBackward, hx]
    by_cases h0 : levelStep ')' '(' x lvl = 0
    · simp only [h0, if_true]
      refine ⟨((n + 1 : Nat) : Int), rfl, by omega, le_refl _, fun j h1 h2 => ?_, fun _ => ?_⟩
      · omega
      · simp only [Int.toNat_ofNat]; omega
    · simp only [h0, if_false]
      obtain ⟨r, i1, i2, i3, i4, i5⟩ := ih _ (by omega) hlvl
      refine ⟨r, i1, i2, by omega, ?_, i5⟩
      intro j h1 h2
      by_cases hj : j = n + 1
      · subst hj
        intro hc
        apply h0
        rw [hlvl, hc]; omega
      · exact i4 j h1 (by omega)

/-! ## `Bracket_Match_Position` in terms of the two scans -/

theorem matchPosition_open (text bt : List Char) (hb : BracketCells text bt) (p : Nat)
    (h : bt[p]? = some '(') :
    matchPosition text bt p =
      some (if scanForward '(' ')' (bt.drop p) p 0 < bt.length
        then ((scanForward '(' ')' (bt.drop p) p 0 : Nat) : Int) else -1) := by
  have hp : p < bt.length := by
    by_contra hc
    rw [List.getElem?_eq_none (by omega)] at h
    cases h
  have ht : text[p]? = some '(' := by
    rcases hb.2 p _ h with h1 | h1
    · cases h1
    · exact h1.2
  have hl := hb.1
  unfold matchPosition
  have hr : ¬ ((p : Int) < 0 ∨ (p : Int) ≥ text.length ∨ (p : Int) ≥ bt.length) := by omega
  simp only [hr, if_false, Int.toNat_ofNat, ht, h, qContains_bracket_singleton]
  simp only [beq_self_eq_true, Bool.true_or, not_true_eq_false, if_false, if_true]
  by_cases hq : scanForward '(' ')' (bt.drop p) p 0 < bt.length
  · have : ((scanForward '(' ')' (bt.drop p) p 0 : Nat) : Int) ≥ 0 ∧
        ((scanForward '(' ')' (bt.drop p) p 0 : Nat) : Int) < bt.length := by omega
    simp only [this, and_self, if_true, hq]
  · have : ¬ (((scanForward '(' ')' (bt.drop p) p 0 : Nat) : Int) ≥ 0 ∧
        ((scanForward '(' ')' (bt.drop p) p 0 : Nat) : Int) < bt.length) := by omega
    simp only [this, if_false, hq]

theorem matchPosition_close (text bt : List Char) (hb : BracketCells text bt) (p : Nat)
    (h : bt[p]? = some ')') (r : Int) (hr : scanBackward '(' ')' bt p 0 = some r)
    (h1 : -1 ≤ r) (h2 : r ≤ p) :
    matchPosition text bt p = some r := by
  have hp : p < bt.length := by
    by_contra hc
    rw [List.getElem?_eq_none (by omega)] at h
    cases h
  have ht : text[p]? = some ')' := by
    rcases hb.2 p _ h with h1 | h1
    · cases h1
    · exact h1.2
  have hl := hb.1
  unfold matchPosition
  have hrange : ¬ ((p : Int) < 0 ∨ (p : Int) ≥ text.length ∨ (p : Int) ≥ bt.length) := by omega
  simp only [hrange, if_false, Int.toNat_ofNat, ht, h, qContains_bracket_singleton, hr]
  have e1 : ¬ (')' = '(') := by decide
  simp only [beq_self_eq_true, Bool.or_true, not_true_eq_false, if_false, if_true, e1]
  by_cases hq : r ≥ 0 ∧ r < bt.length
  · simp only [hq, and_self, if_true]
  · simp only [hq, if_false]
    congr 1
    omega

theorem matchPosition_none (text bt : List Char) (hb : BracketCells text bt) (p : Int)
    (h : ¬ (0 ≤ p ∧ (bt[p.toNat]? = some '(' ∨ bt[p.toNat]? = some ')'))) :
    matchPosition text bt p = some (-1) := by
  have hl := hb.1
  unfold matchPosition
  by_cases hrange : p < 0 ∨ p ≥ text.length ∨ p ≥ bt.length
  · simp only [hrange, if_true]
  · simp only [hrange, if_false]
    have hp : p.toNat < bt.length := by omega
    have htl : p.toNat < text.length := by omega
    obtain ⟨b, hb'⟩ : ∃ b, bt[p.toNat]? = some b := ⟨bt[p.toNat], List.getElem?_eq_getElem hp⟩
    obtain ⟨t, ht'⟩ : ∃ t, text[p.toNat]? = some t :=
      ⟨text[p.toNat], List.getElem?_eq_getElem htl⟩
    rw [hb', ht']
    simp only [qContains_bracket_singleton]
    by_cases c1 : ¬ ((t == '(' || t == ')') = true)
    · rw [if_pos c1]
    · rw [if_neg c1]
      by_cases c2 : ¬ (b = t)
      · rw [if_pos c2]
      · rw [if_neg c2]
        exfalso
        apply h
        refine ⟨by omega, ?_⟩
        rw [hb']
        have c2' : b = t := by
          by_contra hc; exact c2 hc
        rw [c2']
        simp only [Bool.or_eq_true, beq_iff_eq, not_not] at c1
        rcases c1 with e | e
        · left; rw [e]
        · right; rw [e]

/-- With the cache in sync, `Bracket_Match_Position` is `matchPosition` on the bracket
text of the current document text. -/
theorem Bracket_Match_Position_eq (text : List Char) (cache : BracketCache)
    (hs : cache.inSync) :
    ∃ bt, Compute_Bracket_Text text = some bt ∧ BracketCells text bt ∧
      ∀ p, Bracket_Match_Position text cache p = matchPosition text bt p := by
  obtain ⟨bt, h1, h2⟩ := Compute_Bracket_Text_spec text
  refine ⟨bt, h1, h2, ?_⟩
  intro p
  unfold Bracket_Match_Position
  have hfresh : onTextChanged text = some ⟨text, bt⟩ := by
    simp only [onTextChanged, h1]
  by_cases c1 : text.length ≠ cache.Bracket_Text.length
  · rw [if_pos c1, hfresh]
    dsimp only
    rw [if_neg (by simp)]
  · rw [if_neg c1]
    dsimp only
    by_cases c2 : text ≠ cache.Bracket_Source_Text
    · rw [if_pos c2, hfresh]
    · rw [if_neg c2]
      have e : text = cache.Bracket_Source_Text := by
        by_contra hc; exact c2 hc
      have hs' := hs
      unfold BracketCache.inSync at hs'
      rw [← e, h1] at hs'
      dsimp only
      rw [← Option.some.inj hs']

theorem height_step (bt : List Char) (j : Nat) :
    (height bt (j + 1) = height bt j + 1 ∧ bt[j]? = some '(') ∨
    (height bt (j + 1) = height bt j - 1 ∧ bt[j]? = some ')') ∨
    (height bt (j + 1) = height bt j ∧ bt[j]? ≠ some '(' ∧ bt[j]? ≠ some ')') := by
  cases hx : bt[j]? with
  | none =>
    right; right
    refine ⟨?_, by simp, by simp⟩
    have hl : bt.length ≤ j := by
      rw [List.getElem?_eq_none_iff] at hx; exact hx
    unfold height
    rw [List.take_of_length_le (by omega), List.take_of_length_le hl]
  | some x =>
    have := height_succ bt j x hx
    unfold levelStep at this
    by_cases h1 : x = '('
    · left; subst h1; simp at this; exact ⟨this, rfl⟩
    · by_cases h2 : x = ')'
      · right; left; subst h2; simp at this; exact ⟨this, rfl⟩
      · right; right
        simp only [h1, h2, if_false] at this
        refine ⟨this, ?_, ?_⟩
        · intro hc; exact h1 (Option.some.inj hc)
        · intro hc; exact h2 (Option.some.inj hc)

/-- The depth changes by at most one per cell, so on a range of offsets where it never
equals `v` it stays on one side of `v`. -/
theorem height_same_side (bt : List Char) (v : Int) (a : Nat) : ∀ b : Nat, a ≤ b →
    (∀ j, a ≤ j → j ≤ b → height bt j ≠ v) → (height bt a > v ↔ height bt b > v) := by
  intro b hab
  induction b, hab using Nat.le_induction with
  | base => intro _; exact Iff.rfl
  | succ b hab ih =>
    intro h
    have h1 := ih (fun j h1 h2 => h j h1 (by omega))
    have hb := h b hab (by omega)
    have hb1 := h (b + 1) (by omega) (le_refl _)
    rw [h1]
    rcases height_step bt b with ⟨e, -⟩ | ⟨e, -⟩ | ⟨e, -⟩ <;> constructor <;> intro _ <;> omega

/-- The match of an opening parenthesis at `n`: the scan result `Q` is inside the text
exactly when the depth returns to its value before `n`, `Q` is then the first such
offset, it lies after `n` and holds a closing parenthesis. -/
theorem forward_match_facts (bt : List Char) (n : Nat) (h : bt[n]? = some '(')
    (hQ : scanForward '(' ')' (bt.drop n) n 0 < bt.length) :
    n < scanForward '(' ')' (bt.drop n) n 0 ∧
    height bt (scanForward '(' ')' (bt.drop n) n 0 + 1) = height bt n ∧
    (∀ j, n < j → j ≤ scanForward '(' ')' (bt.drop n) n 0 → height bt j > height bt n) ∧
    bt[scanForward '(' ')' (bt.drop n) n 0]? = some ')' := by
  have hn : n < bt.length := by
    by_contra hc
    rw [List.getElem?_eq_none (by omega)] at h
    cases h
  obtain ⟨s1, s2, s3, s4⟩ := scanForward_spec bt (height bt n) (bt.drop n) n 0 rfl (by omega)
    (by omega)
  generalize scanForward '(' ')' (bt.drop n) n 0 = Q at *
  have hs4 := s4 hQ
  have hup : height bt (n + 1) = height bt n + 1 := by
    rcases height_step bt n with ⟨e, -⟩ | ⟨-, e⟩ | ⟨-, e, -⟩
    · exact e
    · rw [h] at e; cases e
    · exact absurd h e
  have hne : Q ≠ n := by
    intro e; subst e; omega
  have hlt : n < Q := by omega
  have hall : ∀ j, n < j → j ≤ Q → height bt j > height bt n := by
    intro j h1 h2
    have := height_same_side bt (height bt n) (n + 1) j (by omega)
      (fun i i1 i2 => by
        have := s3 (i - 1) (by omega) (by omega)
        have e : i - 1 + 1 = i := by omega
        rw [e] at this; exact this)
    exact this.mp (by omega)
  refine ⟨hlt, hs4, hall, ?_⟩
  have hq := hall Q hlt (le_refl _)
  rcases height_step bt Q with ⟨e, -⟩ | ⟨-, e⟩ | ⟨e, -⟩
  · omega
  · exact e
  · omega

/-- The match of a closing parenthesis at `n`, when the backward scan stops at an offset
`r` inside the text: the depth before `r` is the depth after `n`, it is larger in
between, `r` lies before `n` and holds an opening parenthesis. -/
theorem backward_match_facts (bt : List Char) (n : Nat) (h : bt[n]? = some ')') :
    ∃ r : Int, scanBackward '(' ')' bt n 0 = some r ∧ -1 ≤ r ∧ r ≤ n ∧
      (∀ j : Nat, r < j → j ≤ n → height bt j > height bt (n + 1)) ∧
      (0 ≤ r → r < n ∧ height bt r.toNat = height bt (n + 1) ∧ bt[r.toNat]? = some '(') := by
  have hn : n < bt.length := by
    by_contra hc
    rw [List.getElem?_eq_none (by omega)] at h
    cases h
  obtain ⟨r, s1, s2, s3, s4, s5⟩ := scanBackward_spec bt (height bt (n + 1)) n 0 hn (by omega)
  have hdown : height bt (n + 1) = height bt n - 1 := by
    rcases height_step bt n with ⟨-, e⟩ | ⟨e, -⟩ | ⟨-, -, e⟩
    · rw [h] at e; cases e
    · exact e
    · exact absurd h e
  have hall : ∀ j : Nat, r < j → j ≤ n → height bt j > height bt (n + 1) := by
    intro j h1 h2
    have := height_same_side bt (height bt (n + 1)) j n h2
      (fun i i1 i2 => s4 i (by omega) i2)
    exact this.mpr (by omega)
  refine ⟨r, s1, s2, s3, hall, ?_⟩
  intro hr
  have e := s5 hr
  have hlt : r < n := by
    by_contra hc
    have : r.toNat = n := by omega
    rw [this] at e; omega
  refine ⟨hlt, e, ?_⟩
  have hnext := hall (r.toNat + 1) (by omega) (by omega)
  rcases height_step bt r.toNat with ⟨-, e'⟩ | ⟨e', -⟩ | ⟨e', -⟩
  · exact e'
  · omega
  · omega

/-- Matching twice comes back: when the match of `p` is an offset `q` of the text, the
match of `q` is `p`. -/
theorem matchPosition_involutive (text bt : List Char) (hb : BracketCells text bt)
    (p q : Int) (h : matchPosition text bt p = some q) (hq : 0 ≤ q) :
    matchPosition text bt q = some p := by
  by_cases hcase : 0 ≤ p ∧ (bt[p.toNat]? = some '(' ∨ bt[p.toNat]? = some ')')
  · obtain ⟨hp, hch⟩ := hcase
    obtain ⟨n, rfl⟩ := Int.eq_ofNat_of_zero_le hp
    simp only [Int.toNat_ofNat] at hch
    rcases hch with ho | hc
    · rw [matchPosition_open text bt hb n ho] at h
      by_cases hQ : scanForward '(' ')' (bt.drop n) n 0 < bt.length
      · simp only [hQ, if_true, Option.some.injEq] at h
        obtain ⟨f1, f2, f3, f4⟩ := forward_match_facts bt n ho hQ
        generalize scanForward '(' ')' (bt.drop n) n 0 = Q at *
        subst h
        obtain ⟨r, b1, b2, b3, b4, b5⟩ := backward_match_facts bt Q f4
        rw [matchPosition_close text bt hb Q f4 r b1 b2 b3]
        congr 1
        have hge : (n : Int) ≤ r := by
          by_contra hc
          have := b4 n (by omega) (by omega)
          omega
        obtain ⟨c1, c2, c3⟩ := b5 (by omega)
        by_contra hne
        have := f3 r.toNat (by omega) (by omega)
        omega
      · simp only [hQ, if_false, Option.some.injEq] at h
        omega
    · obtain ⟨r, b1, b2, b3, b4, b5⟩ := backward_match_facts bt n hc
      rw [matchPosition_close text bt hb n hc r b1 b2 b3] at h
      simp only [Option.some.injEq] at h
      subst h
      obtain ⟨c1, c2, c3⟩ := b5 hq
      obtain ⟨m, rfl⟩ := Int.eq_ofNat_of_zero_le hq
      simp only [Int.toNat_ofNat] at c2 c3
      rw [matchPosition_open text bt hb m c3]
      have hm : m < bt.length := by
        by_contra hc'
        rw [List.getElem?_eq_none (by omega)] at c3
        cases c3
      have hn : n < bt.length := by
        by_contra hc'
        rw [List.getElem?_eq_none (by omega)] at hc
        cases hc
      obtain ⟨s1, s2, s3, s4⟩ := scanForward_spec bt (height bt m) (bt.drop m) m 0 rfl
        (by omega) (by omega)
      generalize scanForward '(' ')' (bt.drop m) m 0 = Q at *
      have hQn : Q = n := by
        by_contra hne
        rcases Nat.lt_or_gt_of_ne hne with hlt | hgt
        · have e := s4 (by omega)
          have := b4 (Q + 1) (by omega) (by omega)
          omega
        · have := s3 n (by omega) hgt
          omega
      subst hQn
      simp only [hn, if_true]
  · rw [matchPosition_none text bt hb p hcase] at h
    simp only [Option.some.injEq] at h
    omega

/-! ## The bracket matcher against its reference definition -/

theorem findLeast_some (P : Nat → Bool) : ∀ (n start q : Nat), findLeast P n start = some q →
    start ≤ q ∧ q < start + n ∧ P q = true ∧ ∀ j, start ≤ j → j < q → P j = false := by
  intro n
  induction n with
  | zero => intro start q h; simp [findLeast] at h
  | succ n ih =>
    intro start q h
    unfold findLeast at h
    by_cases hp : P start = true
    · simp only [hp, if_true, Option.some.injEq] at h
      subst h
      exact ⟨le_refl _, by omega, hp, fun j h1 h2 => by omega⟩
    · simp only [hp, if_false] at h
      obtain ⟨i1, i2, i3, i4⟩ := ih _ _ h
      refine ⟨by omega, by omega, i3, ?_⟩
      intro j h1 h2
      by_cases e : j = start
      · subst e; simpa using hp
      · exact i4 j (by omega) h2

theorem findLeast_none (P : Nat → Bool) : ∀ (n start : Nat), findLeast P n start = none →
    ∀ j, start ≤ j → j < start + n → P j = false := by
  intro n
  induction n with
  | zero => intro start _ j h1 h2; omega
  | succ n ih =>
    intro start h j h1 h2
    unfold findLeast at h
    by_cases hp : P start = true
    · simp [hp] at h
    · simp only [hp, if_false] at h
      by_cases e : j = start
      · subst e; simpa using hp
      · exact ih _ h j (by omega) (by omega)

theorem findGreatestBelow_some (P : Nat → Bool) : ∀ (n q : Nat),
    findGreatestBelow P n = some q →
    q < n ∧ P q = true ∧ ∀ j, q < j → j < n → P j = false := by
  intro n
  induction n with
  | zero => intro q h; simp [findGreatestBelow] at h
  | succ n ih =>
    intro q h
    unfold findGreatestBelow at h
    by_cases hp : P n = true
    · simp only [hp, if_true, Option.some.injEq] at h
      subst h
      exact ⟨by omega, hp, fun j h1 h2 => by omega⟩
    · simp only [hp, if_false] at h
      obtain ⟨i1, i2, i3⟩ := ih _ h
      refine ⟨by omega, i2, ?_⟩
      intro j h1 h2
      by_cases e : j = n
      · subst e; simpa using hp
      · exact i3 j h1 (by omega)

theorem findGreatestBelow_none (P : Nat → Bool) : ∀ (n : Nat),
    findGreatestBelow P n = none → ∀ j, j < n → P j = false := by
  intro n
  induction n with
  | zero => intro _ j h; omega
  | succ n ih =>
    intro h j hj
    unfold findGreatestBelow at h
    by_cases hp : P n = true
    · simp [hp] at h
    · simp only [hp, if_false] at h
      by_cases e : j = n
      · subst e; simpa using hp
      · exact ih h j (by omega)

/-- A segment is balanced exactly when the depth after it is the depth before it. -/
theorem segmentBalanced_iff (bt : List Char) (p q : Nat) (h : p ≤ q + 1) :
    segmentBalanced bt p q = true ↔ height bt (q + 1) = height bt p := by
  unfold segmentBalanced height
  have e : bt.take (q + 1) = bt.take p ++ (bt.drop p).take (q + 1 - p) := by
    have : q + 1 = p + (q + 1 - p) := by omega
    conv_lhs => rw [this]
    exact List.take_add _ _ _
  rw [e, List.count_append, List.count_append]
  simp only [beq_iff_eq]
  constructor
  · intro h'; rw [h']; push_cast; omega
  · intro h'; push_cast at h'; omega

theorem getElem?_some_lt {bt : List Char} {n : Nat} {x : Char} (h : bt[n]? = some x) :
    n < bt.length := by
  by_contra hc
  rw [List.getElem?_eq_none (by omega)] at h
  cases h

theorem matchPosition_eq_reference (text bt : List Char) (hb : BracketCells text bt)
    (p : Int) : matchPosition text bt p = some (Bracket_Match_Reference text bt p) := by
  have hl := hb.1
  by_cases hcase : 0 ≤ p ∧ (bt[p.toNat]? = some '(' ∨ bt[p.toNat]? = some ')')
  · obtain ⟨hp, hch⟩ := hcase
    obtain ⟨n, rfl⟩ := Int.eq_ofNat_of_zero_le hp
    simp only [Int.toNat_ofNat] at hch
    rcases hch with ho | hc
    · have hn := getElem?_some_lt ho
      have ht : text[n]? = some '(' := by
        rcases hb.2 n _ ho with h1 | h1
        · cases h1
        · exact h1.2
      rw [matchPosition_open text bt hb n ho]
      congr 1
      unfold Bracket_Match_Reference
      have hr : ¬ ((n : Int) < 0 ∨ (n : Int) ≥ text.length) := by omega
      have e1 : ¬ ('(' ≠ '(' ∧ '(' ≠ ')') := by decide
      have e2 : ¬ ('(' = ' ') := by decide
      simp only [hr, if_false, Int.toNat_ofNat, ht, ho, e1, e2, if_true]
      obtain ⟨s1, s2, s3, s4⟩ := scanForward_spec bt (height bt n) (bt.drop n) n 0 rfl
        (by omega) (by omega)
      by_cases hQ : scanForward '(' ')' (bt.drop n) n 0 < bt.length
      · obtain ⟨f1, f2, -, -⟩ := forward_match_facts bt n ho hQ
        simp only [hQ, if_true]
        generalize scanForward '(' ')' (bt.drop n) n 0 = Q at *
        cases hf : findLeast (fun q => segmentBalanced bt n q) (bt.length - (n + 1)) (n + 1) with
        | none =>
          have := findLeast_none _ _ _ hf Q (by omega) (by omega)
          have hb' := (segmentBalanced_iff bt n Q (by omega)).mpr f2
          simp only at this
          rw [hb'] at this; cases this
        | some q =>
          obtain ⟨g1, g2, g3, g4⟩ := findLeast_some _ _ _ _ hf
          have hq := (segmentBalanced_iff bt n q (by omega)).mp g3
          dsimp only
          congr 1
          by_contra hne
          rcases Nat.lt_or_gt_of_ne hne with hlt | hgt
          · have := g4 Q (by omega) hlt
            have hb' := (segmentBalanced_iff bt n Q (by omega)).mpr f2
            simp only at this
            rw [hb'] at this; cases this
          · exact s3 q (by omega) hgt hq
      · simp only [hQ, if_false]
        generalize scanForward '(' ')' (bt.drop n) n 0 = Q at *
        cases hf : findLeast (fun q => segmentBalanced bt n q) (bt.length - (n + 1)) (n + 1) with
        | none => rfl
        | some q =>
          obtain ⟨g1, g2, g3, g4⟩ := findLeast_some _ _ _ _ hf
          have hq := (segmentBalanced_iff bt n q (by omega)).mp g3
          exact absurd hq (s3 q (by omega) (by omega))
    · have hn := getElem?_some_lt hc
      have ht : text[n]? = some ')' := by
        rcases hb.2 n _ hc with h1 | h1
        · cases h1
        · exact h1.2
      obtain ⟨r, b1, b2, b3, b4, b5⟩ := backward_match_facts bt n hc
      rw [matchPosition_close text bt hb n hc r b1 b2 b3]
      congr 1
      unfold Bracket_Match_Reference
      have hr : ¬ ((n : Int) < 0 ∨ (n : Int) ≥ text.length) := by omega
      have e1 : ¬ (')' ≠ '(' ∧ ')' ≠ ')') := by decide
      have e2 : ¬ (')' = ' ') := by decide
      have e3 : ¬ (')' = '(') := by decide
      simp only [hr, if_false, Int.toNat_ofNat, ht, hc, e1, e2, e3]
      cases hf : findGreatestBelow (fun q => segmentBalanced bt q n) n with
      | none =>
        dsimp only
        by_contra hne
        obtain ⟨c1, c2, c3⟩ := b5 (by omega)
        have := findGreatestBelow_none _ _ hf r.toNat (by omega)
        have hb' := (segmentBalanced_iff bt r.toNat n (by omega)).mpr c2.symm
        simp only at this
        rw [hb'] at this; cases this
      | some q =>
        obtain ⟨g1, g2, g3⟩ := findGreatestBelow_some _ _ _ hf
        have hq := (segmentBalanced_iff bt q n (by omega)).mp g2
        dsimp only
        have hqr : (q : Int) ≤ r := by
          by_contra hlt
          have := b4 q (by omega) (by omega)
          omega
        obtain ⟨c1, c2, c3⟩ := b5 (by omega)
        by_contra hne
        have := g3 r.toNat (by omega) (by omega)
        have hb' := (segmentBalanced_iff bt r.toNat n (by omega)).mpr c2.symm
        simp only at this
        rw [hb'] at this; cases this
  · rw [matchPosition_none text bt hb p hcase]
    congr 1
    unfold Bracket_Match_Reference
    by_cases hr : p < 0 ∨ p ≥ text.length
    · simp only [hr, if_true]
    · simp only [hr, if_false]
      have hp : p.toNat < bt.length := by omega
      have htl : p.toNat < text.length := by omega
      obtain ⟨b, hb'⟩ : ∃ b, bt[p.toNat]? = some b := ⟨bt[p.toNat], List.getElem?_eq_getElem hp⟩
      obtain ⟨t, ht'⟩ : ∃ t, text[p.toNat]? = some t :=
        ⟨text[p.toNat], List.getElem?_eq_getElem htl⟩
      rw [hb', ht']
      dsimp only
      by_cases c1 : t ≠ '(' ∧ t ≠ ')'
      · rw [if_pos c1]
      · rw [if_neg c1]
        by_cases c2 : b = ' '
        · rw [if_pos c2]
        · exfalso
          apply hcase
          refine ⟨by omega, ?_⟩
          rw [hb']
          rcases hb.2 _ _ hb' with h1 | h1
          · exact absurd h1 c2
          · rcases h1.1 with e | e
            · left; rw [e]
            · right; rw [e]

/-- C6. `Bracket_Match_Position` equals its reference definition: for every document
text, cache in sync and offset `p` the call completes and returns what
`Bracket_Match_Reference` gives on the bracket text of the document: -1 when `p` is out of
range, when the text holds no bracket character at `p`, or when the bracket map is blank
at `p`; for "(" the least later offset closing a balanced segment of the map, for ")"
the greatest earlier offset opening one, and -1 when there is none. -/
theorem C6_bracket_match_refines_reference (text : List Char) (cache : BracketCache)
    (hs : cache.inSync) (p : Int) :
    ∃ bt, Compute_Bracket_Text text = some bt ∧
      Bracket_Match_Position text cache p = some (Bracket_Match_Reference text bt p) := by
  obtain ⟨bt, h1, hb, he⟩ := Bracket_Match_Position_eq text cache hs
  exact ⟨bt, h1, by rw [he]; exact matchPosition_eq_reference text bt hb p⟩

/-- Witness of C6 on `(a)` at offset 0. -/
theorem C6_bracket_match_refines_reference_witness :
    ∃ bt, Compute_Bracket_Text "(a)".toList = some bt ∧
      Bracket_Match_Position "(a)".toList ⟨"(a)".toList, "( )".toList⟩ 0 =
        some (Bracket_Match_Reference "(a)".toList bt 0) :=
  C6_bracket_match_refines_reference "(a)".toList ⟨"(a)".toList, "( )".toList⟩
    (by show Compute_Bracket_Text "(a)".toList = some "( )".toList; decide) 0

/-! ## The bracket map: claims C7 to C9 -/

/-- C7 (the code at the failing input). In the text `#(`, a `#`-comment on the last line
of a text that does not end in a newline, the parenthesis at offset 1 is recorded in the
bracket map: the pattern of a `#`-comment asks for the newline that ends it. With the
newline the parenthesis is not recorded. -/
theorem C7_bracket_map_at_failing_input :
    Compute_Bracket_Text "#(".toList = some " (".toList ∧
    Compute_Bracket_Text "#(\n".toList = some "   ".toList := by
  decide

/-- C8 (counterexample). The text `"(")` has one opening and one closing parenthesis in
balanced nesting, but its bracket map has one non-blank cell, not two, and
`Bracket_Match_Position` returns -1 at that cell: the opening parenthesis lies in a
string. -/
theorem C8_counterexample :
    balancedFrom "\"(\")".toList 0 = true ∧
    "\"(\")".toList.count '(' = 1 ∧ "\"(\")".toList.count ')' = 1 ∧
    Compute_Bracket_Text "\"(\")".toList = some "   )".toList ∧
    ("   )".toList.filter (fun c => c != ' ')).length = 1 ∧
    Bracket_Match_Position "\"(\")".toList ⟨"\"(\")".toList, "   )".toList⟩ 3 = some (-1) := by
  decide

/-- C9 (counterexample). In the text `[]` the bracket at offset 0 has its partner at
offset 1, but `Bracket_Match_Position(0)` returns -1, and the bracket map is blank. -/
theorem C9_counterexample :
    Compute_Bracket_Text "[]".toList = some "  ".toList ∧
    Bracket_Match_Position "[]".toList ⟨"[]".toList, "  ".toList⟩ 0 = some (-1) ∧
    Bracket_Match_Position "[]".toList ⟨"[]".toList, "  ".toList⟩ 1 = some (-1) := by
  decide

/-- C9 (amended). Square brackets are not matched: `MySQL_Bracket_List` is `()`, so for
every document text, cache in sync and offset `p` at which the text holds "[" or "]",
`Bracket_Match_Position(p)` returns -1. -/
theorem C9_square_brackets_not_matched (text : List Char) (cache : BracketCache)
    (hs : cache.inSync) (p : Nat)
    (hp : text[p]? = some '[' ∨ text[p]? = some ']') :
    Bracket_Match_Position text cache p = some (-1) := by
  obtain ⟨bt, -, hb, he⟩ := Bracket_Match_Position_eq text cache hs
  rw [he]
  apply matchPosition_none text bt hb
  rintro ⟨-, h⟩
  simp only [Int.toNat_ofNat] at h
  rcases h with h | h
  · rcases hb.2 p _ h with h1 | h1
    · cases h1
    · rw [h1.2] at hp
      rcases hp with e | e <;> cases e
  · rcases hb.2 p _ h with h1 | h1
    · cases h1
    · rw [h1.2] at hp
      rcases hp with e | e <;> cases e

/-- Witness of C9 (amended) on `a[1]` at offset 1. -/
theorem C9_square_brackets_not_matched_witness :
    Bracket_Match_Position "a[1]".toList ⟨"a[1]".toList, "    ".toList⟩ (1 : Nat) = some (-1) :=
  C9_square_brackets_not_matched "a[1]".toList ⟨"a[1]".toList, "    ".toList⟩
    (by show Compute_Bracket_Text "a[1]".toList = some "    ".toList; decide) 1
    (by decide)

theorem height_cons (x : Char) (r : List Char) (i : Nat) :
    height (x :: r) (i + 1) = levelStep '(' ')' x 0 + height r i := by
  unfold height levelStep
  simp only [List.take_succ_cons, List.count_cons]
  by_cases h1 : x = '('
  · subst h1; simp; omega
  · by_cases h2 : x = ')'
    · subst h2; simp; omega
    · have e1 : (x == '(') = false := by simpa using h1
      have e2 : (x == ')') = false := by simpa using h2
      simp [e1, e2, h1, h2]

/-- In a balanced bracket text the depth is never negative and ends at zero. -/
theorem balancedFrom_spec : ∀ (l : List Char) (d : Int), 0 ≤ d → balancedFrom l d = true →
    (∀ i, 0 ≤ d + height l i) ∧ d + height l l.length = 0 := by
  intro l
  induction l with
  | nil =>
    intro d hd h
    simp only [balancedFrom, beq_iff_eq] at h
    subst h
    simp [height]
  | cons x r ih =>
    intro d hd h
    simp only [balancedFrom, Bool.and_eq_true, decide_eq_true_eq] at h
    obtain ⟨i1, i2⟩ := ih _ h.1 h.2
    rw [levelStep_open_close] at i1 i2
    constructor
    · intro i
      cases i with
      | zero => rw [height_zero]; omega
      | succ i =>
        rw [height_cons]
        have := i1 i
        omega
    · rw [List.length_cons, height_cons]
      omega

theorem nonblank_count (l : List Char)
    (h : ∀ c ∈ l, c = ' ' ∨ c = '(' ∨ c = ')') :
    (l.filter (fun c => c != ' ')).length = l.count '(' + l.count ')' := by
  induction l with
  | nil => rfl
  | cons x r ih =>
    have ihr := ih (fun c hc => h c (List.mem_cons_of_mem _ hc))
    rcases h x (List.mem_cons_self _ _) with e | e | e
    · subst e
      simp only [List.filter_cons, List.count_cons]
      simpa using ihr
    · subst e
      simp only [List.filter_cons, List.count_cons]
      simp
      omega
    · subst e
      simp only [List.filter_cons, List.count_cons]
      simp
      omega

/-- A balanced bracket map holds as many closing as opening parentheses, nothing else
but blanks, and every parenthesis in it has a match. -/
theorem balanced_bracket_map (text : List Char) (cache : BracketCache)
    (hs : cache.inSync) (bt : List Char) (hbt : Compute_Bracket_Text text = some bt)
    (hbal : balancedFrom bt 0 = true) :
    bt.count ')' = bt.count '(' ∧
    (bt.filter (fun c => c != ' ')).length = 2 * bt.count '(' ∧
    ∀ (p : Nat) (c : Char), bt[p]? = some c → c ≠ ' ' →
      ∃ q : Int, Bracket_Match_Position text cache p = some q ∧ 0 ≤ q := by
  obtain ⟨bt', h1, hb, he⟩ := Bracket_Match_Position_eq text cache hs
  rw [hbt] at h1
  have e := Option.some.inj h1
  subst e
  obtain ⟨hnn, hend⟩ := balancedFrom_spec bt 0 (le_refl _) hbal
  have hcount : bt.count ')' = bt.count '(' := by
    have := hend
    unfold height at this
    rw [List.take_length] at this
    omega
  refine ⟨hcount, ?_, ?_⟩
  · rw [nonblank_count bt, hcount]
    · omega
    · intro c hc
      obtain ⟨i, hi, rfl⟩ := List.getElem_of_mem hc
      rcases hb.2 i _ (List.getElem?_eq_getElem hi) with h | h
      · exact Or.inl h
      · exact Or.inr h.1
  · intro p c hc hne
    rw [he]
    have hp := getElem?_some_lt hc
    rcases hb.2 p c hc with h | ⟨h | h, -⟩
    · exact absurd h hne
    · subst h
      rw [matchPosition_open text bt hb p hc]
      obtain ⟨s1, s2, s3, s4⟩ := scanForward_spec bt (height bt p) (bt.drop p) p 0 rfl
        (by omega) (by omega)
      by_cases hQ : scanForward '(' ')' (bt.drop p) p 0 < bt.length
      · exact ⟨((scanForward '(' ')' (bt.drop p) p 0 : Nat) : Int),
          by simp only [hQ, if_true], by omega⟩
      · exfalso
        have hup : height bt (p + 1) = height bt p + 1 := by
          rcases height_step bt p with ⟨e, -⟩ | ⟨-, e⟩ | ⟨-, e, -⟩
          · exact e
          · rw [hc] at e; cases e
          · exact absurd hc e
        have := height_same_side bt (height bt p) (p + 1) bt.length (by omega)
          (fun i i1 i2 => by
            have := s3 (i - 1) (by omega) (by omega)
            have e : i - 1 + 1 = i := by omega
            rw [e] at this; exact this)
        have h1 := this.mp (by omega)
        have h2 := hnn p
        omega
    · subst h
      obtain ⟨r, b1, b2, b3, b4, b5⟩ := backward_match_facts bt p hc
      rw [matchPosition_close text bt hb p hc r b1 b2 b3]
      refine ⟨r, rfl, ?_⟩
      by_contra hneg
      have := b4 0 (by omega) (by omega)
      rw [height_zero] at this
      have := hnn (p + 1)
      omega

/-- C8 (amended). For every document text whose bracket map holds its parentheses in
balanced nesting, `N` of them opening ones: the map holds as many closing ones, exactly
`2 * N` of its cells are not blank, and `Bracket_Match_Position` returns a match (an
offset, never -1) at every offset whose cell is not blank. -/
theorem C8_balanced_bracket_map_matches (text : List Char) (cache : BracketCache)
    (hs : cache.inSync) (bt : List Char) (hbt : Compute_Bracket_Text text = some bt)
    (hbal : balancedFrom bt 0 = true) :
    bt.count ')' = bt.count '(' ∧
    (bt.filter (fun c => c != ' ')).length = 2 * bt.count '(' ∧
    ∀ (p : Nat) (c : Char), bt[p]? = some c → c ≠ ' ' →
      ∃ q : Int, Bracket_Match_Position text cache p = some q ∧ 0 ≤ q :=
  balanced_bracket_map text cache hs bt hbt hbal

/-- Witness of C8 (amended) on `(a)(b)`. -/
theorem C8_balanced_bracket_map_matches_witness :
    "( )( )".toList.count ')' = "( )( )".toList.count '(' ∧
    ("( )( )".toList.filter (fun c => c != ' ')).length = 2 * "( )( )".toList.count '(' ∧
    ∀ (p : Nat) (c : Char), "( )( )".toList[p]? = some c → c ≠ ' ' →
      ∃ q : Int, Bracket_Match_Position "(a)(b)".toList
        ⟨"(a)(b)".toList, "( )( )".toList⟩ p = some q ∧ 0 ≤ q :=
  C8_balanced_bracket_map_matches "(a)(b)".toList ⟨"(a)(b)".toList, "( )( )".toList⟩
    (by show Compute_Bracket_Text "(a)(b)".toList = some "( )( )".toList; decide)
    "( )( )".toList (by decide) (by decide)

/-- C5 (counterexample). The text `(")"` has balanced parentheses and its bracket map
records the parenthesis at offset 0, but that parenthesis has no match (its partner lies
in a string), so matching twice does not come back to offset 0. -/
theorem C5_counterexample :
    balancedFrom "(\")\"".toList 0 = true ∧
    Compute_Bracket_Text "(\")\"".toList = some "(   ".toList ∧
    Bracket_Match_Position "(\")\"".toList ⟨"(\")\"".toList, "(   ".toList⟩ 0 = some (-1) ∧
    Bracket_Match_Position "(\")\"".toList ⟨"(\")\"".toList, "(   ".toList⟩ (-1) = some (-1) := by
  decide

/-- C5 (amended). Bracket matching is an involution: for every document text and cache
in sync, if `Bracket_Match_Position(p)` returns `q >= 0` then `Bracket_Match_Position(q)`
returns `p`; and when the bracket map of the text holds its parentheses in balanced
nesting, every offset `p` of a parenthesis recorded in the map has a match `q >= 0` and
the match of `q` is `p`. -/
theorem C5_bracket_match_involution (text : List Char) (cache : BracketCache)
    (hs : cache.inSync) :
    (∀ p q : Int, Bracket_Match_Position text cache p = some q → 0 ≤ q →
      Bracket_Match_Position text cache q = some p) ∧
    (∀ bt : List Char, Compute_Bracket_Text text = some bt → balancedFrom bt 0 = true →
      ∀ (p : Nat) (c : Char), bt[p]? = some c → c ≠ ' ' →
        ∃ q : Int, 0 ≤ q ∧ Bracket_Match_Position text cache p = some q ∧
          Bracket_Match_Position text cache q = some p) := by
  have inv : ∀ p q : Int, Bracket_Match_Position text cache p = some q → 0 ≤ q →
      Bracket_Match_Position text cache q = some p := by
    intro p q h hq
    obtain ⟨bt, -, hb, he⟩ := Bracket_Match_Position_eq text cache hs
    rw [he] at h ⊢
    exact matchPosition_involutive text bt hb p q h hq
  refine ⟨inv, ?_⟩
  intro bt hbt hbal p c hc hne
  obtain ⟨q, h1, h2⟩ := (balanced_bracket_map text cache hs bt hbt hbal).2.2 p c hc hne
  exact ⟨q, h2, h1, inv p q h1 h2⟩

/-- Witness of C5 (amended) on `(a)`: the match of offset 0 is 2 and the match of 2 is
0. -/
theorem C5_bracket_match_involution_witness :
    Bracket_Match_Position "(a)".toList ⟨"(a)".toList, "( )".toList⟩ 0 = some 2 ∧
    Bracket_Match_Position "(a)".toList ⟨"(a)".toList, "( )".toList⟩ 2 = some 0 :=
  ⟨by decide,
    (C5_bracket_match_involution "(a)".toList ⟨"(a)".toList, "( )".toList⟩
      (by show Compute_Bracket_Text "(a)".toList = some "( )".toList; decide)).1 0 2
      (by decide) (by decide)⟩

/-! ## The indent inferencer -/

theorem newlineBefore_eq (T : List Char) : ∀ n : Nat, n < T.length →
    newlineBefore T n =
      some (match findGreatestBelow (fun i => T[i]? == some '\n') (n + 1) with
        | some i => (i : Int)
        | none => -1) := by
  intro n
  induction n with
  | zero =>
    intro hn
    have hx : T[0]? = some T[0] := List.getElem?_eq_getElem hn
    simp only [newlineBefore, findGreatestBelow, hx]
    by_cases e : T[0] = '\n'
    · simp [e]
    · simp [e]
  | succ n ih =>
    intro hn
    have hx : T[n + 1]? = some T[n + 1] := List.getElem?_eq_getElem hn
    rw [newlineBefore, hx]
    dsimp only
    rw [findGreatestBelow, hx]
    by_cases e : T[n + 1] = '\n'
    · simp [e]
    · have e' : (some T[n + 1] == some '\n') = false := by simpa using e
      rw [if_neg e, e', ih (by omega)]
      simp

theorem indentAt_eq (T : List Char) (b : Nat) (h : T[b]? = some '(') :
    indentAt T b = some ((b : Int) - lastNewlineBefore T b) := by
  have hb := getElem?_some_lt h
  unfold indentAt lastNewlineBefore
  rw [newlineBefore_eq T b hb]
  dsimp only
  rw [findGreatestBelow, h]
  simp

/-- The backward loop of the indent inferencer finds the nearest "(" after which the
depth is the depth `base` at the start of the scan. -/
theorem parenIndentLoop_eq (T bt : List Char) (base : Int) : ∀ (n : Nat) (lvl : Int),
    n < bt.length → lvl = base - height bt (n + 1) →
    parenIndentLoop T bt n lvl =
      match findGreatestBelow
          (fun j => bt[j]? == some '(' && decide (height bt (j + 1) = base)) (n + 1) with
      | some b => indentAt T b
      | none => some 0 := by
  intro n
  induction n with
  | zero =>
    intro lvl hn hl
    have hx : bt[0]? = some bt[0] := List.getElem?_eq_getElem hn
    have hh := height_succ bt 0 _ hx
    rw [levelStep_open_close] at hh
    unfold levelStep at hh
    simp only [parenIndentLoop, findGreatestBelow, hx]
    by_cases e1 : bt[0] = ')'
    · simp [e1]
    · by_cases e2 : bt[0] = '('
      · simp only [e2, if_true] at hh
        have e3 : ¬ ('(' = ')') := by decide
        simp only [e2, e3, if_false, if_true, beq_self_eq_true, Bool.true_and,
          decide_eq_true_eq]
        by_cases e4 : lvl + 1 = 1
        · have : height bt (0 + 1) = base := by omega
          simp [e4, this]
        · have : ¬ (height bt (0 + 1) = base) := by omega
          simp [e4, this]
      · simp [e1, e2]
  | succ n ih =>
    intro lvl hn hl
    have hx : bt[n + 1]? = some bt[n + 1] := List.getElem?_eq_getElem hn
    have hh := height_succ bt (n + 1) _ hx
    rw [levelStep_open_close] at hh
    unfold levelStep at hh
    rw [parenIndentLoop, hx]
    dsimp only
    rw [findGreatestBelow, hx]
    by_cases e1 : bt[n + 1] = ')'
    · have e3 : ¬ (')' = '(') := by decide
      simp only [e1, e3, if_false, if_true] at hh
      rw [if_pos e1, ih _ (by omega) (by omega)]
      simp [e1]
    · rw [if_neg e1]
      by_cases e2 : bt[n + 1] = '('
      · simp only [e2, if_true] at hh
        rw [if_pos e2]
        by_cases e4 : lvl + 1 = 1
        · have : height bt (n + 1 + 1) = base := by omega
          simp [e4, e2, this]
        · have : ¬ (height bt (n + 1 + 1) = base) := by omega
          rw [if_neg e4, ih _ (by omega) (by omega)]
          simp [e2, this]
      · simp only [e2, e1, if_false] at hh
        rw [if_neg e2, ih _ (by omega) (by omega)]
        simp [e2]

/-- Below an offset where the depth is less than at the end there is a later "(" that
brings the depth to its end value. -/
theorem exists_open_at_level (bt : List Char) : ∀ (d a : Nat), a + d = bt.length →
    height bt a < height bt bt.length →
    ∃ k, a ≤ k ∧ k < bt.length ∧ bt[k]? = some '(' ∧ height bt (k + 1) = height bt bt.length := by
  intro d
  induction d with
  | zero =>
    intro a ha h
    have : a = bt.length := by omega
    subst this
    omega
  | succ d ih =>
    intro a ha h
    by_cases hn : height bt (a + 1) < height bt bt.length
    · obtain ⟨k, k1, k2, k3, k4⟩ := ih (a + 1) (by omega) hn
      exact ⟨k, by omega, k2, k3, k4⟩
    · rcases height_step bt a with ⟨e, e'⟩ | ⟨e, -⟩ | ⟨e, -⟩
      · exact ⟨a, le_refl _, by omega, e', by omega⟩
      · omega
      · omega

theorem findGreatestBelow_eq_some (P : Nat → Bool) : ∀ (n b : Nat), b < n → P b = true →
    (∀ j, b < j → j < n → P j = false) → findGreatestBelow P n = some b := by
  intro n
  induction n with
  | zero => intro b hb; omega
  | succ n ih =>
    intro b hb hP hmax
    unfold findGreatestBelow
    by_cases e : b = n
    · subst e; simp [hP]
    · have := hmax n (by omega) (by omega)
      simp only [this, Bool.false_eq_true, if_false]
      exact ih b (by omega) hP (fun j h1 h2 => hmax j h1 (by omega))

theorem findGreatestBelow_eq_none (P : Nat → Bool) : ∀ (n : Nat),
    (∀ j, j < n → P j = false) → findGreatestBelow P n = none := by
  intro n
  induction n with
  | zero => intro _; rfl
  | succ n ih =>
    intro h
    unfold findGreatestBelow
    simp only [h n (by omega), Bool.false_eq_true, if_false]
    exact ih (fun j hj => h j (by omega))

/-- An opening parenthesis of the bracket map has no match exactly when the depth never
returns, after it, to its value before it. -/
theorem unmatched_iff (text bt : List Char) (hb : BracketCells text bt) (j : Nat) :
    (bt[j]? == some '(' && Bracket_Match_Reference text bt j == -1) = true ↔
      (bt[j]? = some '(' ∧
        ∀ q, j ≤ q → q < bt.length → height bt (q + 1) ≠ height bt j) := by
  simp only [Bool.and_eq_true, beq_iff_eq]
  constructor
  · rintro ⟨h1, h2⟩
    refine ⟨h1, ?_⟩
    have hm := matchPosition_eq_reference text bt hb j
    rw [h2, matchPosition_open text bt hb j h1] at hm
    have hj := getElem?_some_lt h1
    obtain ⟨s1, s2, s3, s4⟩ := scanForward_spec bt (height bt j) (bt.drop j) j 0 rfl
      (by omega) (by omega)
    by_cases hQ : scanForward '(' ')' (bt.drop j) j 0 < bt.length
    · simp only [hQ, if_true, Option.some.injEq] at hm
      omega
    · intro q q1 q2
      exact s3 q q1 (by omega)
  · rintro ⟨h1, h2⟩
    refine ⟨h1, ?_⟩
    have hm := matchPosition_eq_reference text bt hb j
    rw [matchPosition_open text bt hb j h1] at hm
    have hj := getElem?_some_lt h1
    obtain ⟨s1, s2, s3, s4⟩ := scanForward_spec bt (height bt j) (bt.drop j) j 0 rfl
      (by omega) (by omega)
    by_cases hQ : scanForward '(' ')' (bt.drop j) j 0 < bt.length
    · exact absurd (s4 hQ) (h2 _ s1 hQ)
    · simp only [hQ, if_false, Option.some.injEq] at hm
      exact hm.symm

/-- The nearest "(" after which the depth is the depth at the end of the text is the
nearest "(" without a match. -/
theorem nearest_unmatched_eq (text bt : List Char) (hb : BracketCells text bt) :
    findGreatestBelow
        (fun b => bt[b]? == some '(' && Bracket_Match_Reference text bt b == -1) bt.length =
      findGreatestBelow
        (fun j => bt[j]? == some '(' && decide (height bt (j + 1) = height bt bt.length))
        bt.length := by
  have key : ∀ b, (bt[b]? = some '(' ∧
      ∀ q, b ≤ q → q < bt.length → height bt (q + 1) ≠ height bt b) →
      ∃ k, b ≤ k ∧ k < bt.length ∧ bt[k]? = some '(' ∧
        height bt (k + 1) = height bt bt.length := by
    rintro b ⟨u1, u2⟩
    have hlt := getElem?_some_lt u1
    have hup : height bt (b + 1) = height bt b + 1 := by
      rcases height_step bt b with ⟨e, -⟩ | ⟨-, e⟩ | ⟨-, e, -⟩
      · exact e
      · rw [u1] at e; cases e
      · exact absurd u1 e
    have hside := height_same_side bt (height bt b) (b + 1) bt.length (by omega)
      (fun i i1 i2 => by
        have := u2 (i - 1) (by omega) (by omega)
        have e : i - 1 + 1 = i := by omega
        rw [e] at this; exact this)
    have hend := hside.mp (by omega)
    by_cases e : height bt (b + 1) = height bt bt.length
    · exact ⟨b, le_refl _, hlt, u1, e⟩
    · obtain ⟨k, k1, k2, k3, k4⟩ := exists_open_at_level bt (bt.length - (b + 1)) (b + 1)
        (by omega) (by omega)
      exact ⟨k, by omega, k2, k3, k4⟩
  cases hc : findGreatestBelow
      (fun j => bt[j]? == some '(' && decide (height bt (j + 1) = height bt bt.length))
      bt.length with
  | none =>
    apply findGreatestBelow_eq_none
    intro j hj
    by_contra hne
    have hj' : (bt[j]? == some '(' && Bracket_Match_Reference text bt j == -1) = true := by
      simpa using hne
    obtain ⟨k, k1, k2, k3, k4⟩ := key j ((unmatched_iff text bt hb j).mp hj')
    have := findGreatestBelow_none _ _ hc k k2
    simp [k3, k4] at this
  | some b1 =>
    obtain ⟨c1, c2, c3⟩ := findGreatestBelow_some _ _ _ hc
    simp only [Bool.and_eq_true, beq_iff_eq, decide_eq_true_eq] at c2
    apply findGreatestBelow_eq_some _ _ _ c1
    · apply (unmatched_iff text bt hb b1).mpr
      refine ⟨c2.1, ?_⟩
      intro q q1 q2 hq
      have hup : height bt (b1 + 1) = height bt b1 + 1 := by
        rcases height_step bt b1 with ⟨e, -⟩ | ⟨-, e⟩ | ⟨-, e, -⟩
        · exact e
        · rw [c2.1] at e; cases e
        · exact absurd c2.1 e
      obtain ⟨k, k1, k2, k3, k4⟩ := exists_open_at_level bt (bt.length - (q + 1)) (q + 1)
        (by omega) (by omega)
      have hqb : q ≠ b1 := by
        intro e; subst e; omega
      have := c3 k (by omega) k2
      simp [k3, k4] at this
    · intro j j1 j2
      by_contra hne
      have hj' : (bt[j]? == some '(' && Bracket_Match_Reference text bt j == -1) = true := by
        simpa using hne
      obtain ⟨k, k1, k2, k3, k4⟩ := key j ((unmatched_iff text bt hb j).mp hj')
      have := c3 k (by omega) k2
      simp [k3, k4] at this

theorem Compute_Current_Paren_Indent_eq (t : List Char) :
    ∃ bt, Compute_Bracket_Text t = some bt ∧
      Compute_Current_Paren_Indent t ((t.length : Int) - 1) =
        some (Paren_Indent_Reference t bt) := by
  obtain ⟨bt, h1, hb⟩ := Compute_Bracket_Text_spec t
  refine ⟨bt, h1, ?_⟩
  have hl := hb.1
  unfold Compute_Current_Paren_Indent Paren_Indent_Reference
  rw [h1, nearest_unmatched_eq t bt hb]
  dsimp only
  by_cases h0 : (t.length : Int) - 1 < 0
  · rw [if_pos h0]
    have : bt.length = 0 := by omega
    rw [this]
    rfl
  · rw [if_neg h0]
    have hn : ((t.length : Int) - 1).toNat = bt.length - 1 := by omega
    rw [hn, parenIndentLoop_eq t bt (height bt bt.length) (bt.length - 1) 0 (by omega)
      (by
        have : bt.length - 1 + 1 = bt.length := by omega
        rw [this]; omega)]
    have : bt.length - 1 + 1 = bt.length := by omega
    rw [this]
    cases hc : findGreatestBelow
        (fun j => bt[j]? == some '(' && decide (height bt (j + 1) = height bt bt.length))
        bt.length with
    | none => rfl
    | some b =>
      obtain ⟨c1, c2, c3⟩ := findGreatestBelow_some _ _ _ hc
      simp only [Bool.and_eq_true, beq_iff_eq, decide_eq_true_eq] at c2
      have ht : t[b]? = some '(' := by
        rcases hb.2 b _ c2.1 with e | e
        · cases e
        · exact e.2
      exact indentAt_eq t b ht

/-- C10. For every text `t` the call `Compute_Current_Paren_Indent(t, |t| - 1)`
completes without reading outside a string and returns the reference value on the bracket
map of `t`: `b - n` for `b` the nearest "(" of the map without a match and `n` the last
newline before `b` (-1 when there is none), and 0 when there is no such "(". For the
empty text the result is 0, and for `WHERE ((a = 1) OR` it is 7, the outer "(" being
at offset 6 of the first line. -/
theorem C10_paren_indent :
    (∀ t : List Char, ∃ bt, Compute_Bracket_Text t = some bt ∧
      Compute_Current_Paren_Indent t ((t.length : Int) - 1) =
        some (Paren_Indent_Reference t bt)) ∧
    Compute_Current_Paren_Indent [] (-1) = some 0 ∧
    Compute_Current_Paren_Indent "WHERE ((a = 1) OR".toList 16 = some 7 ∧
    Paren_Indent_Reference "WHERE ((a = 1) OR".toList "      ((     )   ".toList = 6 - (-1) :=
  ⟨Compute_Current_Paren_Indent_eq, by decide, by decide, by decide⟩

/-! ## The tokenizer on lines of ASCII characters -/

theorem qIsLetter_ascii (u v : QCharTables) (c : Char) (h : c.toNat ≤ 127) :
    qIsLetter u c = qIsLetter v c := by
  have h1 : decide (c.toNat > 127) = false := by simp; omega
  simp [qIsLetter, h1]

theorem qIsDigit_ascii (u v : QCharTables) (c : Char) (h : c.toNat ≤ 127) :
    qIsDigit u c = qIsDigit v c := by
  have h1 : decide (c.toNat > 127) = false := by simp; omega
  simp [qIsDigit, h1]

theorem qToUpper_ascii (u v : QCharTables) (s : List Char) (h : ∀ c ∈ s, c.toNat ≤ 127) :
    qToUpper u s = qToUpper v s := by
  have h1 : s.all (fun c => decide (c.toNat ≤ 127)) = true := by
    simpa [List.all_eq_true] using h
  simp [qToUpper, h1]

theorem getD_ascii (text : List Char) (h : ∀ c ∈ text, c.toNat ≤ 127) (i : Nat) :
    (text.getD i '\x00').toNat ≤ 127 := by
  rw [List.getD_eq_getElem?_getD]
  cases hi : text[i]? with
  | none => simp
  | some c => exact h c (List.mem_iff_getElem?.mpr ⟨i, hi⟩)

theorem mem_trimmed (s : List Char) (c : Char) (h : c ∈ trimmed s) : c ∈ s := by
  unfold trimmed at h
  rw [List.mem_reverse] at h
  have h1 := (List.dropWhile_sublist _).subset h
  rw [List.mem_reverse] at h1
  exact (List.dropWhile_sublist _).subset h1

theorem mem_mid (s : List Char) (a n : Nat) (c : Char) (h : c ∈ mid s a n) : c ∈ s := by
  unfold mid at h
  exact List.mem_of_mem_drop (List.mem_of_mem_take h)

theorem identifierKind_ascii (u v : QCharTables) (token : List Char) (ch : Char)
    (h : ∀ c ∈ token, c.toNat ≤ 127) :
    identifierKind u token ch = identifierKind v token ch := by
  simp only [identifierKind, qToUpper_ascii u v token h]

theorem highlightStep_ascii (u v : QCharTables) (text : List Char)
    (h : ∀ c ∈ text, c.toNat ≤ 127) (s : HState) :
    highlightStep u text s = highlightStep v text s := by
  have h1 := qIsLetter_ascii u v _ (getD_ascii text h s.i)
  have h2 := qIsLetter_ascii u v _ (getD_ascii text h (s.i + 1))
  have h3 := qIsDigit_ascii u v _ (getD_ascii text h s.i)
  have h4 := qIsDigit_ascii u v _ (getD_ascii text h (s.i + 1))
  have h5 := identifierKind_ascii u v (trimmed (mid text s.start (s.i - s.start)))
    (text.getD s.i '\x00') (fun c hc => h c (mem_mid _ _ _ _ (mem_trimmed _ _ hc)))
  simp only [highlightStep, h1, h2, h3, h4, h5]

theorem highlightLoop_ascii (u v : QCharTables) (text : List Char)
    (h : ∀ c ∈ text, c.toNat ≤ 127) (f : Nat) (s : HState) :
    highlightLoop u text f s = highlightLoop v text f s := by
  induction f generalizing s with
  | zero => rfl
  | succ f ih =>
    simp only [highlightLoop, highlightStep_ascii u v text h s]
    split
    · split
      · rfl
      · exact ih _
    · rfl

/-- On a line of ASCII characters the tokenizer does not depend on the tables for the
characters above U+007F. -/
theorem highlightBlock_ascii (u : QCharTables) (text : List Char)
    (h : text.all (fun c => decide (c.toNat ≤ 127)) = true) (previousBlockState : Int) :
    highlightBlock u text previousBlockState =
      highlightBlock asciiTables text previousBlockState := by
  have h0 : ∀ c ∈ text, c.toNat ≤ 127 := by simpa [List.all_eq_true] using h
  simp only [highlightBlock, highlightLoop_ascii u asciiTables text h0]

/-! ## The tokenizer: claims C17, C18 and C20 -/

set_option maxRecDepth 100000 in
/-- C17: the line SELECT * FROM t, tokenized from the Start state (first line of a
document, or after a line that ended in the Start state at bracket level 0), gives
exactly the spans Keyword at offset 0 of length 6, Operator at offset 7 of length 1,
Keyword at offset 9 of length 4 and Identifier at offset 14 of length 1, in this order
and no other span; the spans hold the substrings SELECT, *, FROM and t of the line. No
bracket is recorded and the line ends in the Start state. -/
theorem C17_tokens_of_select_star_from (u : QCharTables) :
    highlightBlock u "SELECT * FROM t".toList (-1) =
      some ⟨[⟨TokenKind.Keyword, 0, 6⟩, ⟨TokenKind.Operator, 7, 1⟩,
        ⟨TokenKind.Keyword, 9, 4⟩, ⟨TokenKind.Identifier, 14, 1⟩], [], 0⟩ ∧
    highlightBlock u "SELECT * FROM t".toList 0 =
      some ⟨[⟨TokenKind.Keyword, 0, 6⟩, ⟨TokenKind.Operator, 7, 1⟩,
        ⟨TokenKind.Keyword, 9, 4⟩, ⟨TokenKind.Identifier, 14, 1⟩], [], 0⟩ ∧
    mid "SELECT * FROM t".toList 0 6 = "SELECT".toList ∧
    mid "SELECT * FROM t".toList 7 1 = "*".toList ∧
    mid "SELECT * FROM t".toList 9 4 = "FROM".toList ∧
    mid "SELECT * FROM t".toList 14 1 = "t".toList := by
  rw [highlightBlock_ascii u _ (by decide), highlightBlock_ascii u _ (by decide)]
  decide

set_option maxRecDepth 100000 in
/-- C18: the classification of word-like spans. In the state Backticked_Identifier the
closing backtick ends the span, which is formatted as one Identifier from the opening
backtick to the closing one included, whatever the word is (the line made of select
between backticks gives one Identifier of length 8). In the state Identifier the
character that ends the word gives a span from the start of the word of the kind
`identifierKind`: Identifier when the word starts with a dot or is ended by a dot (both
halves of select.count are Identifier), otherwise the kind of the first of the classes
Keyword, Function, Type, Interval that holds the upper-cased word, and Identifier when
none does; LEFT, a keyword and a function, is Keyword, and CHAR, a function and a type,
is Function. -/
theorem C18_classification_of_words (u : QCharTables) :
    (∀ (text : List Char) (s : HState), s.state = 3 → text.getD s.i '\x00' = '`' →
      highlightStep u text s = some { s with
        i := s.i + 1
        tokens := setFormat text.length s.start (s.i + 1 - s.start) TokenKind.Identifier
          s.tokens
        state := 0 }) ∧
    (∀ (text : List Char) (s : HState), s.state = 3 → text.getD s.i '\x00' ≠ '`' →
      highlightStep u text s = some { s with i := s.i + 1 }) ∧
    (∀ (text : List Char) (s : HState), s.state = 2 →
      (qIsSpace (text.getD s.i '\x00') = true ∨
        ¬ (qIsLetter u (text.getD s.i '\x00') = true ∨ qIsDigit u (text.getD s.i '\x00') = true ∨
          text.getD s.i '\x00' = '_' ∨ text.getD s.i '\x00' = '$')) →
      highlightStep u text s = some { s with
        tokens := setFormat text.length s.start (s.i - s.start)
          (identifierKind u (trimmed (mid text s.start (s.i - s.start)))
            (text.getD s.i '\x00')) s.tokens
        state := 0 }) ∧
    (∀ (token : List Char) (ch : Char), token.head? = some '.' ∨ ch = '.' →
      identifierKind u token ch = TokenKind.Identifier) ∧
    (∀ (token : List Char) (ch : Char), ¬ (token.head? = some '.' ∨ ch = '.') →
      identifierKind u token ch =
        match wordClasses.find? (fun p => p.1 (qToUpper u token)) with
        | some p => p.2
        | none => TokenKind.Identifier) ∧
    highlightBlock u "`select`".toList (-1) = some ⟨[⟨TokenKind.Identifier, 0, 8⟩], [], 0⟩ ∧
    highlightBlock u "select.count".toList (-1) =
      some ⟨[⟨TokenKind.Identifier, 0, 6⟩, ⟨TokenKind.Identifier, 6, 6⟩], [], 0⟩ ∧
    highlightBlock u "select count".toList (-1) =
      some ⟨[⟨TokenKind.Keyword, 0, 6⟩, ⟨TokenKind.Function, 7, 5⟩], [], 0⟩ ∧
    (isKeyword "LEFT".toList = true ∧ isFunction "LEFT".toList = true ∧
      highlightBlock u "left".toList (-1) = some ⟨[⟨TokenKind.Keyword, 0, 4⟩], [], 0⟩) ∧
    (isKeyword "CHAR".toList = false ∧ isFunction "CHAR".toList = true ∧
      isType "CHAR".toList = true ∧
      highlightBlock u "char".toList (-1) = some ⟨[⟨TokenKind.Function, 0, 4⟩], [], 0⟩) ∧
    highlightBlock u "varchar day x".toList (-1) =
      some ⟨[⟨TokenKind.Type, 0, 7⟩, ⟨TokenKind.Interval, 8, 3⟩,
        ⟨TokenKind.Identifier, 12, 1⟩], [], 0⟩ := by
  refine ⟨?_, ?_, ?_, ?_, ?_, ?_, ?_, ?_, ?_, ?_, ?_⟩
  · intro text s hs hch
    rcases s with ⟨i, start, state, bl, bp, tokens⟩
    simp only at hs hch
    subst hs
    simp only [highlightStep, hch, if_true]
  · intro text s hs hch
    rcases s with ⟨i, start, state, bl, bp, tokens⟩
    simp only at hs hch
    subst hs
    simp only [highlightStep, hch, if_false]
  · intro text s hs hch
    rcases s with ⟨i, start, state, bl, bp, tokens⟩
    simp only at hs hch
    subst hs
    simp only [highlightStep]
    rw [if_pos hch]
  · intro token ch h
    simp only [identifierKind, if_pos h]
  · intro token ch h
    simp only [identifierKind, if_neg h, wordClasses, List.find?]
    cases h1 : isKeyword (qToUpper u token) <;> cases h2 : isFunction (qToUpper u token) <;>
      cases h3 : isType (qToUpper u token) <;> cases h4 : isInterval (qToUpper u token) <;>
      simp
  · rw [highlightBlock_ascii u _ (by decide)]; decide
  · rw [highlightBlock_ascii u _ (by decide)]; decide
  · rw [highlightBlock_ascii u _ (by decide)]; decide
  · rw [highlightBlock_ascii u _ (by decide)]; decide
  · rw [highlightBlock_ascii u _ (by decide)]; decide
  · rw [highlightBlock_ascii u _ (by decide)]; decide

set_option maxRecDepth 100000 in
/-- C20 at the failing input: the line 'abc, from the Start state, ends inside the
string opened at offset 0 and no span is formatted at all, the line ends in the Start
state (likewise "abc, and x = 'abc where only x and = are formatted); the line a /* b
ends inside the block comment opened at offset 2 and is given the Comment span from
offset 2 to the end of the line, and ends in the Comment state. -/
theorem C20_unterminated_string_and_comment_at_inputs (u : QCharTables) :
    highlightBlock u "'abc".toList (-1) = some ⟨[], [], 0⟩ ∧
    highlightBlock u "\"abc".toList (-1) = some ⟨[], [], 0⟩ ∧
    highlightBlock u "x = 'abc".toList (-1) =
      some ⟨[⟨TokenKind.Identifier, 0, 1⟩, ⟨TokenKind.Operator, 2, 1⟩], [], 0⟩ ∧
    highlightBlock u "a /* b".toList (-1) =
      some ⟨[⟨TokenKind.Identifier, 0, 1⟩, ⟨TokenKind.Comment, 2, 4⟩], [], 5⟩ := by
  refine ⟨?_, ?_, ?_, ?_⟩
  · rw [highlightBlock_ascii u _ (by decide)]; decide
  · rw [highlightBlock_ascii u _ (by decide)]; decide
  · rw [highlightBlock_ascii u _ (by decide)]; decide
  · rw [highlightBlock_ascii u _ (by decide)]; decide

/-! ## The tokenizer: order of the spans and end of the scan -/

theorem SpansOrdered.mono {n b b' : Nat} {tokens : List Token}
    (h : SpansOrdered n b tokens) (hb : b ≤ b') : SpansOrdered n b' tokens :=
  ⟨h.1, fun t ht => ⟨(h.2 t ht).1, le_trans (h.2 t ht).2.1 hb, (h.2 t ht).2.2⟩⟩

theorem SpansOrdered.setFormat {n b b' st cnt : Nat} {tokens : List Token}
    (h : SpansOrdered n b tokens) (kind : TokenKind) (hst : b ≤ st)
    (hend : min (st + cnt) n ≤ b') (hb : min b n ≤ b') :
    SpansOrdered n b' (setFormat n st cnt kind tokens) := by
  unfold MySQLEditor.setFormat
  split_ifs with hc
  · exact ⟨h.1, fun t ht => ⟨(h.2 t ht).1, by have := h.2 t ht; omega, (h.2 t ht).2.2⟩⟩
  · have hc1 : st < n := by omega
    have hc2 : 0 < cnt := by omega
    refine ⟨?_, ?_⟩
    · rw [List.pairwise_append]
      refine ⟨h.1, List.pairwise_singleton _ _, ?_⟩
      intro a ha c hcm
      rw [List.mem_singleton] at hcm
      subst hcm
      have := (h.2 a ha).2.1
      show a.start + a.length ≤ st
      omega
    · intro t ht
      rw [List.mem_append, List.mem_singleton] at ht
      rcases ht with ht | rfl
      · exact ⟨(h.2 t ht).1, by have := h.2 t ht; omega, (h.2 t ht).2.2⟩
      · show 0 < min (st + cnt) n - st ∧ st + (min (st + cnt) n - st) ≤ b' ∧
          st + (min (st + cnt) n - st) ≤ n
        omega

theorem getD_ne_nul_lt (text : List Char) (i : Nat) (h : text.getD i '\x00' ≠ '\x00') :
    i < text.length := by
  by_contra hc
  apply h
  rw [List.getD_eq_getElem?_getD, List.getElem?_eq_none (by omega)]
  rfl

theorem StepOK.ite {text : List Char} {s : HState} {c : Prop} [Decidable c]
    {a b : Option HState} (ha : c → StepOK text s a) (hb : ¬ c → StepOK text s b) :
    StepOK text s (if c then a else b) := by
  by_cases h : c
  · rw [if_pos h]; exact ha h
  · rw [if_neg h]; exact hb h

theorem StepOK.some {text : List Char} {s s' : HState} (h1 : HInv text s')
    (h2 : hMeasure text s' < hMeasure text s) : StepOK text s (some s') :=
  ⟨s', rfl, h1, h2⟩
theorem highlightStep_inv_start (u : QCharTables) (text : List Char) (i start : Nat)
    (bl : Int) (bp : List Nat) (tokens : List Token)
    (hinv : HInv text ⟨i, start, 0, bl, bp, tokens⟩) (hi : i ≤ text.length) :
    StepOK text ⟨i, start, 0, bl, bp, tokens⟩
      (highlightStep u text ⟨i, start, 0, bl, bp, tokens⟩) := by
  have hsp : SpansOrdered text.length i tokens := by
    have := hinv.spans
    simpa [hBound] using this
  unfold highlightStep
  dsimp only
  repeat' (refine StepOK.ite (fun _ => ?_) (fun _ => ?_))
  all_goals refine StepOK.some ⟨?_, ?_, ?_⟩ ?_
  all_goals simp only [hMeasure, hBound, if_true, if_false, OfNat.ofNat_ne_zero,
    OfNat.one_ne_ofNat, one_ne_zero, forall_true_left, OfNat.ofNat_ne_one, reduceIte,
    Nat.succ_ne_self, OfNat.zero_ne_ofNat, reduceCtorEq, false_implies, Nat.reduceEqDiff]
  all_goals try split_ifs
  all_goals try simp only [hMeasure, hBound, if_true, if_false, reduceIte]
  all_goals first
    | omega
    | exact hsp.mono (by omega)
    | exact hsp.setFormat _ (le_refl _) (by omega) (by omega)
    | (have hlt : i < text.length :=
        getD_ne_nul_lt text i (by rename_i h; rcases h with h | h <;> rw [h] <;> decide)
       omega)
    | (have hlt : i < text.length :=
        getD_ne_nul_lt text i (by rename_i h; rw [h.1]; decide)
       omega)

theorem highlightStep_inv_open (u : QCharTables) (text : List Char) (i start k : Nat)
    (bl : Int) (bp : List Nat) (tokens : List Token) (hk : k ≠ 0)
    (hinv : HInv text ⟨i, start, k, bl, bp, tokens⟩) (hi : i ≤ text.length) :
    StepOK text ⟨i, start, k, bl, bp, tokens⟩
      (highlightStep u text ⟨i, start, k, bl, bp, tokens⟩) := by
  have hsp : SpansOrdered text.length start tokens := by
    have := hinv.spans
    simpa [hBound, hk] using this
  have hle : start ≤ i := hinv.start_le
  have hq := hinv.quote_in_line
  simp only at hq
  rcases k with _ | _ | _ | _ | _ | _ | _ | k
  · exact absurd rfl hk
  all_goals unfold highlightStep
  all_goals dsimp only
  case succ.succ.succ.succ.zero =>
    obtain ⟨q, hq1⟩ : ∃ q, text[start]? = some q :=
      ⟨text[start], List.getElem?_eq_getElem (hq rfl)⟩
    rw [hq1]
    dsimp only
    repeat' (refine StepOK.ite (fun _ => ?_) (fun _ => ?_))
    all_goals refine StepOK.some ⟨?_, ?_, ?_⟩ ?_
    all_goals simp only [hMeasure, hBound, if_true, if_false, OfNat.ofNat_ne_zero,
      forall_true_left, reduceIte, false_implies, Nat.reduceEqDiff]
    all_goals first
      | omega
      | exact hq rfl
      | exact hsp.mono (by omega)
      | exact hsp.setFormat _ (le_refl _) (by omega) (by omega)
  all_goals repeat' (refine StepOK.ite (fun _ => ?_) (fun _ => ?_))
  all_goals refine StepOK.some ⟨?_, ?_, ?_⟩ ?_
  all_goals simp only [hMeasure, hBound, if_true, if_false, OfNat.ofNat_ne_zero,
    OfNat.one_ne_ofNat, one_ne_zero, forall_true_left, OfNat.ofNat_ne_one, reduceIte,
    Nat.succ_ne_self, OfNat.zero_ne_ofNat, reduceCtorEq, false_implies, Nat.reduceEqDiff,
    Nat.add_eq_zero, and_false, and_self]
  all_goals first
    | omega
    | exact hsp.mono (by omega)
    | exact hsp.setFormat _ (le_refl _) (by omega) (by omega)

theorem highlightStep_inv (u : QCharTables) (text : List Char) (s : HState)
    (hinv : HInv text s) (hi : s.i ≤ text.length) :
    StepOK text s (highlightStep u text s) := by
  rcases s with ⟨i, start, k, bl, bp, tokens⟩
  by_cases hk : k = 0
  · subst hk
    exact highlightStep_inv_start u text i start bl bp tokens hinv hi
  · exact highlightStep_inv_open u text i start k bl bp tokens hk hinv hi

theorem highlightLoop_inv (u : QCharTables) (text : List Char) (f : Nat) (s : HState)
    (hinv : HInv text s) (hf : hMeasure text s < f) :
    ∃ s', highlightLoop u text f s = some s' ∧ HInv text s' := by
  induction f generalizing s with
  | zero => omega
  | succ f ih =>
    unfold highlightLoop
    by_cases hi : s.i ≤ text.length
    · rw [if_pos hi]
      obtain ⟨s1, h1, h2, h3⟩ := highlightStep_inv u text s hinv hi
      rw [h1]
      exact ih s1 h2 (by omega)
    · rw [if_neg hi]
      exact ⟨s, rfl, hinv⟩

/-- The scan of a line completes, unless it starts in the `String` state on an empty
line, and the spans it formats are in call order one after the other without overlap,
none empty, each inside the line. -/
theorem highlightBlock_spans (u : QCharTables) (text : List Char) (previousBlockState : Int)
    (h : ¬ (0 ≤ previousBlockState ∧ previousBlockState % 16 = 4 ∧ text = [])) :
    ∃ r, highlightBlock u text previousBlockState = some r ∧
      SpansOrdered text.length text.length r.tokens := by
  unfold highlightBlock
  dsimp only
  have hinv : HInv text ⟨0, 0, if previousBlockState < 0 then 0
      else (previousBlockState % 16).toNat,
      if previousBlockState < 0 then 0 else previousBlockState / 16, [], []⟩ := by
    refine ⟨le_refl _, ?_, ⟨List.Pairwise.nil, fun t ht => absurd ht (List.not_mem_nil t)⟩⟩
    intro h4
    simp only at h4
    by_cases hneg : previousBlockState < 0
    · rw [if_pos hneg] at h4
      omega
    · rw [if_neg hneg] at h4
      have h5 : previousBlockState % 16 = 4 := by omega
      have h6 : text ≠ [] := fun hc => h ⟨by omega, h5, hc⟩
      exact List.length_pos.mpr h6
  obtain ⟨s, hs, hs1⟩ := highlightLoop_inv u text (2 * text.length + 4) _ hinv (by
    simp only [hMeasure]
    split_ifs <;> omega)
  rw [hs]
  refine ⟨_, rfl, ?_⟩
  dsimp only
  have hsp := hs1.spans
  by_cases h5 : s.state = 5
  · rw [if_pos h5]
    have hb : hBound s = s.start := by simp [hBound, h5]
    rw [hb] at hsp
    exact hsp.setFormat _ (le_refl _) (by omega) (by omega)
  · rw [if_neg h5]
    exact ⟨hsp.1, fun t ht => ⟨(hsp.2 t ht).1, (hsp.2 t ht).2.2, (hsp.2 t ht).2.2⟩⟩

/-- C19: for every line and every state value of the previous line (but the `String`
state on an empty line, where the scan would read the opening quote outside the line) the
scan completes, and the spans it formats, in the order of the calls, have strictly
increasing offsets, do not overlap (each ends at or before the offset of the next), are
not empty and lie inside the line (offset + length at most the length of the line). -/
theorem C19_tokens_ordered_within_line (u : QCharTables) (text : List Char)
    (previousBlockState : Int)
    (h : ¬ (0 ≤ previousBlockState ∧ previousBlockState % 16 = 4 ∧ text = [])) :
    ∃ r, highlightBlock u text previousBlockState = some r ∧
      r.tokens.Pairwise (fun a b => a.start < b.start) ∧
      r.tokens.Pairwise (fun a b => a.start + a.length ≤ b.start) ∧
      ∀ t ∈ r.tokens, 0 < t.length ∧ t.start + t.length ≤ text.length := by
  obtain ⟨r, hr, h1, h2⟩ := highlightBlock_spans u text previousBlockState h
  refine ⟨r, hr, ?_, h1, fun t ht => ⟨(h2 t ht).1, (h2 t ht).2.2⟩⟩
  have h3 : ∀ a ∈ r.tokens, ∀ b ∈ r.tokens, a.start + a.length ≤ b.start → a.start < b.start := by
    intro a ha b _ hab
    have := (h2 a ha).1
    omega
  exact h1.imp_of_mem (fun ha hb hab => h3 _ ha _ hb hab)

set_option maxRecDepth 100000 in
/-- Witness for C19: the line b */ (1+2) -- x after a line that ended inside a block
comment. -/
theorem C19_tokens_ordered_within_line_witness :
    ¬ (0 ≤ (5 : Int) ∧ (5 : Int) % 16 = 4 ∧ "b */ (1+2) -- x".toList = []) ∧
    ∃ r, highlightBlock asciiTables "b */ (1+2) -- x".toList 5 = some r ∧
      r.tokens.Pairwise (fun a b => a.start < b.start) ∧
      r.tokens.Pairwise (fun a b => a.start + a.length ≤ b.start) ∧
      ∀ t ∈ r.tokens, 0 < t.length ∧ t.start + t.length ≤ "b */ (1+2) -- x".toList.length :=
  ⟨by decide, C19_tokens_ordered_within_line asciiTables "b */ (1+2) -- x".toList 5 (by decide)⟩

/-! ## The simple reformatter: claims C11 to C14 at their failing inputs -/

set_option maxRecDepth 1000000 in
/-- C11 at the failing input: on the text values, (the keyword directly followed by a
comma) a first call gives VALUES, a newline and the comma, and a second call on that
text appends a newline after the comma, so the second call does change the text. In the
first call the comma is taken as the closing delimiter of the word values and is not
recorded; the newline inserted after VALUES takes that place in the second call, where
the comma is a token of its own. A third call changes nothing. -/
theorem C11_reformat_twice_at_failing_input :
    Simple_Format_SQL "values,".toList = some "VALUES\n,".toList ∧
    Simple_Format_SQL "VALUES\n,".toList = some "VALUES\n,\n".toList ∧
    Simple_Format_SQL "VALUES\n,\n".toList = some "VALUES\n,\n".toList ∧
    (SQL_Token_Regular_Expression.matchFrom "values,".toList 0).map
      (fun m => m.captured "values,".toList) = some "values,".toList ∧
    (SQL_Token_Regular_Expression.matchFrom "VALUES\n,".toList 0).map
      (fun m => m.captured "VALUES\n,".toList) = some "VALUES\n".toList := by
  decide

set_option maxRecDepth 1000000 in
/-- C12 at the failing input: the call on SELECT a, b FROM t gives SELECT a, b with the
newline before FROM only; the comma after a is still followed by the space and b, no
newline is inserted after it. The match of the token pattern at offset 7 is a with the
comma as its closing delimiter, so the comma is never seen as a token of its own. With
a space before the comma (SELECT a , b FROM t) the newline and the seven spaces are
inserted after it. -/
theorem C12_reformat_top_level_comma_at_failing_input :
    Simple_Format_SQL "SELECT a, b FROM t".toList = some "SELECT a, b \nFROM t".toList ∧
    (SQL_Token_Regular_Expression.matchFrom "SELECT a, b FROM t".toList 7).map
      (fun m => m.captured "SELECT a, b FROM t".toList) = some "a,".toList ∧
    Simple_Format_SQL "SELECT a , b FROM t".toList =
      some "SELECT a , \n       b \nFROM t".toList := by
  decide

set_option maxRecDepth 1000000 in
/-- C13 at the failing input: the call on select max(a , b) from t inserts a newline
and seven spaces after the comma between the arguments of max, inside the parentheses.
The match of the token pattern at offset 7 is max with the opening parenthesis as its
closing delimiter, so the parenthesis does not raise paren_level and the comma is
recorded at level 0. With a space before the parenthesis (select max (a , b) from t)
the comma is left as it is. -/
theorem C13_reformat_comma_in_parentheses_at_failing_input :
    Simple_Format_SQL "select max(a , b) from t".toList =
      some "SELECT MAX(a , \n       b) \nFROM t".toList ∧
    (SQL_Token_Regular_Expression.matchFrom "select max(a , b) from t".toList 7).map
      (fun m => m.captured "select max(a , b) from t".toList) = some "max(".toList ∧
    Simple_Format_SQL "select max (a , b) from t".toList =
      some "SELECT MAX (a , b) \nFROM t".toList := by
  decide

set_option maxRecDepth 1000000 in
/-- C14 at the failing input: in the result of the call on
select * from a join b on left(x, 1) = y join c on z the second JOIN follows y and a
space on the same line, without a newline before it, although the word before it is y
and not one of LEFT, RIGHT, INNER, OUTER: the token recorded before that JOIN is the
LEFT of the function call left(x, 1), and the test for the JOIN modifier looks at the
recorded token, not at the text before the JOIN. The other recorded keywords are each
preceded by a newline, and in select * from a left join b the JOIN stays on the line
of LEFT. -/
theorem C14_reformat_join_at_failing_input :
    Simple_Format_SQL "select * from a join b on left(x, 1) = y join c on z".toList =
      some "SELECT * \nFROM a \nJOIN b \nON \nLEFT(x, 1) = y JOIN c \nON z".toList ∧
    Simple_Format_SQL "select * from a left join b".toList =
      some "SELECT * \nFROM a \nLEFT JOIN b".toList := by
  decide

/-! ## The scan loop of the reformatter against the scan loop of the case normalizer -/

theorem qContains_mem (hay needle : List Char) (h : qContains hay needle = true) :
    ∀ c ∈ needle, c ∈ hay := by
  intro c hc
  unfold qContains at h
  rw [List.any_eq_true] at h
  obtain ⟨t, ht, hp⟩ := h
  rw [List.mem_tails] at ht
  have hp1 : needle <+: t := List.isPrefixOf_iff_prefix.mp hp
  exact ht.subset (hp1.subset hc)

theorem punctuation_no_word (text : List Char) (offset : Nat) (m : Match)
    (ho : offset ≤ text.length)
    (h : SQL_Token_Regular_Expression.matchFrom text offset = some m)
    (hp : qContains significant_punctuation_string (m.captured text) = true) :
    m.captured1 text = [] := by
  obtain ⟨h1, h2, h3, h4⟩ := token_match_spec text offset m ho h
  unfold Match.captured1
  cases hg : m.group1 with
  | none => rfl
  | some ab =>
    obtain ⟨a, b⟩ := ab
    exfalso
    obtain ⟨g1, g2, g3, g4⟩ := h4 a b hg
    obtain ⟨c, hc1, hc2⟩ := g4 a (le_refl _) g2
    have hmem : c ∈ m.captured text := by
      unfold Match.captured mid
      rw [List.mem_iff_getElem?]
      refine ⟨a - m.capturedStart, ?_⟩
      rw [List.getElem?_take_of_lt (by omega), List.getElem?_drop]
      rw [show m.capturedStart + (a - m.capturedStart) = a by omega]
      exact hc1
    have hsig := qContains_mem _ _ hp c hmem
    simp only [significant_punctuation_string, MySQL_Bracket_List, List.cons_append,
      List.nil_append, List.mem_cons, List.mem_singleton, List.not_mem_nil, or_false] at hsig
    rcases hsig with rfl | rfl | rfl | rfl <;> simp [isKeywordChar] at hc2

theorem formatBody_scan (s : FState) (us : UState) (ht : us.sql_text = s.sql_text)
    (hx : us.sql_text_idx = s.sql_text_idx) (hi : s.sql_text_idx.toNat ≤ s.sql_text.length) :
    (uppercaseBody us).sql_text = (formatBody s).sql_text ∧
    (uppercaseBody us).sql_text_idx = (formatBody s).sql_text_idx := by
  unfold uppercaseBody formatBody
  rw [ht, hx]
  cases hm : SQL_Token_Regular_Expression.matchFrom s.sql_text s.sql_text_idx.toNat with
  | none => exact ⟨rfl, rfl⟩
  | some m =>
    dsimp only
    by_cases hp : qContains significant_punctuation_string (m.captured s.sql_text) = true
    · have hw := punctuation_no_word s.sql_text _ m hi hm hp
      rw [if_pos hp, hw]
      simp only [List.length_nil, gt_iff_lt, lt_self_iff_false, if_false]
      split_ifs <;> simp [ht]
    · rw [if_neg hp]
      by_cases hw : (m.captured1 s.sql_text).length > 0
      · rw [if_pos hw, if_pos hw]
        by_cases hc2 : isAllKeyword (toUpper (m.captured1 s.sql_text)) = true ∧
            ¬ (qContains delimiters (left (m.captured s.sql_text) 1) = true) ∧
            ¬ (qContains delimiters (right (m.captured s.sql_text) 1) = true)
        · rw [if_pos hc2]
          by_cases hu : m.captured1 s.sql_text = toUpper (m.captured1 s.sql_text)
          · have e1 : ¬ (isAllKeyword (toUpper (m.captured1 s.sql_text)) = true ∧
                ¬ (m.captured1 s.sql_text = toUpper (m.captured1 s.sql_text)) ∧
                ¬ (qContains delimiters (left (m.captured s.sql_text) 1) = true) ∧
                ¬ (qContains delimiters (right (m.captured s.sql_text) 1) = true)) :=
              fun hc => hc.2.1 hu
            rw [if_neg e1, if_neg (not_not.mpr hu)]
            split_ifs <;> first | exact ⟨rfl, rfl⟩ | exact ⟨ht, rfl⟩
          · have e1 : isAllKeyword (toUpper (m.captured1 s.sql_text)) = true ∧
                ¬ (m.captured1 s.sql_text = toUpper (m.captured1 s.sql_text)) ∧
                ¬ (qContains delimiters (left (m.captured s.sql_text) 1) = true) ∧
                ¬ (qContains delimiters (right (m.captured s.sql_text) 1) = true) :=
              ⟨hc2.1, hu, hc2.2.1, hc2.2.2⟩
            rw [if_pos e1, if_pos hu]
            split_ifs <;> exact ⟨rfl, rfl⟩
        · have e1 : ¬ (isAllKeyword (toUpper (m.captured1 s.sql_text)) = true ∧
              ¬ (m.captured1 s.sql_text = toUpper (m.captured1 s.sql_text)) ∧
              ¬ (qContains delimiters (left (m.captured s.sql_text) 1) = true) ∧
              ¬ (qContains delimiters (right (m.captured s.sql_text) 1) = true)) :=
            fun hc => hc2 ⟨hc.1, hc.2.2.1, hc.2.2.2⟩
          rw [if_neg hc2, if_neg e1]
          split_ifs <;> first | exact ⟨rfl, rfl⟩ | exact ⟨ht, rfl⟩
      · rw [if_neg hw, if_neg hw]
        exact ⟨rfl, rfl⟩

theorem formatLoop_scan (L : Nat) : ∀ (fuel : Nat) (s : FState) (us usT : UState),
    us.sql_text = s.sql_text → us.sql_text_idx = s.sql_text_idx → ScanOk L us →
    uppercaseLoop L fuel us = some usT →
    ∃ sT, formatLoop L fuel s = some sT ∧ sT.sql_text = usT.sql_text := by
  intro fuel
  induction fuel with
  | zero =>
    intro s us usT _ _ _ h
    simp [uppercaseLoop] at h
  | succ f ih =>
    intro s us usT ht hx hs h
    unfold uppercaseLoop at h
    unfold formatLoop
    rw [← hx]
    by_cases hc : 0 ≤ us.sql_text_idx ∧ us.sql_text_idx ≤ (L : Int)
    · rw [if_pos hc] at h
      rw [if_pos hc]
      have hi : s.sql_text_idx.toNat ≤ s.sql_text.length := by
        rw [← ht, ← hx, hs.1]
        omega
      obtain ⟨b1, b2⟩ := formatBody_scan s us ht hx hi
      obtain ⟨-, c2, -⟩ := uppercaseBody_spec L us hs.1 hc.1 hc.2
      exact ih (formatBody s) (uppercaseBody us) usT b1 b2 c2 h
    · rw [if_neg hc] at h
      rw [if_neg hc]
      cases h
      exact ⟨s, rfl, ht.symm⟩

/-- Invariant rule for the scan loop of the reformatter. -/
theorem formatLoop_inv (L : Int) (P : FState → Prop)
    (hP : ∀ s, 0 ≤ s.sql_text_idx → s.sql_text_idx ≤ L → P s → P (formatBody s)) :
    ∀ (fuel : Nat) (s sT : FState), P s → formatLoop L fuel s = some sT → P sT := by
  intro fuel
  induction fuel with
  | zero =>
    intro s sT _ h
    simp [formatLoop] at h
  | succ f ih =>
    intro s sT hp h
    unfold formatLoop at h
    by_cases hc : 0 ≤ s.sql_text_idx ∧ s.sql_text_idx ≤ L
    · rw [if_pos hc] at h
      exact ih _ _ (hP s hc.1 hc.2 hp) h
    · rw [if_neg hc] at h
      cases h
      exact hp

theorem formatBody_modified (s : FState) (h : (formatBody s).modified = false) :
    (formatBody s).sql_text = s.sql_text ∧ s.modified = false := by
  revert h
  unfold formatBody
  cases hm : SQL_Token_Regular_Expression.matchFrom s.sql_text s.sql_text_idx.toNat with
  | none => exact fun h => ⟨rfl, h⟩
  | some m =>
    dsimp only
    split_ifs <;> first
      | exact fun h => ⟨rfl, h⟩
      | exact fun h => absurd h (by simp)

/-- The scan loop of the reformatter completes on every text, with the text the scan
loop of the case normalizer ends with; while `modified` is not set the text is the
document text. -/
theorem formatLoop_run (t : List Char) :
    ∃ sT usT, formatLoop t.length (t.length + 2) ⟨t, 0, false, 0, [], []⟩ = some sT ∧
      uppercaseLoop t.length (t.length + 2) ⟨t, 0, INT_MAX, -1, false⟩ = some usT ∧
      sT.sql_text = usT.sql_text ∧ (sT.modified = false → sT.sql_text = t) := by
  have hs : ScanOk t.length ⟨t, 0, INT_MAX, -1, false⟩ := ⟨rfl, Or.inr ⟨le_refl _, by simp⟩⟩
  obtain ⟨usT, hu⟩ := uppercaseLoop_terminates t.length (t.length + 2) _ hs
    (fun h => by simp at h) (fun _ => by simp)
  obtain ⟨sT, h1, h2⟩ := formatLoop_scan t.length (t.length + 2) ⟨t, 0, false, 0, [], []⟩
    _ usT rfl rfl hs hu
  refine ⟨sT, usT, h1, hu, h2, ?_⟩
  refine formatLoop_inv t.length (fun s => s.modified = false → s.sql_text = t) ?_ _ _ _
    (fun _ => rfl) h1
  intro s _ _ hp hm
  obtain ⟨g1, g2⟩ := formatBody_modified s hm
  rw [g1]
  exact hp g2

/-! ## The backward loop of the reformatter only inserts newlines -/

theorem newlinesInserted_trans {x y z : List Char} (h1 : NewlinesInserted x y)
    (h2 : NewlinesInserted y z) : NewlinesInserted x z := by
  induction h2 with
  | same => exact h1
  | insert w position str _ hs ih => exact NewlinesInserted.insert x w position str ih hs

theorem insertNewlines_spec (L : Nat) (from_index : Int) (tokens : List (Nat × List Char))
    (token_idx : Nat) (st : List Char × Bool) :
    NewlinesInserted st.1 (insertNewlines L from_index tokens token_idx st).1 ∧
    ((insertNewlines L from_index tokens token_idx st).2 = false →
      insertNewlines L from_index tokens token_idx st = st) := by
  unfold insertNewlines
  dsimp only
  split_ifs
  all_goals first
    | exact ⟨NewlinesInserted.same _, fun _ => rfl⟩
    | exact ⟨NewlinesInserted.insert _ _ _ _ (NewlinesInserted.same _) (Or.inl rfl),
        fun h => absurd h (by simp)⟩
    | exact ⟨NewlinesInserted.insert _ _ _ _ (NewlinesInserted.same _) (Or.inr rfl),
        fun h => absurd h (by simp)⟩
    | exact ⟨NewlinesInserted.insert _ _ _ _
        (NewlinesInserted.insert _ _ _ _ (NewlinesInserted.same _) (Or.inl rfl)) (Or.inl rfl),
        fun h => absurd h (by simp)⟩
    | exact ⟨NewlinesInserted.insert _ _ _ _
        (NewlinesInserted.insert _ _ _ _ (NewlinesInserted.same _) (Or.inr rfl)) (Or.inl rfl),
        fun h => absurd h (by simp)⟩

theorem insertLoop_spec (L : Nat) (from_index : Int) (tokens : List (Nat × List Char)) :
    ∀ (n : Nat) (st : List Char × Bool),
      NewlinesInserted st.1 (insertLoop L from_index tokens n st).1 ∧
      ((insertLoop L from_index tokens n st).2 = false →
        insertLoop L from_index tokens n st = st) := by
  intro n
  induction n with
  | zero => exact fun st => ⟨NewlinesInserted.same _, fun _ => rfl⟩
  | succ n ih =>
    intro st
    unfold insertLoop
    obtain ⟨a1, a2⟩ := insertNewlines_spec L from_index tokens n st
    obtain ⟨b1, b2⟩ := ih (insertNewlines L from_index tokens n st)
    refine ⟨newlinesInserted_trans a1 b1, fun h => ?_⟩
    have h1 := b2 h
    rw [h1] at h ⊢
    exact a2 h

/-- The call of `Simple_Format_SQL` completes on every text: the document text after
the call is the text the scan loops of the reformatter and of the case normalizer end
with, with newlines (and alignment spaces) inserted. -/
theorem Simple_Format_SQL_run (t : List Char) :
    ∃ usT out, uppercaseLoop t.length (t.length + 2) ⟨t, 0, INT_MAX, -1, false⟩ = some usT ∧
      Simple_Format_SQL t = some out ∧ NewlinesInserted usT.sql_text out := by
  obtain ⟨sT, usT, h1, h2, h3, h4⟩ := formatLoop_run t
  refine ⟨usT, ?_⟩
  unfold Simple_Format_SQL
  rw [h1]
  dsimp only
  obtain ⟨c1, c2⟩ := insertLoop_spec t.length (fromIndex sT.insert_newline_tokens)
    sT.insert_newline_tokens sT.insert_newline_tokens.length (sT.sql_text, sT.modified)
  by_cases hr : (insertLoop t.length (fromIndex sT.insert_newline_tokens)
      sT.insert_newline_tokens sT.insert_newline_tokens.length
      (sT.sql_text, sT.modified)).2 = true
  · rw [if_pos hr]
    refine ⟨_, h2, rfl, ?_⟩
    rw [← h3]
    exact c1
  · rw [if_neg hr]
    refine ⟨_, h2, rfl, ?_⟩
    have hr1 := c2 (by simpa using hr)
    have hm : sT.modified = false := by
      rw [hr1] at hr
      simpa using hr
    rw [← h3, h4 hm]
    exact NewlinesInserted.same _

/-! ## The simple reformatter: claims C15 and C16 -/

set_option maxRecDepth 1000000 in
/-- C15 at the failing input, and where the claim holds: on the text /* c */ select 1
the whole-text call of `Uppercase_SQL_Keywords` leaves the text as it is (the text
starts with the opening delimiter of a block comment, which the test
`inside_c_style_comment` takes for a call from inside a comment), while
`Simple_Format_SQL` gives /* c */, a newline and SELECT 1: deleting the newline leaves
/* c */ SELECT 1, not the text the case normalizer gives. On every text that does not
start with that delimiter (of a length a QString can have) both calls complete and the
text after `Simple_Format_SQL` is the text after `Uppercase_SQL_Keywords` with newlines
and alignment spaces inserted. -/
theorem C15_reformat_against_normalize_at_failing_input :
    (Uppercase_SQL_Keywords "/* c */ select 1".toList = some "/* c */ select 1".toList ∧
      Simple_Format_SQL "/* c */ select 1".toList = some "/* c */ \nSELECT 1".toList) ∧
    (∀ t : List Char, (t.length : Int) ≤ INT_MAX → inside_c_style_comment t = false →
      ∃ x out, Uppercase_SQL_Keywords t = some x ∧ Simple_Format_SQL t = some out ∧
        NewlinesInserted x out) := by
  refine ⟨by decide, ?_⟩
  intro t hL hin
  obtain ⟨sT, h1, h2, -, -⟩ := Uppercase_SQL_Keywords_run t hL hin
  obtain ⟨usT, out, g1, g2, g3⟩ := Simple_Format_SQL_run t
  rw [h1] at g1
  cases g1
  exact ⟨_, out, h2, g2, g3⟩

set_option maxRecDepth 1000000 in
/-- C16, counterexample: with `Uppercasing_In_Process` set, a call of
`Simple_Format_SQL` on the text select 1 from t rewrites the document (SELECT 1, a
newline, FROM t); it is not a no-op. -/
theorem C16_counterexample :
    Simple_Format_SQL_call ⟨"select 1 from t".toList, true⟩ =
      some ⟨"SELECT 1 \nFROM t".toList, true⟩ ∧
    ¬ (∀ e : Editor, e.Uppercasing_In_Process = true → Simple_Format_SQL_call e = some e) := by
  have h : Simple_Format_SQL_call ⟨"select 1 from t".toList, true⟩ =
      some ⟨"SELECT 1 \nFROM t".toList, true⟩ := by decide
  refine ⟨h, fun hc => ?_⟩
  have h1 := hc ⟨"select 1 from t".toList, true⟩ rfl
  rw [h] at h1
  exact absurd h1 (by decide)

/-- C16, amended: the flag `Uppercasing_In_Process` guards `Uppercase_SQL_Keywords` only.
With the flag set a call of `Uppercase_SQL_Keywords` leaves the document text and the
flag as they are; a call that starts with the flag clear completes and ends with the
flag clear. A call of `Simple_Format_SQL` completes whatever the flag is, gives the
same document text for both values of the flag, and leaves the flag as it is. -/
theorem C16_reentrancy_guard_of_normalize (e : Editor) :
    (e.Uppercasing_In_Process = true → Uppercase_SQL_Keywords_call e = some e) ∧
    (e.Uppercasing_In_Process = false →
      ∃ t, Uppercase_SQL_Keywords e.plainText = some t ∧
        Uppercase_SQL_Keywords_call e = some ⟨t, false⟩) ∧
    (∃ out, Simple_Format_SQL e.plainText = some out ∧
      ∀ flag : Bool, Simple_Format_SQL_call ⟨e.plainText, flag⟩ = some ⟨out, flag⟩) := by
  refine ⟨?_, ?_, ?_⟩
  · intro h
    unfold Uppercase_SQL_Keywords_call
    rw [if_pos h]
  · intro h
    have ht : ∃ t, Uppercase_SQL_Keywords e.plainText = some t := by
      unfold Uppercase_SQL_Keywords
      split_ifs
      · exact ⟨_, rfl⟩
      · have hs : ScanOk e.plainText.length ⟨e.plainText, 0, INT_MAX, -1, false⟩ :=
          ⟨rfl, Or.inr ⟨le_refl _, by simp⟩⟩
        obtain ⟨usT, hu⟩ := uppercaseLoop_terminates e.plainText.length
          (e.plainText.length + 2) _ hs (fun h => by simp at h) (fun _ => by simp)
        rw [hu]
        dsimp only
        split_ifs
        · exact ⟨_, rfl⟩
        · exact ⟨_, rfl⟩
    obtain ⟨t, ht⟩ := ht
    refine ⟨t, ht, ?_⟩
    unfold Uppercase_SQL_Keywords_call
    rw [if_neg (by simp [h])]
    dsimp only
    rw [ht]
  · obtain ⟨-, out, -, h2, -⟩ := Simple_Format_SQL_run e.plainText
    refine ⟨out, h2, fun flag => ?_⟩
    unfold Simple_Format_SQL_call
    dsimp only
    rw [h2]

/-! ## The initial keyword -/

theorem initialLoop_step (text : List Char) (f : Nat) (idx : Int) (h0 : 0 ≤ idx)
    (hi : idx ≤ text.length) :
    initialLoop text text.length (f + 1) idx =
      if (stepData text idx).2.2.1 = true then
        some (toUpper (mid text (stepData text idx).1
          ((stepData text idx).2.1 - (stepData text idx).1)))
      else initialLoop text text.length f (stepData text idx).2.2.2 := by
  have hi1 : idx.toNat ≤ text.length := by omega
  rw [initialLoop]
  unfold stepData
  rw [if_pos ⟨h0, hi⟩]
  cases hm : SQL_Token_Regular_Expression.matchFrom text idx.toNat with
  | none => simp
  | some m =>
    obtain ⟨h1, h2, h3, h4⟩ := token_match_spec _ _ _ hi1 hm
    cases hg : m.group1 with
    | none => simp [Match.captured1, hg]
    | some ab =>
      obtain ⟨a, b⟩ := ab
      obtain ⟨g1, g2, g3, g4⟩ := h4 a b hg
      have hlen : (mid text a (b - a)).length = b - a := by
        simp only [mid, List.length_take, List.length_drop]; omega
      have hpos : b - a > 0 := by omega
      simp only [Match.captured1, hg, hlen, hpos, if_true,
        Bool.and_eq_true, Bool.not_eq_true', Bool.not_eq_true]
      by_cases c0 : isAllKeyword (toUpper (mid text a (b - a))) = true ∧
          qContains delimiters (left (m.captured text) 1) = false ∧
          qContains delimiters (right (m.captured text) 1) = false
      · have c1 : (isAllKeyword (toUpper (mid text a (b - a))) = true ∧
            qContains delimiters (left (m.captured text) 1) = false) ∧
            qContains delimiters (right (m.captured text) 1) = false :=
          ⟨⟨c0.1, c0.2.1⟩, c0.2.2⟩
        simp only [if_pos c0, if_pos c1]
      · have c1 : ¬ ((isAllKeyword (toUpper (mid text a (b - a))) = true ∧
            qContains delimiters (left (m.captured text) 1) = false) ∧
            qContains delimiters (right (m.captured text) 1) = false) :=
          fun hc => c0 ⟨hc.1.1, hc.1.2, hc.2⟩
        simp only [if_neg c0, if_neg c1]
        split_ifs <;> rfl

theorem toUpper_idem (s : List Char) : toUpper (toUpper s) = toUpper s := by
  simp only [toUpper, List.map_map]
  apply List.map_congr_left
  intro c _
  exact toUpper_toUpper c

theorem initialLoop_result (text : List Char) : ∀ (fuel : Nat) (idx : Int),
    (idx = -1 ∨ (0 ≤ idx ∧ idx ≤ text.length)) →
    (idx = -1 → 1 ≤ fuel) → (0 ≤ idx → (text.length : Int) - idx + 2 ≤ fuel) →
    ∃ r, initialLoop text text.length fuel idx = some r ∧
      (r = [] ∨ (isAllKeyword r = true ∧ toUpper r = r)) := by
  intro fuel
  induction fuel with
  | zero =>
    intro idx hs h1 h2
    rcases hs with h | h
    · have := h1 h; omega
    · have := h2 h.1; omega
  | succ f ih =>
    intro idx hs h1 h2
    rcases hs with h | h
    · subst h
      refine ⟨[], ?_, Or.inl rfl⟩
      rw [initialLoop, if_neg (by omega)]
    · rw [initialLoop_step text f idx h.1 h.2]
      obtain ⟨-, -, b3, b4⟩ := stepData_spec text idx h.1 h.2
      have := h2 h.1
      split_ifs with hk
      · exact ⟨_, rfl, Or.inr ⟨b4 hk, toUpper_idem _⟩⟩
      · apply ih _ (by rcases b3 with e | e; exact Or.inl e; exact Or.inr ⟨by omega, e.2⟩)
        · intro _; omega
        · intro _
          rcases b3 with e | e <;> omega

/-- The call of `Initial_SQL_Keyword` completes on every string, with the empty string
or a word of `All_MySQL_Keywords` in upper case. -/
theorem Initial_SQL_Keyword_result (text : List Char) :
    ∃ r, Initial_SQL_Keyword text = some r ∧
      (r = [] ∨ (isAllKeyword r = true ∧ toUpper r = r)) :=
  initialLoop_result text (text.length + 2) 0 (Or.inr ⟨le_refl _, by omega⟩)
    (fun h => by omega) (fun _ => by omega)

/-! ## The state value of a line: claims C21 and C26 -/

theorem highlightBlock_startOfLine (u : QCharTables) (text : List Char)
    (a b : Int) (h : startOfLine a = startOfLine b) :
    highlightBlock u text a = highlightBlock u text b := by
  have h1 : (if a < 0 then 0 else (a % 16).toNat) = (if b < 0 then 0 else (b % 16).toNat) :=
    congrArg Prod.fst h
  have h2 : (if a < 0 then (0 : Int) else a / 16) = (if b < 0 then 0 else b / 16) :=
    congrArg Prod.snd h
  simp only [highlightBlock, h1, h2]

theorem highlightBlock_endOfLine (u : QCharTables) (text : List Char)
    (previousBlockState : Int) (r : Highlighted)
    (h : highlightBlock u text previousBlockState = some r) :
    ∃ e, endOfLine u text previousBlockState = some e ∧ (e.1 = 0 ∨ e.1 = 5) ∧
      (-2147483648 ≤ e.2 ∧ e.2 < 2147483648) ∧
      r.blockState = toInt32 ((e.1 : Int) + 16 * e.2) := by
  unfold highlightBlock at h
  unfold endOfLine startOfLine
  dsimp only at h ⊢
  cases hl : highlightLoop u text (2 * text.length + 4)
      ⟨0, 0, if previousBlockState < 0 then 0 else (previousBlockState % 16).toNat,
        if previousBlockState < 0 then 0 else previousBlockState / 16, [], []⟩ with
  | none => rw [hl] at h; cases h
  | some s =>
    rw [hl] at h
    dsimp only at h ⊢
    cases h
    refine ⟨_, rfl, ?_, ?_, ?_⟩
    · by_cases h5 : s.state = 5 <;> simp [h5]
    · simp only [toInt32]
      omega
    · by_cases h5 : s.state = 5
      · simp only [h5, if_true, toInt32]
        omega
      · simp only [h5, if_false, toInt32]
        omega

theorem startOfLine_packed (st : Nat) (lvl : Int) (hst : st = 0 ∨ st = 5)
    (hl : -2147483648 ≤ lvl ∧ lvl < 2147483648) :
    startOfLine (toInt32 ((st : Int) + 16 * lvl)) = (st, lvl) ↔
      (0 ≤ lvl ∧ lvl < 134217728) := by
  unfold startOfLine
  rw [Prod.mk.injEq]
  by_cases hw : toInt32 ((st : Int) + 16 * lvl) < 0
  · rw [if_pos hw, if_pos hw]
    unfold toInt32 at hw
    constructor
    · rintro ⟨-, h2⟩
      omega
    · intro h
      omega
  · rw [if_neg hw, if_neg hw]
    unfold toInt32 at hw ⊢
    constructor
    · rintro ⟨-, h2⟩
      omega
    · intro h
      have e1 : ((st : Int) + 16 * lvl + 2147483648) % 4294967296 - 2147483648 =
          (st : Int) + 16 * lvl := by omega
      rw [e1]
      constructor
      · omega
      · omega

set_option maxRecDepth 100000 in
/-- C21 at the failing inputs, and where the claim holds: the line ) /* c, first line of
a document, ends inside a block comment at bracket level -1 and its state value is -11;
the next line starts from `Start` at level 0, not from `Comment` at level -1, so on
d */ x the tokenizer formats d, *, / and x as Identifier, Operator, Operator and
Identifier instead of the Comment span of length 4 (which the same line gets after ( /* c,
whose state value is 21). The test `blockState < 0`, meant for the value -1 of a line
without a previous line, also catches every line that ends at a negative level. And the
line ( after a line of state value 2147483632 (level 134217727) ends at level 134217728,
whose state value wraps in a 32-bit `int` to -2147483648, so the next line starts from
level 0 as well. For every line, the state and the level the next line starts with are
those the line ended with if and only if the level at the end of the line is at least 0
and below 134217728; the scan of a line depends on the state value of the line before
only through the decoded pair. -/
theorem C21_line_state_threading_at_failing_input (u : QCharTables) :
    (highlightBlock u ") /* c".toList (-1) =
        some ⟨[⟨TokenKind.Comment, 2, 4⟩], [0], -11⟩ ∧
      endOfLine u ") /* c".toList (-1) = some (5, -1) ∧
      startOfLine (-11) = (0, 0) ∧
      highlightBlock u "d */ x".toList (-11) =
        some ⟨[⟨TokenKind.Identifier, 0, 1⟩, ⟨TokenKind.Operator, 2, 1⟩,
          ⟨TokenKind.Operator, 3, 1⟩, ⟨TokenKind.Identifier, 5, 1⟩], [], 0⟩) ∧
    (highlightBlock u "( /* c".toList (-1) =
        some ⟨[⟨TokenKind.Comment, 2, 4⟩], [0], 21⟩ ∧
      endOfLine u "( /* c".toList (-1) = some (5, 1) ∧
      startOfLine 21 = (5, 1) ∧
      highlightBlock u "d */ x".toList 21 =
        some ⟨[⟨TokenKind.Comment, 0, 4⟩, ⟨TokenKind.Identifier, 5, 1⟩], [], 16⟩) ∧
    (startOfLine 2147483632 = (0, 134217727) ∧
      highlightBlock u "(".toList 2147483632 = some ⟨[], [0], -2147483648⟩ ∧
      endOfLine u "(".toList 2147483632 = some (0, 134217728) ∧
      startOfLine (-2147483648) = (0, 0)) ∧
    (∀ (text : List Char) (previousBlockState : Int) (r : Highlighted),
      highlightBlock u text previousBlockState = some r →
      ∃ e, endOfLine u text previousBlockState = some e ∧ (e.1 = 0 ∨ e.1 = 5) ∧
        (-2147483648 ≤ e.2 ∧ e.2 < 2147483648) ∧
        r.blockState = toInt32 ((e.1 : Int) + 16 * e.2) ∧
        (startOfLine r.blockState = e ↔ (0 ≤ e.2 ∧ e.2 < 134217728))) ∧
    (∀ (text : List Char) (a b : Int), startOfLine a = startOfLine b →
      highlightBlock u text a = highlightBlock u text b) := by
  have ha : ∀ (t : List Char) (p : Int),
      t.all (fun c => decide (c.toNat ≤ 127)) = true →
      endOfLine u t p = endOfLine asciiTables t p := by
    intro t p h
    have h0 : ∀ c ∈ t, c.toNat ≤ 127 := by simpa [List.all_eq_true] using h
    simp only [endOfLine, highlightLoop_ascii u asciiTables t h0]
  refine ⟨⟨?_, ?_, ?_, ?_⟩, ⟨?_, ?_, ?_, ?_⟩, ⟨?_, ?_, ?_, ?_⟩, ?_, ?_⟩
  · rw [highlightBlock_ascii u _ (by decide)]; decide
  · rw [ha _ _ (by decide)]; decide
  · decide
  · rw [highlightBlock_ascii u _ (by decide)]; decide
  · rw [highlightBlock_ascii u _ (by decide)]; decide
  · rw [ha _ _ (by decide)]; decide
  · decide
  · rw [highlightBlock_ascii u _ (by decide)]; decide
  · decide
  · rw [highlightBlock_ascii u _ (by decide)]; decide
  · rw [ha _ _ (by decide)]; decide
  · decide
  · intro text p r h
    obtain ⟨e, h1, h2, h3, h4⟩ := highlightBlock_endOfLine u text p r h
    refine ⟨e, h1, h2, h3, h4, ?_⟩
    rw [h4]
    exact startOfLine_packed e.1 e.2 h2 h3
  · exact fun text a b h => highlightBlock_startOfLine u text a b h

set_option maxRecDepth 100000 in
/-- C26 at the failing input, and where the claim holds: a line that was ( has the list
[0] stored in its block data; scanned again after it was changed to a, where the scan
records no bracket position, the line still has the list [0] stored, not the empty list:
the list is written only `if (!bracketPositions.isEmpty())`. Whenever the scan records
some position the list stored after the scan is the list of the scan, whatever was
stored before. -/
theorem C26_block_data_at_failing_input (u : QCharTables) :
    blockDataAfter u "(".toList (-1) none = some (some [0]) ∧
    (highlightBlock u "a".toList (-1)).map (fun r => r.bracketPositions) = some [] ∧
    blockDataAfter u "a".toList (-1) (some [0]) = some (some [0]) ∧
    (∀ (text : List Char) (previousBlockState : Int) (userData : Option (List Nat))
      (r : Highlighted), highlightBlock u text previousBlockState = some r →
      r.bracketPositions ≠ [] →
      blockDataAfter u text previousBlockState userData = some (some r.bracketPositions)) := by
  refine ⟨?_, ?_, ?_, ?_⟩
  · simp only [blockDataAfter]
    rw [highlightBlock_ascii u _ (by decide)]; decide
  · rw [highlightBlock_ascii u _ (by decide)]; decide
  · simp only [blockDataAfter]
    rw [highlightBlock_ascii u _ (by decide)]; decide
  · intro text p userData r h hne
    simp only [blockDataAfter, h, storeBracketPositions, hne, not_false_eq_true, if_true]

/-! ## The initial keyword and the two lexers: claims C23, C28 and C29 -/

set_option maxRecDepth 1000000 in
/-- C23 at the failing input, and what holds: on the string # select, a comment up to
the end of the string, `Initial_SQL_Keyword` returns SELECT, the word inside the
comment, not the empty string (likewise on -- select); on x"select" update it returns
SELECT, the word inside the string, not UPDATE. The pattern `hash_comment` needs the
newline that ends the comment, and the match for x takes the opening quote as its
closing delimiter. On the example of the claim, a block comment followed by select 1,
the result is SELECT; a backticked or dot-delimited keyword is passed over. On every
string the call completes, and the result is the empty string or a word of
`All_MySQL_Keywords` in upper case. -/
theorem C23_initial_keyword_at_failing_input :
    Initial_SQL_Keyword "# select".toList = some "SELECT".toList ∧
    Initial_SQL_Keyword "-- select".toList = some "SELECT".toList ∧
    Initial_SQL_Keyword "x\"select\" update".toList = some "SELECT".toList ∧
    Initial_SQL_Keyword "/* c */ select 1".toList = some "SELECT".toList ∧
    Initial_SQL_Keyword "# c\nselect 1".toList = some "SELECT".toList ∧
    Initial_SQL_Keyword "`select` a.from count(x)".toList = some "COUNT".toList ∧
    Initial_SQL_Keyword "'select' \"update\" 12".toList = some [] ∧
    (∀ s : List Char, ∃ r, Initial_SQL_Keyword s = some r ∧
      (r = [] ∨ (isAllKeyword r = true ∧ toUpper r = r))) := by
  refine ⟨by decide, by decide, by decide, by decide, by decide, by decide, by decide, ?_⟩
  exact fun s => Initial_SQL_Keyword_result s

set_option maxRecDepth 1000000 in
/-- C28 at the failing input: on the line a$select the whole-text call of
`Uppercase_SQL_Keywords` rewrites select to upper case (a$SELECT), although the tokenizer
formats the whole line as one Identifier span of length 8; on set @select = 1 it rewrites
the name of the variable (SET @SELECT = 1), which the tokenizer formats as the Identifier
span of length 7 at offset 4. The word pattern of the normalizer, [A-Za-z_0-9]+, ends a
word at the dollar sign and takes the at sign as a delimiter that does not matter, while
the Identifier state of the tokenizer takes both into the name. -/
theorem C28_normalize_against_tokenizer_at_failing_input (u : QCharTables) :
    Uppercase_SQL_Keywords "a$select".toList = some "a$SELECT".toList ∧
    highlightBlock u "a$select".toList (-1) =
      some ⟨[⟨TokenKind.Identifier, 0, 8⟩], [], 0⟩ ∧
    Uppercase_SQL_Keywords "set @select = 1".toList = some "SET @SELECT = 1".toList ∧
    highlightBlock u "set @select = 1".toList (-1) =
      some ⟨[⟨TokenKind.Keyword, 0, 3⟩, ⟨TokenKind.Identifier, 4, 7⟩,
        ⟨TokenKind.Operator, 12, 1⟩, ⟨TokenKind.Number, 14, 1⟩], [], 0⟩ := by
  refine ⟨by decide, ?_, by decide, ?_⟩
  · rw [highlightBlock_ascii u _ (by decide)]; decide
  · rw [highlightBlock_ascii u _ (by decide)]; decide

set_option maxRecDepth 1000000 in
/-- C29 at the failing input: on the single line #( the tokenizer, from the Start state,
formats the whole line as a Comment and records no bracket position, while the bracket
text of the same line holds the opening parenthesis at offset 1: the pattern
`hash_comment` of the bracket map needs the newline that ends the comment, the state
To_EOL_Comment of the tokenizer does not. The same on the line -- ( . -/
theorem C29_bracket_positions_against_bracket_map_at_failing_input (u : QCharTables) :
    highlightBlock u "#(".toList (-1) = some ⟨[⟨TokenKind.Comment, 0, 2⟩], [], 0⟩ ∧
    Compute_Bracket_Text "#(".toList = some " (".toList ∧
    highlightBlock u "-- (".toList (-1) = some ⟨[⟨TokenKind.Comment, 0, 4⟩], [], 0⟩ ∧
    Compute_Bracket_Text "-- (".toList = some "   (".toList := by
  refine ⟨?_, by decide, ?_, by decide⟩
  · rw [highlightBlock_ascii u _ (by decide)]; decide
  · rw [highlightBlock_ascii u _ (by decide)]; decide

/-! ## The tokenizer is total: claim C24 -/

theorem stepProgress_ite {s : HState} {c : Prop} [Decidable c]
    {a b : Option HState} (ha : c → StepProgress s a) (hb : ¬ c → StepProgress s b) :
    StepProgress s (if c then a else b) := by
  by_cases h : c
  · rw [if_pos h]; exact ha h
  · rw [if_neg h]; exact hb h

theorem stepProgress_some {s s' : HState}
    (h : (s.i < s'.i ∨ (s'.i = s.i ∧ s.state ≠ 0 ∧ s'.state = 0)) ∧ (s.state = 0 → s.i < s'.i)) :
    StepProgress s (some s') := by
  intro s1 h1
  cases h1
  exact h

theorem highlightStep_progress (u : QCharTables) (text : List Char) (s : HState)
    (hi : s.i ≤ text.length) : StepProgress s (highlightStep u text s) := by
  rcases s with ⟨i, start, k, bl, bp, tokens⟩
  simp only at hi
  rcases k with _ | _ | _ | _ | _ | _ | _ | k
  all_goals unfold highlightStep
  all_goals dsimp only
  case succ.succ.succ.succ.zero =>
    refine stepProgress_ite (fun _ => ?_) (fun _ => ?_)
    · exact stepProgress_some (by simp)
    · cases text[start]? with
      | none => exact fun s' h => by cases h
      | some q =>
        dsimp only
        repeat' (refine stepProgress_ite (fun _ => ?_) (fun _ => ?_))
        all_goals exact stepProgress_some (by simp)
  all_goals repeat' (refine stepProgress_ite (fun _ => ?_) (fun _ => ?_))
  all_goals refine stepProgress_some ?_
  all_goals try split_ifs
  all_goals simp only [Nat.lt_add_one, Nat.lt_add_of_pos_right, true_or, ne_eq,
    OfNat.ofNat_ne_zero, not_false_eq_true, and_self, or_true, implies_true,
    zero_lt_two, Nat.succ_ne_zero, Nat.add_eq_zero, one_ne_zero, and_false,
    not_true_eq_false, false_implies, lt_self_iff_false, false_or, true_and,
    Nat.lt_irrefl, and_true, forall_true_left, Nat.ofNat_pos, lt_add_iff_pos_right,
    OfNat.zero_ne_ofNat, OfNat.one_ne_ofNat]
  all_goals first
    | done
    | omega
    | (have hlt : i < text.length :=
        getD_ne_nul_lt text i (by rename_i h; rw [h.1]; decide)
       omega)

/-- C24: the scan loop of `highlightBlock` ends on every line, from every state value of
the previous line. Every turn that completes moves the scan index forward or goes from
another state back to `Start` at the same index, and a turn from `Start` always moves
the index forward. With the bound of 2 * length + 4 turns the scan completes without a
read outside the line, but in one case: the `String` state as incoming state on an empty
line, where the first turn reads `text.at(start)` outside the line. When the incoming
state is `Start` or `Comment` the scan completes. -/
theorem C24_tokenizer_total (u : QCharTables) (text : List Char) :
    (∀ s s' : HState, s.i ≤ text.length → highlightStep u text s = some s' →
      (s.i < s'.i ∨ (s'.i = s.i ∧ s.state ≠ 0 ∧ s'.state = 0)) ∧
        (s.state = 0 → s.i < s'.i)) ∧
    (∀ previousBlockState : Int,
      (∃ r, highlightBlock u text previousBlockState = some r) ∨
      (0 ≤ previousBlockState ∧ previousBlockState % 16 = 4 ∧ text = [] ∧
        highlightStep u text ⟨0, 0, 4, previousBlockState / 16, [], []⟩ = none)) ∧
    (∀ previousBlockState : Int,
      (startOfLine previousBlockState).1 = 0 ∨ (startOfLine previousBlockState).1 = 5 →
      ∃ r, highlightBlock u text previousBlockState = some r) := by
  refine ⟨?_, ?_, ?_⟩
  · intro s s' hi h
    exact highlightStep_progress u text s hi s' h
  · intro p
    by_cases hc : 0 ≤ p ∧ p % 16 = 4 ∧ text = []
    · right
      obtain ⟨h1, h2, h3⟩ := hc
      subst h3
      exact ⟨h1, h2, rfl, by simp [highlightStep]⟩
    · left
      obtain ⟨r, hr, -⟩ := highlightBlock_spans u text p hc
      exact ⟨r, hr⟩
  · intro p hp
    have hc : ¬ (0 ≤ p ∧ p % 16 = 4 ∧ text = []) := by
      rintro ⟨h1, h2, -⟩
      simp only [startOfLine] at hp
      rw [if_neg (by omega), h2] at hp
      rcases hp with hp | hp <;> simp at hp
    obtain ⟨r, hr, -⟩ := highlightBlock_spans u text p hc
    exact ⟨r, hr⟩

/-! ## The cached bracket map is never stale: claim C27 -/

theorem onTextChanged_inSync (text : List Char) :
    ∃ bt, Compute_Bracket_Text text = some bt ∧ onTextChanged text = some ⟨text, bt⟩ ∧
      BracketCache.inSync ⟨text, bt⟩ := by
  obtain ⟨bt, h1, -⟩ := Compute_Bracket_Text_spec text
  exact ⟨bt, h1, by simp only [onTextChanged, h1], h1⟩

theorem Bracket_Match_Position_state_eq (text : List Char) (cache : BracketCache)
    (hs : cache.inSync) (p : Int) :
    ∃ bt, Compute_Bracket_Text text = some bt ∧
      Bracket_Match_Position_state text cache p =
        some (Bracket_Match_Reference text bt p, ⟨text, bt⟩) := by
  obtain ⟨bt, h1, hb⟩ := Compute_Bracket_Text_spec text
  refine ⟨bt, h1, ?_⟩
  have hfresh : onTextChanged text = some ⟨text, bt⟩ := by
    simp only [onTextChanged, h1]
  have hm := matchPosition_eq_reference text bt hb p
  unfold Bracket_Match_Position_state
  by_cases c1 : text.length ≠ cache.Bracket_Text.length
  · rw [if_pos c1, hfresh]
    dsimp only
    rw [if_neg (by simp)]
    dsimp only
    rw [hm]
  · rw [if_neg c1]
    dsimp only
    by_cases c2 : text ≠ cache.Bracket_Source_Text
    · rw [if_pos c2, hfresh]
      dsimp only
      rw [hm]
    · rw [if_neg c2]
      dsimp only
      have e1 : cache.Bracket_Source_Text = text := (not_not.mp c2).symm
      have e2 : cache.Bracket_Text = bt := by
        have := hs
        unfold BracketCache.inSync at this
        rw [e1, h1] at this
        exact (Option.some.inj this).symm
      have e3 : cache = ⟨text, bt⟩ := by
        rcases cache with ⟨a, b⟩
        simp only at e1 e2
        rw [e1, e2]
      rw [e2, hm, e3]

/-- C27: the cached pair agrees with the text it was computed from after every
operation that writes it, and a call of `Bracket_Match_Position` never reads a stale
map. The pair of a new editor is in agreement; `onTextChanged` completes and leaves the
pair for the document text, in agreement; and for every pair in agreement and every
document text and offset, `Bracket_Match_Position` completes, leaves the pair for the
document text (in agreement), and returns what it returns with the pair freshly built
from the document text, the result of the scans on the bracket text of the document
text. -/
theorem C27_bracket_map_never_stale (text : List Char) (cache : BracketCache)
    (hs : cache.inSync) (p : Int) :
    initialCache.inSync ∧
    (∃ c, onTextChanged text = some c ∧ c.inSync ∧ c.Bracket_Source_Text = text) ∧
    ∃ bt r, Compute_Bracket_Text text = some bt ∧
      Bracket_Match_Position_state text cache p = some (r, ⟨text, bt⟩) ∧
      BracketCache.inSync ⟨text, bt⟩ ∧
      Bracket_Match_Position text cache p = some r ∧
      Bracket_Match_Position text ⟨text, bt⟩ p = some r ∧
      matchPosition text bt p = some r := by
  obtain ⟨bt, h1, h2, h3⟩ := onTextChanged_inSync text
  obtain ⟨bt1, g1, g2⟩ := Bracket_Match_Position_state_eq text cache hs p
  rw [h1] at g1
  cases g1
  obtain ⟨bt2, k1, hb, k2⟩ := Bracket_Match_Position_eq text cache hs
  rw [h1] at k1
  cases k1
  obtain ⟨bt3, l1, -, l2⟩ := Bracket_Match_Position_eq text ⟨text, bt⟩ h3
  rw [h1] at l1
  cases l1
  have hm := matchPosition_eq_reference text bt hb p
  refine ⟨by unfold BracketCache.inSync initialCache; decide, ⟨_, h2, h3, rfl⟩, bt, _, h1, g2, h3, ?_, ?_, hm⟩
  · rw [k2, hm]
  · rw [l2, hm]

set_option maxRecDepth 100000 in
/-- Witness of C27: the text (a) at offset 0, with the cached pair of a new editor. -/
theorem C27_bracket_map_never_stale_witness :
    initialCache.inSync ∧
    (∃ c, onTextChanged "(a)".toList = some c ∧ c.inSync ∧
      c.Bracket_Source_Text = "(a)".toList) ∧
    ∃ bt r, Compute_Bracket_Text "(a)".toList = some bt ∧
      Bracket_Match_Position_state "(a)".toList initialCache 0 =
        some (r, ⟨"(a)".toList, bt⟩) ∧
      BracketCache.inSync ⟨"(a)".toList, bt⟩ ∧
      Bracket_Match_Position "(a)".toList initialCache 0 = some r ∧
      Bracket_Match_Position "(a)".toList ⟨"(a)".toList, bt⟩ 0 = some r ∧
      matchPosition "(a)".toList bt 0 = some r :=
  C27_bracket_map_never_stale "(a)".toList initialCache
    (by unfold BracketCache.inSync initialCache; decide) 0

/-! ## Code folding: claims C22 and C30 -/

theorem closingLoop_eq (blocks : List Block) (bt : List Char) (offset : Nat)
    (hbt : Compute_Bracket_Text (toPlainText blocks) = some bt) :
    ∀ (ps : List Nat) (cache : BracketCache), cache.inSync →
      ∃ cache1, cache1.inSync ∧
        closingLoop blocks offset ps cache =
          some ((match ps.find? (fun pos =>
              decide (characterAt blocks (offset + pos) = '(') &&
              decide (Bracket_Match_Reference (toPlainText blocks) bt
                ((offset + pos : Nat) : Int) ≥ 0)) with
            | none => -1
            | some pos =>
              Bracket_Match_Reference (toPlainText blocks) bt ((offset + pos : Nat) : Int)),
            cache1) := by
  intro ps
  induction ps with
  | nil => exact fun cache hs => ⟨cache, hs, rfl⟩
  | cons pos r ih =>
    intro cache hs
    unfold closingLoop
    by_cases hc : characterAt blocks (offset + pos) = '('
    · rw [if_pos hc]
      obtain ⟨bt1, g1, g2⟩ :=
        Bracket_Match_Position_state_eq (toPlainText blocks) cache hs ((offset + pos : Nat) : Int)
      rw [hbt] at g1
      cases g1
      rw [g2]
      dsimp only
      by_cases hm : Bracket_Match_Reference (toPlainText blocks) bt ((offset + pos : Nat) : Int) ≥ 0
      · rw [if_pos hm]
        refine ⟨⟨toPlainText blocks, bt⟩, hbt, ?_⟩
        simp only [List.find?, hc, hm, decide_True, Bool.and_self]
      · rw [if_neg hm]
        obtain ⟨c1, k1, k2⟩ := ih ⟨toPlainText blocks, bt⟩ hbt
        refine ⟨c1, k1, ?_⟩
        rw [k2]
        simp only [List.find?, hc, hm, decide_True, decide_False, Bool.and_false]
    · rw [if_neg hc]
      obtain ⟨c1, k1, k2⟩ := ih cache hs
      refine ⟨c1, k1, ?_⟩
      rw [k2]
      simp only [List.find?, hc, decide_False, Bool.false_and]

theorem findClosingConstruct_eq (blocks : List Block) (bt : List Char)
    (hbt : Compute_Bracket_Text (toPlainText blocks) = some bt) (cache : BracketCache)
    (hs : cache.inSync) (number : Nat) :
    ∃ cache1, cache1.inSync ∧
      findClosingConstruct blocks cache (some number) =
        some (Closing_Construct_Reference blocks bt number, cache1) := by
  unfold findClosingConstruct Closing_Construct_Reference
  dsimp only
  cases hb : blocks[number]? with
  | none => exact ⟨cache, hs, rfl⟩
  | some b =>
    dsimp only
    cases hd : b.userData with
    | none => exact ⟨cache, hs, rfl⟩
    | some ps =>
      dsimp only
      by_cases he : ps = []
      · rw [if_pos he]
        subst he
        exact ⟨cache, hs, rfl⟩
      · rw [if_neg he]
        simp only [Option.getD_some]
        exact closingLoop_eq blocks bt (blockPosition blocks number) hbt ps cache hs

/-- The call of `isFoldable` completes, with the value of `isFoldable_Reference`, and
leaves the cached pair in agreement. -/
theorem isFoldable_eq (blocks : List Block) (bt : List Char)
    (hbt : Compute_Bracket_Text (toPlainText blocks) = some bt) (cache : BracketCache)
    (hs : cache.inSync) (line : Int) :
    ∃ cache1, cache1.inSync ∧
      isFoldable blocks cache line = some (isFoldable_Reference blocks bt line, cache1) := by
  unfold isFoldable isFoldable_Reference
  cases hn : findBlockByNumber blocks (line - 1) with
  | none =>
    refine ⟨cache, hs, ?_⟩
    simp [findClosingConstruct]
  | some number =>
    obtain ⟨c1, k1, k2⟩ := findClosingConstruct_eq blocks bt hbt cache hs number
    refine ⟨c1, k1, ?_⟩
    rw [k2]
    dsimp only
    by_cases hq : Closing_Construct_Reference blocks bt number ≥ 0
    · rw [if_pos hq]
      cases hf : findBlock blocks (Closing_Construct_Reference blocks bt number) with
      | none => simp
      | some m =>
        dsimp only
        by_cases hm : (m : Int) > line
        · rw [if_pos hm]
          have : (m : Int) ≥ line + 1 := by omega
          simp [hq, this]
        · rw [if_neg hm]
          have : ¬ ((m : Int) ≥ line + 1) := by omega
          simp [this]
    · rw [if_neg hq]
      simp [hq]

theorem hideBlocks_getElem? (endBlock : Option Nat) :
    ∀ (l : List Block) (number k : Nat),
      (hideBlocks endBlock number l)[k]? =
        (l[k]?).map (fun b =>
          if (match endBlock with
              | some m => decide (m < number ∨ number + k < m)
              | none => true) = true then { b with visible := false } else b) := by
  intro l
  induction l with
  | nil => intro number k; simp [hideBlocks]
  | cons b r ih =>
    intro number k
    unfold hideBlocks
    by_cases he : some number = endBlock
    · rw [if_pos he]
      subst he
      simp
    · rw [if_neg he]
      cases k with
      | zero =>
        cases endBlock with
        | none => simp
        | some m =>
          have : m ≠ number := fun hc => he (by rw [hc])
          simp [this]
      | succ k =>
        rw [List.getElem?_cons_succ, List.getElem?_cons_succ, ih]
        cases endBlock with
        | none => rfl
        | some m =>
          have : m ≠ number := fun hc => he (by rw [hc])
          have h1 : (m < number + 1 ∨ number + 1 + k < m) ↔ (m < number ∨ number + (k + 1) < m) := by
            omega
          simp only [h1]

/-- The call of `fold` completes and leaves the cached pair in agreement; it sets to
hidden the blocks of `Fold_Hidden_Reference` and changes nothing else. -/
theorem fold_eq (blocks : List Block) (bt : List Char)
    (hbt : Compute_Bracket_Text (toPlainText blocks) = some bt) (cache : BracketCache)
    (hs : cache.inSync) (line : Int) :
    ∃ blocks1 cache1, cache1.inSync ∧ fold blocks cache line = some (blocks1, cache1) ∧
      ∀ k : Nat, blocks1[k]? = (blocks[k]?).map (fun b =>
        if Fold_Hidden_Reference blocks bt line k = true then { b with visible := false }
        else b) := by
  unfold fold Fold_Hidden_Reference
  cases hn : findBlockByNumber blocks (line - 1) with
  | none =>
    refine ⟨blocks, cache, hs, by simp [findClosingConstruct], fun k => ?_⟩
    cases blocks[k]? <;> simp
  | some number =>
    obtain ⟨c1, k1, k2⟩ := findClosingConstruct_eq blocks bt hbt cache hs number
    rw [k2]
    dsimp only
    by_cases hq : Closing_Construct_Reference blocks bt number < 0
    · rw [if_pos hq]
      refine ⟨blocks, c1, k1, rfl, fun k => ?_⟩
      have : ¬ (Closing_Construct_Reference blocks bt number ≥ 0) := by omega
      cases blocks[k]? <;> simp [this]
    · rw [if_neg hq]
      refine ⟨_, c1, k1, rfl, fun k => ?_⟩
      have hq1 : Closing_Construct_Reference blocks bt number ≥ 0 := by omega
      have hlen : number < blocks.length := by
        unfold findBlockByNumber at hn
        split_ifs at hn with h
        cases hn
        omega
      by_cases hk : k < number + 1
      · rw [List.getElem?_append_left (by simp; omega), List.getElem?_take_of_lt hk]
        have : ¬ (number < k) := by omega
        cases blocks[k]? <;> simp [this]
      · rw [List.getElem?_append_right (by simp; omega), hideBlocks_getElem?]
        have h1 : (List.take (number + 1) blocks).length = number + 1 := by simp; omega
        rw [h1, List.getElem?_drop, show number + 1 + (k - (number + 1)) = k by omega]
        have h2 : number < k := by omega
        cases hb : blocks[k]? with
        | none => simp
        | some b =>
          cases hf : findBlock blocks (Closing_Construct_Reference blocks bt number) with
          | none => simp [hq1, h2]
          | some m =>
            have h3 : (m < number + 1 ∨ k < m) ↔ (m ≤ number ∨ k < m) := by omega
            simp [hq1, h2, h3]

theorem tokenizedFrom_ascii (u : QCharTables) :
    ∀ (lines : List (List Char)) (previousBlockState : Int),
      lines.all (fun t => t.all (fun c => decide (c.toNat ≤ 127))) = true →
      tokenizedFrom u previousBlockState lines =
        tokenizedFrom asciiTables previousBlockState lines := by
  intro lines
  induction lines with
  | nil => intro _ _; rfl
  | cons t r ih =>
    intro p h
    rw [List.all_cons, Bool.and_eq_true] at h
    unfold tokenizedFrom
    rw [highlightBlock_ascii u t h.1]
    cases highlightBlock asciiTables t p with
    | none => rfl
    | some hl =>
      dsimp only
      rw [ih _ h.2]

set_option maxRecDepth 1000000 in
/-- C22, counterexamples. In the document of the lines (a, b) and c the opening
parenthesis recorded on line 1 has its match at offset 4, on line 2, a strictly later
line, and `isFoldable(1)` is false: the test `matchBlock.blockNumber() > line` compares
the block number, counted from 0, with the line, counted from 1. In the document of the
lines ((, b, ) and d the first opening parenthesis of line 1 has no match and
`isFoldable(1)` is true: `findClosingConstruct` goes on to the next recorded parenthesis,
whose match, at offset 5, lies on line 3. -/
theorem C22_counterexample :
    ((∀ u : QCharTables, tokenizedFrom u (-1) ["(a".toList, "b)".toList, "c".toList] =
        some [⟨"(a".toList, some [0], true⟩, ⟨"b)".toList, some [1], true⟩,
          ⟨"c".toList, none, true⟩]) ∧
      Bracket_Match_Position (toPlainText [⟨"(a".toList, some [0], true⟩,
        ⟨"b)".toList, some [1], true⟩, ⟨"c".toList, none, true⟩]) initialCache 0 = some 4 ∧
      findBlock [⟨"(a".toList, some [0], true⟩, ⟨"b)".toList, some [1], true⟩,
        ⟨"c".toList, none, true⟩] 4 = some 1 ∧
      (isFoldable [⟨"(a".toList, some [0], true⟩, ⟨"b)".toList, some [1], true⟩,
        ⟨"c".toList, none, true⟩] initialCache 1).map Prod.fst = some false) ∧
    ((∀ u : QCharTables, tokenizedFrom u (-1)
        ["((".toList, "b".toList, ")".toList, "d".toList] =
        some [⟨"((".toList, some [0, 1], true⟩, ⟨"b".toList, none, true⟩,
          ⟨")".toList, some [0], true⟩, ⟨"d".toList, none, true⟩]) ∧
      Bracket_Match_Position (toPlainText [⟨"((".toList, some [0, 1], true⟩,
        ⟨"b".toList, none, true⟩, ⟨")".toList, some [0], true⟩,
        ⟨"d".toList, none, true⟩]) initialCache 0 = some (-1) ∧
      Bracket_Match_Position (toPlainText [⟨"((".toList, some [0, 1], true⟩,
        ⟨"b".toList, none, true⟩, ⟨")".toList, some [0], true⟩,
        ⟨"d".toList, none, true⟩]) initialCache 1 = some 5 ∧
      findBlock [⟨"((".toList, some [0, 1], true⟩, ⟨"b".toList, none, true⟩,
        ⟨")".toList, some [0], true⟩, ⟨"d".toList, none, true⟩] 5 = some 2 ∧
      (isFoldable [⟨"((".toList, some [0, 1], true⟩, ⟨"b".toList, none, true⟩,
        ⟨")".toList, some [0], true⟩, ⟨"d".toList, none, true⟩] initialCache 1).map Prod.fst =
        some true) := by
  refine ⟨⟨?_, by decide, by decide, by decide⟩, ⟨?_, by decide, by decide, by decide, by decide⟩⟩
  · intro u
    rw [tokenizedFrom_ascii u _ _ (by decide)]; decide
  · intro u
    rw [tokenizedFrom_ascii u _ _ (by decide)]; decide

/-- C22, amended: for every document whose cached bracket map is in agreement, and every
line number (counted from 1), the call `isFoldable(line)` completes, leaves the cached
pair in agreement, and returns true if and only if the line exists, one of the offsets
stored in its block data holds an opening parenthesis of the document that has a match,
and the match of the first such offset lies in a block whose number, counted from 0, is
greater than the line, that is, at least two lines below the line. -/
theorem C22_fold_eligibility (blocks : List Block) (cache : BracketCache)
    (hs : cache.inSync) (line : Int) :
    ∃ bt cache1, Compute_Bracket_Text (toPlainText blocks) = some bt ∧ cache1.inSync ∧
      isFoldable blocks cache line = some (isFoldable_Reference blocks bt line, cache1) := by
  obtain ⟨bt, hbt, -⟩ := Compute_Bracket_Text_spec (toPlainText blocks)
  obtain ⟨c1, k1, k2⟩ := isFoldable_eq blocks bt hbt cache hs line
  exact ⟨bt, c1, hbt, k1, k2⟩

set_option maxRecDepth 1000000 in
/-- Witness of C22: line 1 of the document of the lines (a, b, c) and d, with the cached
pair of a new editor. -/
theorem C22_fold_eligibility_witness :
    initialCache.inSync ∧
    ∃ bt cache1, Compute_Bracket_Text (toPlainText [⟨"(a".toList, some [0], true⟩,
        ⟨"b".toList, none, true⟩, ⟨"c)".toList, some [1], true⟩,
        ⟨"d".toList, none, true⟩]) = some bt ∧ cache1.inSync ∧
      isFoldable [⟨"(a".toList, some [0], true⟩, ⟨"b".toList, none, true⟩,
        ⟨"c)".toList, some [1], true⟩, ⟨"d".toList, none, true⟩] initialCache 1 =
        some (isFoldable_Reference [⟨"(a".toList, some [0], true⟩, ⟨"b".toList, none, true⟩,
          ⟨"c)".toList, some [1], true⟩, ⟨"d".toList, none, true⟩] bt 1, cache1) :=
  ⟨by unfold BracketCache.inSync initialCache; decide,
    C22_fold_eligibility _ initialCache (by unfold BracketCache.inSync initialCache; decide) 1⟩

set_option maxRecDepth 1000000 in
/-- C30 at the failing input, and what `fold` does on every document: in the document
of the lines (a), b and c the opening parenthesis of line 1 has its match at offset 2,
on line 1 itself, and `fold(1)` hides the lines b and c, every line after line 1, while
the claim says it hides no line: the loop `while (block.isValid() && block != endBlock)`
starts at the block after line 1 and never meets `endBlock`, which is line 1. For every
document whose cached bracket map is in agreement the call completes and sets to hidden
the blocks of `Fold_Hidden_Reference`, nothing else: none when the line has no closing
construct, the blocks strictly between the line and the block of the closing construct
when that block comes after the line, and every block after the line otherwise. -/
theorem C30_fold_at_failing_input (u : QCharTables) :
    (tokenizedFrom u (-1) ["(a)".toList, "b".toList, "c".toList] =
        some [⟨"(a)".toList, some [0, 2], true⟩, ⟨"b".toList, none, true⟩,
          ⟨"c".toList, none, true⟩] ∧
      Bracket_Match_Position (toPlainText [⟨"(a)".toList, some [0, 2], true⟩,
        ⟨"b".toList, none, true⟩, ⟨"c".toList, none, true⟩]) initialCache 0 = some 2 ∧
      findBlock [⟨"(a)".toList, some [0, 2], true⟩, ⟨"b".toList, none, true⟩,
        ⟨"c".toList, none, true⟩] 2 = some 0 ∧
      (fold [⟨"(a)".toList, some [0, 2], true⟩, ⟨"b".toList, none, true⟩,
        ⟨"c".toList, none, true⟩] initialCache 1).map Prod.fst =
        some [⟨"(a)".toList, some [0, 2], true⟩, ⟨"b".toList, none, false⟩,
          ⟨"c".toList, none, false⟩]) ∧
    (fold [⟨"(a".toList, some [0], true⟩, ⟨"b".toList, none, true⟩,
        ⟨"c)".toList, some [1], true⟩, ⟨"d".toList, none, true⟩] initialCache 1).map Prod.fst =
      some [⟨"(a".toList, some [0], true⟩, ⟨"b".toList, none, false⟩,
        ⟨"c)".toList, some [1], true⟩, ⟨"d".toList, none, true⟩] ∧
    (∀ (blocks : List Block) (cache : BracketCache) (line : Int), cache.inSync →
      ∃ bt blocks1 cache1, Compute_Bracket_Text (toPlainText blocks) = some bt ∧
        cache1.inSync ∧ fold blocks cache line = some (blocks1, cache1) ∧
        ∀ k : Nat, blocks1[k]? = (blocks[k]?).map (fun b =>
          if Fold_Hidden_Reference blocks bt line k = true then { b with visible := false }
          else b)) := by
  refine ⟨⟨?_, by decide, by decide, by decide⟩, by decide, ?_⟩
  · rw [tokenizedFrom_ascii u _ _ (by decide)]; decide
  · intro blocks cache line hs
    obtain ⟨bt, hbt, -⟩ := Compute_Bracket_Text_spec (toPlainText blocks)
    obtain ⟨b1, c1, k1, k2, k3⟩ := fold_eq blocks bt hbt cache hs line
    exact ⟨bt, b1, c1, hbt, k1, k2, k3⟩

/-! ## The end of a string: claim C25 -/

theorem highlightTurns_loop (u : QCharTables) (text : List Char) :
    ∀ (n : Nat) (s s' : HState), highlightTurns u text n s = some s' →
      ∀ f, highlightLoop u text (n + f) s = highlightLoop u text f s' := by
  intro n
  induction n with
  | zero =>
    intro s s' h f
    simp only [highlightTurns] at h
    cases h
    rw [Nat.zero_add]
  | succ n ih =>
    intro s s' h f
    rw [highlightTurns] at h
    rw [show n + 1 + f = (n + f) + 1 by omega, highlightLoop]
    by_cases hi : s.i ≤ text.length
    · rw [if_pos hi] at h ⊢
      cases hs : highlightStep u text s with
      | none => rw [hs] at h; cases h
      | some s1 =>
        rw [hs] at h
        dsimp only at h ⊢
        exact ih s1 s' h f
    · rw [if_neg hi] at h
      cases h

theorem highlightTurns_succ (u : QCharTables) (text : List Char) (n : Nat) (s s1 s' : HState)
    (hi : s.i ≤ text.length) (h1 : highlightStep u text s = some s1)
    (h2 : highlightTurns u text n s1 = some s') :
    highlightTurns u text (n + 1) s = some s' := by
  rw [highlightTurns, if_pos hi, h1]
  exact h2

theorem getD_eq_of_getElem? (text : List Char) (i : Nat) (x : Char)
    (h : text[i]? = some x) : text.getD i '\x00' = x := by
  rw [List.getD_eq_getElem?_getD, h]
  rfl

theorem getElem?_of_getD_ne (text : List Char) (i : Nat) (x : Char)
    (h : text.getD i '\x00' = x) (hx : x ≠ '\x00') : text[i]? = some x := by
  rw [List.getD_eq_getElem?_getD] at h
  cases ht : text[i]? with
  | none => rw [ht] at h; exact absurd h.symm hx
  | some y => rw [ht] at h; exact congrArg some h

theorem stringStep_escape (u : QCharTables) (text : List Char) (i s : Nat) (bl : Int)
    (bp : List Nat) (toks : List Token)
    (h : text.getD i '\x00' = '\\' ∧ IsEscape (text.getD (i + 1) '\x00')) :
    highlightStep u text ⟨i, s, 4, bl, bp, toks⟩ = some ⟨i + 2, s, 4, bl, bp, toks⟩ := by
  unfold IsEscape at h
  unfold highlightStep
  dsimp only
  rw [if_pos h]

theorem stringStep_other (u : QCharTables) (text : List Char) (i s : Nat) (c : Char) (bl : Int)
    (bp : List Nat) (toks : List Token) (hs : text[s]? = some c)
    (h : ¬ (text.getD i '\x00' = '\\' ∧ IsEscape (text.getD (i + 1) '\x00')))
    (hc : text.getD i '\x00' ≠ c) :
    highlightStep u text ⟨i, s, 4, bl, bp, toks⟩ = some ⟨i + 1, s, 4, bl, bp, toks⟩ := by
  unfold IsEscape at h
  unfold highlightStep
  dsimp only
  rw [if_neg h, hs]
  dsimp only
  rw [if_neg hc]

theorem stringStep_close (u : QCharTables) (text : List Char) (i s : Nat) (c : Char) (bl : Int)
    (bp : List Nat) (toks : List Token) (hs : text[s]? = some c)
    (h : ¬ (text.getD i '\x00' = '\\' ∧ IsEscape (text.getD (i + 1) '\x00')))
    (hc : text.getD i '\x00' = c)
    (hp : ¬ ((if i > 0 then text.getD (i - 1) '\x00' else '\x00') = '\\') ∨
      ((if i > 1 then text.getD (i - 2) '\x00' else '\x00') = '\\' ∧
        (if i > 0 then text.getD (i - 1) '\x00' else '\x00') = '\\')) :
    highlightStep u text ⟨i, s, 4, bl, bp, toks⟩ =
      some ⟨i + 1, s, 0, bl, bp, setFormat text.length s (i + 1 - s) TokenKind.String toks⟩ := by
  unfold IsEscape at h
  unfold highlightStep
  dsimp only
  rw [if_neg h, hs]
  dsimp only
  rw [if_pos hc, if_pos hp]

theorem closesString_iff (text : List Char) (s : Nat) (c : Char) (j : Nat) :
    closesString text s c j = true ↔
      s < j ∧ text[j]? = some c ∧ backslashRun text s j % 2 = 0 := by
  simp [closesString, and_assoc]

theorem closesString_false_of (text : List Char) (s : Nat) (c : Char) (j : Nat)
    (h : ¬ (s < j ∧ text[j]? = some c ∧ backslashRun text s j % 2 = 0)) :
    closesString text s c j = false := by
  cases hc : closesString text s c j with
  | false => rfl
  | true => exact absurd ((closesString_iff text s c j).mp hc) h

theorem setFormat_inside (len s cnt : Nat) (kind : TokenKind) (toks : List Token)
    (h1 : 0 < cnt) (h2 : s + cnt ≤ len) :
    setFormat len s cnt kind toks = toks ++ [⟨kind, s, cnt⟩] := by
  unfold MySQLEditor.setFormat
  rw [if_neg (by omega)]
  have : min (s + cnt) len - s = cnt := by omega
  rw [this]

theorem isEscape_quote (c : Char) (hq : c = '\'' ∨ c = '"') : IsEscape c := by
  unfold IsEscape
  rcases hq with h | h
  · exact Or.inr (Or.inl h)
  · exact Or.inr (Or.inr (Or.inl h))

theorem stringScan_close_condition (text : List Char) (s : Nat) (c : Char) (i : Nat)
    (hs : text[s]? = some c) (hq : c = '\'' ∨ c = '"') (hsi : s < i)
    (he : backslashRun text s i % 2 = 0) :
    ¬ ((if i > 0 then text.getD (i - 1) '\x00' else '\x00') = '\\') ∨
      ((if i > 1 then text.getD (i - 2) '\x00' else '\x00') = '\\' ∧
        (if i > 0 then text.getD (i - 1) '\x00' else '\x00') = '\\') := by
  obtain ⟨i0, rfl⟩ : ∃ i0, i = i0 + 1 := ⟨i - 1, by omega⟩
  have hc : c ≠ '\\' := by rcases hq with h | h <;> rw [h] <;> decide
  rw [if_pos (by omega)]
  simp only [Nat.add_sub_cancel]
  rw [backslashRun] at he
  by_cases h1 : s < i0 ∧ text[i0]? = some '\\'
  · rw [if_pos h1] at he
    right
    obtain ⟨i1, rfl⟩ : ∃ i1, i0 = i1 + 1 := ⟨i0 - 1, by omega⟩
    rw [backslashRun] at he
    by_cases h2 : s < i1 ∧ text[i1 + 1 - 1]? = some '\\'
    · rw [if_pos (by omega)]
      refine ⟨?_, getD_eq_of_getElem? _ _ _ h1.2⟩
      rw [show i1 + 1 + 1 - 2 = i1 by omega]
      have := h2.2
      simp only [Nat.add_sub_cancel] at this
      exact getD_eq_of_getElem? _ _ _ this
    · simp only [Nat.add_sub_cancel] at h2
      rw [if_neg h2] at he
      omega
  · rw [if_neg h1] at he
    left
    intro hp
    have hp1 := getElem?_of_getD_ne text i0 '\\' hp (by decide)
    by_cases h3 : s < i0
    · exact h1 ⟨h3, hp1⟩
    · have : i0 = s := by omega
      rw [this, hs] at hp1
      exact hc (Option.some.inj hp1)

theorem stringScan_run (u : QCharTables) (text : List Char) (s : Nat) (c : Char) (bl : Int)
    (bp : List Nat) (toks : List Token) (hs : text[s]? = some c)
    (hq : c = '\'' ∨ c = '"') :
    ∀ (m i : Nat), text.length + 1 - i ≤ m → StringScan text s c i →
      (∀ j, closesString text s c j = true →
        (∀ k, closesString text s c k = true → j ≤ k) →
        ∃ n, highlightTurns u text n ⟨i, s, 4, bl, bp, toks⟩ =
          some ⟨j + 1, s, 0, bl, bp, toks ++ [⟨TokenKind.String, s, j + 1 - s⟩]⟩) ∧
      ((∀ j, closesString text s c j = false) →
        ∃ n i', highlightTurns u text n ⟨i, s, 4, bl, bp, toks⟩ =
          some ⟨i', s, 4, bl, bp, toks⟩ ∧ text.length < i') := by
  have hc0 : c ≠ '\x00' := by rcases hq with h | h <;> rw [h] <;> decide
  have hcb : c ≠ '\\' := by rcases hq with h | h <;> rw [h] <;> decide
  have hout : ∀ i, text.length < i → StringScan text s c i →
      (∀ j, closesString text s c j = true →
        (∀ k, closesString text s c k = true → j ≤ k) →
        ∃ n, highlightTurns u text n ⟨i, s, 4, bl, bp, toks⟩ =
          some ⟨j + 1, s, 0, bl, bp, toks ++ [⟨TokenKind.String, s, j + 1 - s⟩]⟩) ∧
      ((∀ j, closesString text s c j = false) →
        ∃ n i', highlightTurns u text n ⟨i, s, 4, bl, bp, toks⟩ =
          some ⟨i', s, 4, bl, bp, toks⟩ ∧ text.length < i') := by
    intro i hi hinv
    refine ⟨fun j hj _ => ?_, fun _ => ⟨0, i, rfl, hi⟩⟩
    exfalso
    have h1 := (closesString_iff text s c j).mp hj
    have h2 : j < text.length := getElem?_some_lt h1.2.1
    have h3 := hinv.2.1 j (by omega)
    rw [hj] at h3
    cases h3
  intro m
  induction m with
  | zero =>
    intro i hm hinv
    exact hout i (by omega) hinv
  | succ m ih =>
    intro i hm hinv
    by_cases hi : text.length < i
    · exact hout i hi hinv
    have hi1 : i ≤ text.length := by omega
    obtain ⟨hsi, hno, hpar⟩ := hinv
    by_cases hA : text.getD i '\x00' = '\\' ∧ IsEscape (text.getD (i + 1) '\x00')
    · -- an escape: two characters are passed
      have hstep := stringStep_escape u text i s bl bp toks hA
      have hti : text[i]? = some '\\' := getElem?_of_getD_ne text i '\\' hA.1 (by decide)
      have hev : backslashRun text s i % 2 = 0 := by
        rcases hpar with h | h
        · exact h
        · exact absurd (by rw [hA.1]; exact Or.inl rfl) h
      have hr1 : backslashRun text s (i + 1) = backslashRun text s i + 1 := by
        rw [backslashRun, if_pos ⟨hsi, hti⟩]
      have hinv2 : StringScan text s c (i + 2) := by
        refine ⟨by omega, ?_, ?_⟩
        · intro j hj
          by_cases hj1 : j < i
          · exact hno j hj1
          · apply closesString_false_of
            rintro ⟨-, g2, g3⟩
            by_cases hj2 : j = i
            · rw [hj2, hti] at g2
              exact hcb (Option.some.inj g2).symm
            · have hj3 : j = i + 1 := by omega
              rw [hj3, hr1] at g3
              omega
        · left
          rw [backslashRun]
          by_cases h2 : s < i + 1 ∧ text[i + 1]? = some '\\'
          · rw [if_pos h2, hr1]
            omega
          · rw [if_neg h2]
      obtain ⟨a1, a2⟩ := ih (i + 2) (by omega) hinv2
      refine ⟨fun j hj hmin => ?_, fun hnone => ?_⟩
      · obtain ⟨n, hn⟩ := a1 j hj hmin
        exact ⟨n + 1, highlightTurns_succ u text n _ _ _ hi1 hstep hn⟩
      · obtain ⟨n, i', hn, hlt⟩ := a2 hnone
        exact ⟨n + 1, i', highlightTurns_succ u text n _ _ _ hi1 hstep hn, hlt⟩
    · by_cases hc : text.getD i '\x00' = c
      · -- the closing quote
        have hti : text[i]? = some c := getElem?_of_getD_ne text i c hc hc0
        have hev : backslashRun text s i % 2 = 0 := by
          rcases hpar with h | h
          · exact h
          · exact absurd (by rw [hc]; exact isEscape_quote c hq) h
        have hcl : closesString text s c i = true :=
          (closesString_iff text s c i).mpr ⟨hsi, hti, hev⟩
        have hlt : i < text.length := getElem?_some_lt hti
        have hstep := stringStep_close u text i s c bl bp toks hs hA hc
          (stringScan_close_condition text s c i hs hq hsi hev)
        rw [setFormat_inside _ _ _ _ _ (by omega) (by omega)] at hstep
        refine ⟨fun j hj hmin => ?_, fun hnone => ?_⟩
        · have h1 : j ≤ i := hmin i hcl
          have h2 : ¬ j < i := by
            intro h
            have := hno j h
            rw [hj] at this
            cases this
          have h3 : j = i := by omega
          subst h3
          exact ⟨1, highlightTurns_succ u text 0 _ _ _ hi1 hstep rfl⟩
        · have := hnone i
          rw [hcl] at this
          cases this
      · -- any other character
        have hstep := stringStep_other u text i s c bl bp toks hs hA hc
        have hinv2 : StringScan text s c (i + 1) := by
          refine ⟨by omega, ?_, ?_⟩
          · intro j hj
            by_cases hj1 : j < i
            · exact hno j hj1
            · have hj2 : j = i := by omega
              apply closesString_false_of
              rintro ⟨-, g2, -⟩
              rw [hj2] at g2
              exact hc (getD_eq_of_getElem? _ _ _ g2)
          · by_cases hb : text[i]? = some '\\'
            · right
              intro he
              exact hA ⟨getD_eq_of_getElem? _ _ _ hb, he⟩
            · left
              rw [backslashRun, if_neg (fun h => hb h.2)]
        obtain ⟨a1, a2⟩ := ih (i + 1) (by omega) hinv2
        refine ⟨fun j hj hmin => ?_, fun hnone => ?_⟩
        · obtain ⟨n, hn⟩ := a1 j hj hmin
          exact ⟨n + 1, highlightTurns_succ u text n _ _ _ hi1 hstep hn⟩
        · obtain ⟨n, i', hn, hlt⟩ := a2 hnone
          exact ⟨n + 1, i', highlightTurns_succ u text n _ _ _ hi1 hstep hn, hlt⟩

theorem startStep_quote (u : QCharTables) (text : List Char) (s start0 : Nat) (c : Char)
    (bl : Int) (bp : List Nat) (toks : List Token) (hs : text[s]? = some c)
    (hq : c = '\'' ∨ c = '"') :
    highlightStep u text ⟨s, start0, 0, bl, bp, toks⟩ = some ⟨s + 1, s, 4, bl, bp, toks⟩ := by
  have hch : text.getD s '\x00' = c := getD_eq_of_getElem? text s c hs
  unfold highlightStep
  dsimp only
  rw [hch]
  rcases hq with rfl | rfl
  · have h1 : qIsSpace '\'' = false := by decide
    have h2 : qIsDigit u '\'' = false := by simp [qIsDigit]
    have h3 : qIsLetter u '\'' = false := by simp [qIsLetter]
    simp [h1, h2, h3]
  · have h1 : qIsSpace '"' = false := by decide
    have h2 : qIsDigit u '"' = false := by simp [qIsDigit]
    have h3 : qIsLetter u '"' = false := by simp [qIsLetter]
    simp [h1, h2, h3]

theorem String_End_Reference_some (text : List Char) (s : Nat) (c : Char) (j : Nat)
    (h : String_End_Reference text s c = some j) :
    closesString text s c j = true ∧ ∀ k, closesString text s c k = true → j ≤ k := by
  obtain ⟨h1, -, h3, h4⟩ := findLeast_some _ _ _ _ h
  refine ⟨h3, fun k hk => ?_⟩
  by_contra hc
  have hk1 := (closesString_iff text s c k).mp hk
  have := h4 k (by omega) (by omega)
  rw [hk] at this
  cases this

theorem String_End_Reference_none (text : List Char) (s : Nat) (c : Char)
    (hs : text[s]? = some c) (h : String_End_Reference text s c = none) :
    ∀ k, closesString text s c k = false := by
  intro k
  have hlt : s < text.length := getElem?_some_lt hs
  by_cases hr : s + 1 ≤ k ∧ k < text.length
  · exact findLeast_none _ _ _ h k hr.1 (by omega)
  · apply closesString_false_of
    rintro ⟨g1, g2, -⟩
    have hk : k < text.length := getElem?_some_lt g2
    exact hr ⟨by omega, hk⟩

set_option maxRecDepth 100000 in
/-- C25: the end of a string in the tokenizer. For every line and every quote character
c, single or double, at an offset s where the scan is in the Start state: when the line
holds, after s, a character c with an even number (possibly zero) of consecutive
backslashes before it, the turns of the loop from s lead, without any other span
formatted, to the String span from s to the first such character included, and the scan
goes on in the Start state after it; when the line holds no such character the turns
lead to the end of the line in the String state without a span. The loop of
`highlightBlock` continues from the state these turns reach. So a quote after two
backslashes closes the string, a quote after one backslash does not, and the other quote
character does not. -/
theorem C25_string_termination (u : QCharTables) :
    (∀ (text : List Char) (s start0 : Nat) (c : Char) (bl : Int) (bp : List Nat)
      (toks : List Token), text[s]? = some c → (c = '\'' ∨ c = '"') →
      (∀ j, String_End_Reference text s c = some j →
        (s < j ∧ text[j]? = some c ∧ backslashRun text s j % 2 = 0 ∧
          ∀ k, s < k → text[k]? = some c → backslashRun text s k % 2 = 0 → j ≤ k) ∧
        ∃ n, highlightTurns u text n ⟨s, start0, 0, bl, bp, toks⟩ =
            some ⟨j + 1, s, 0, bl, bp, toks ++ [⟨TokenKind.String, s, j + 1 - s⟩]⟩ ∧
          ∀ f, highlightLoop u text (n + f) ⟨s, start0, 0, bl, bp, toks⟩ =
            highlightLoop u text f
              ⟨j + 1, s, 0, bl, bp, toks ++ [⟨TokenKind.String, s, j + 1 - s⟩]⟩) ∧
      (String_End_Reference text s c = none →
        (∀ k, s < k → text[k]? = some c → ¬ (backslashRun text s k % 2 = 0)) ∧
        ∃ n i', text.length < i' ∧
          highlightTurns u text n ⟨s, start0, 0, bl, bp, toks⟩ =
            some ⟨i', s, 4, bl, bp, toks⟩ ∧
          ∀ f, highlightLoop u text (n + f) ⟨s, start0, 0, bl, bp, toks⟩ =
            highlightLoop u text f ⟨i', s, 4, bl, bp, toks⟩)) ∧
    (String_End_Reference "'a\\\\' x".toList 0 '\'' = some 4 ∧
      highlightBlock u "'a\\\\' x".toList (-1) =
        some ⟨[⟨TokenKind.String, 0, 5⟩, ⟨TokenKind.Identifier, 6, 1⟩], [], 0⟩) ∧
    (String_End_Reference "'a\\' x' y".toList 0 '\'' = some 6 ∧
      highlightBlock u "'a\\' x' y".toList (-1) =
        some ⟨[⟨TokenKind.String, 0, 7⟩, ⟨TokenKind.Identifier, 8, 1⟩], [], 0⟩) ∧
    (String_End_Reference "'a\" x' y".toList 0 '\'' = some 5 ∧
      highlightBlock u "'a\" x' y".toList (-1) =
        some ⟨[⟨TokenKind.String, 0, 6⟩, ⟨TokenKind.Identifier, 7, 1⟩], [], 0⟩) ∧
    (String_End_Reference "'a\\\\\\' x".toList 0 '\'' = none ∧
      highlightBlock u "'a\\\\\\' x".toList (-1) = some ⟨[], [], 0⟩) := by
  refine ⟨?_, ⟨by decide, ?_⟩, ⟨by decide, ?_⟩, ⟨by decide, ?_⟩, ⟨by decide, ?_⟩⟩
  · intro text s start0 c bl bp toks hs hq
    have hlt : s < text.length := getElem?_some_lt hs
    have hfirst := startStep_quote u text s start0 c bl bp toks hs hq
    have hinv : StringScan text s c (s + 1) := by
      refine ⟨by omega, fun j hj => ?_, Or.inl ?_⟩
      · apply closesString_false_of
        rintro ⟨g, -, -⟩
        omega
      · rw [backslashRun, if_neg (by omega)]
    obtain ⟨a1, a2⟩ := stringScan_run u text s c bl bp toks hs hq (text.length + 1) (s + 1)
      (by omega) hinv
    refine ⟨fun j hj => ?_, fun hn => ?_⟩
    · obtain ⟨h1, h2⟩ := String_End_Reference_some text s c j hj
      have h3 := (closesString_iff text s c j).mp h1
      obtain ⟨n, hn⟩ := a1 j h1 h2
      have ht := highlightTurns_succ u text n _ _ _ (by simp only; omega) hfirst hn
      refine ⟨⟨h3.1, h3.2.1, h3.2.2, fun k g1 g2 g3 => ?_⟩, n + 1, ht, ?_⟩
      · exact h2 k ((closesString_iff text s c k).mpr ⟨g1, g2, g3⟩)
      · exact highlightTurns_loop u text (n + 1) _ _ ht
    · have h1 := String_End_Reference_none text s c hs hn
      obtain ⟨n, i', hn1, hlt1⟩ := a2 h1
      have ht := highlightTurns_succ u text n _ _ _ (by simp only; omega) hfirst hn1
      refine ⟨fun k g1 g2 g3 => ?_, n + 1, i', hlt1, ht, ?_⟩
      · have := h1 k
        rw [(closesString_iff text s c k).mpr ⟨g1, g2, g3⟩] at this
        cases this
      · exact highlightTurns_loop u text (n + 1) _ _ ht
  · rw [highlightBlock_ascii u _ (by decide)]; decide
  · rw [highlightBlock_ascii u _ (by decide)]; decide
  · rw [highlightBlock_ascii u _ (by decide)]; decide
  · rw [highlightBlock_ascii u _ (by decide)]; decide

end MySQLEditor
